import Mathlib

/-!
Verification of the SDP-bridging WHEP gateway (wowza2whep).

The Go sources are shallowly embedded here.  Strings are handled as
`List Char` internally (Go byte positions and Lean character positions
coincide on the data the program manipulates, and all the string
operations used by the program - Index, Split, Fields, TrimSpace,
HasPrefix, Contains - are occurrence-based, so the two views agree);
public entry points keep Go's `String → String` signatures.

Third-party library behaviour that the program relies on is modelled
faithfully from those libraries' documented algorithms:
`net.ParseIP` (Go standard library) and the `pion/sdp` v3 marshaller.
`sdp.SessionDescription.Unmarshal` is treated as an input oracle: the
theorems quantify over the structured description that a successful
parse produces.
-/

set_option maxHeartbeats 1000000

set_option maxRecDepth 10000

/-! ## Character-list utilities modelling Go's `strings` package -/

/-- Go `unicode.IsSpace` (the Latin-1 range of Go's table; SDP text is ASCII). -/
def goIsSpace (c : Char) : Bool :=
  c = ' ' || c = '\t' || c = '\n' || c = '\x0b' || c = '\x0c' || c = '\r' ||
  c = '\x85' || c = '\xa0'

/-- Leading-whitespace trim (first half of `strings.TrimSpace`). -/
def trimLeft (l : List Char) : List Char := l.dropWhile goIsSpace

/-- Trailing-whitespace trim (second half of `strings.TrimSpace`). -/
def trimRight (l : List Char) : List Char := (l.reverse.dropWhile goIsSpace).reverse

/-- `strings.TrimSpace` on a character list. -/
def trimSpace (l : List Char) : List Char := trimRight (trimLeft l)

/-- `strings.Index`: first position at which `pat` occurs in the list
(`none` models Go's `-1`). -/
def firstIdx (pat : List Char) : List Char → Option Nat
  | [] => if pat.isEmpty then some 0 else none
  | c :: rest =>
    if pat.isPrefixOf (c :: rest) then some 0
    else (firstIdx pat rest).map (· + 1)

/-- `strings.Contains`. -/
def containsSub (l pat : List Char) : Bool := (firstIdx pat l).isSome

/-- `strings.HasPrefix`. -/
def hasPre (l pat : List Char) : Bool := pat.isPrefixOf l

/-- `strings.TrimPrefix`. -/
def trimPre (l pat : List Char) : List Char :=
  if hasPre l pat then l.drop pat.length else l

theorem firstIdx_nil_eq (pat : List Char) :
    firstIdx pat [] = if pat.isEmpty then some 0 else none := rfl

theorem firstIdx_cons_eq (pat : List Char) (c : Char) (rest : List Char) :
    firstIdx pat (c :: rest) =
      if pat.isPrefixOf (c :: rest) then some 0
      else (firstIdx pat rest).map (· + 1) := rfl

theorem firstIdx_some_spec {pat l : List Char} {i : Nat}
    (h : firstIdx pat l = some i) : i + pat.length ≤ l.length ∧ pat <+: l.drop i := by
  induction l generalizing i with
  | nil =>
    rw [firstIdx_nil_eq] at h
    by_cases hp : pat.isEmpty
    · rw [if_pos hp, Option.some.injEq] at h
      subst h
      simp [List.isEmpty_iff.mp hp]
    · rw [if_neg hp] at h
      exact absurd h (Option.noConfusion)
  | cons c rest ih =>
    rw [firstIdx_cons_eq] at h
    by_cases hp : pat.isPrefixOf (c :: rest)
    · rw [if_pos hp, Option.some.injEq] at h
      subst h
      refine ⟨?_, by simpa using List.isPrefixOf_iff_prefix.mp hp⟩
      simpa using (List.isPrefixOf_iff_prefix.mp hp).length_le
    · rw [if_neg hp, Option.map_eq_some'] at h
      obtain ⟨j, hj, rfl⟩ := h
      obtain ⟨h1, h2⟩ := ih hj
      exact ⟨by simp only [List.length_cons]; omega, by simpa using h2⟩

theorem firstIdx_some_min {pat l : List Char} {i : Nat}
    (h : firstIdx pat l = some i) : ∀ j < i, ¬ pat <+: l.drop j := by
  induction l generalizing i with
  | nil =>
    intro j hj
    rw [firstIdx_nil_eq] at h
    by_cases hp : pat.isEmpty
    · rw [if_pos hp, Option.some.injEq] at h
      omega
    · rw [if_neg hp] at h
      exact absurd h (Option.noConfusion)
  | cons c rest ih =>
    rw [firstIdx_cons_eq] at h
    by_cases hp : pat.isPrefixOf (c :: rest)
    · rw [if_pos hp, Option.some.injEq] at h
      intro j hj
      omega
    · rw [if_neg hp, Option.map_eq_some'] at h
      obtain ⟨k, hk, rfl⟩ := h
      intro j hj
      match j with
      | 0 =>
        simpa using fun hpre => hp (List.isPrefixOf_iff_prefix.mpr hpre)
      | j + 1 =>
        simpa using ih hk j (by omega)

theorem firstIdx_none_spec {pat l : List Char}
    (h : firstIdx pat l = none) : ∀ j, ¬ pat <+: l.drop j := by
  induction l with
  | nil =>
    rw [firstIdx_nil_eq] at h
    by_cases hp : pat.isEmpty
    · rw [if_pos hp] at h
      exact absurd h (Option.noConfusion)
    · intro j hpre
      rw [List.drop_nil] at hpre
      exact hp (List.isEmpty_iff.mpr (List.prefix_nil.mp hpre))
  | cons c rest ih =>
    rw [firstIdx_cons_eq] at h
    by_cases hp : pat.isPrefixOf (c :: rest)
    · rw [if_pos hp] at h
      exact absurd h (Option.noConfusion)
    · rw [if_neg hp, Option.map_eq_none'] at h
      intro j
      match j with
      | 0 => simpa using fun hpre => hp (List.isPrefixOf_iff_prefix.mpr hpre)
      | j + 1 => simpa using ih h j

theorem firstIdx_isSome_of_pre {pat l : List Char} (h : pat <+: l) :
    firstIdx pat l = some 0 := by
  cases l with
  | nil =>
    have hp : pat = [] := List.prefix_nil.mp h
    simp [firstIdx_nil_eq, hp]
  | cons c rest =>
    rw [firstIdx_cons_eq, if_pos (List.isPrefixOf_iff_prefix.mpr h)]

/-- Occurrence anywhere is exactly infix. -/
theorem infix_iff_exists_drop {pat l : List Char} :
    pat <:+: l ↔ ∃ j, pat <+: l.drop j := by
  constructor
  · rintro ⟨s, t, rfl⟩
    exact ⟨s.length, by simp [List.drop_append_eq_append_drop, List.prefix_append]⟩
  · rintro ⟨j, t, ht⟩
    exact ⟨l.take j, t, by rw [List.append_assoc, ht]; simp⟩

theorem firstIdx_none_iff {pat l : List Char} :
    firstIdx pat l = none ↔ ¬ pat <:+: l := by
  constructor
  · intro h hinf
    obtain ⟨j, hj⟩ := infix_iff_exists_drop.mp hinf
    exact firstIdx_none_spec h j hj
  · intro h
    cases hfi : firstIdx pat l with
    | none => rfl
    | some i =>
      exact absurd (infix_iff_exists_drop.mpr ⟨i, (firstIdx_some_spec hfi).2⟩) h

theorem containsSub_iff_infix {l pat : List Char} :
    containsSub l pat = true ↔ pat <:+: l := by
  unfold containsSub
  cases hfi : firstIdx pat l with
  | none => simp [firstIdx_none_iff.mp hfi]
  | some i =>
    simp only [Option.isSome_some, true_iff]
    exact infix_iff_exists_drop.mpr ⟨i, (firstIdx_some_spec hfi).2⟩

/-- No full occurrence of `pat` inside the prefix cut at the first occurrence. -/
theorem not_infix_take_firstIdx {pat l : List Char} {i : Nat}
    (hne : pat ≠ []) (h : firstIdx pat l = some i) : ¬ pat <:+: l.take i := by
  intro hinf
  obtain ⟨j, hj⟩ := infix_iff_exists_drop.mp hinf
  rw [List.drop_take] at hj
  by_cases hij : j < i
  · have : pat <+: l.drop j := hj.trans (List.take_prefix _ _)
    exact firstIdx_some_min h j hij this
  · have hz : i - j = 0 := by omega
    rw [hz, List.take_zero, List.prefix_nil] at hj
    exact hne hj

theorem not_infix_of_infix_not {pat a b : List Char} (hab : a <:+: b)
    (h : ¬ pat <:+: b) : ¬ pat <:+: a := fun hi => h (hi.trans hab)

theorem trimLeft_infix (l : List Char) : trimLeft l <:+: l :=
  (List.dropWhile_suffix goIsSpace).isInfix

theorem trimRight_infix (l : List Char) : trimRight l <:+: l := by
  unfold trimRight
  obtain ⟨s, hs⟩ : l.reverse.dropWhile goIsSpace <:+ l.reverse :=
    List.dropWhile_suffix goIsSpace
  have h2 : (l.reverse.dropWhile goIsSpace).reverse ++ s.reverse = l := by
    have := congrArg List.reverse hs
    simpa [List.reverse_append] using this
  exact ⟨[], s.reverse, by simpa using h2⟩

theorem trimSpace_infix (l : List Char) : trimSpace l <:+: l :=
  ( trimRight_infix _).trans ( trimLeft_infix l)

theorem pre_of_pre_append_len {l x y : List Char} (h : l <+: x ++ y)
    (hl : l.length ≤ x.length) : l <+: x := by
  have h1 : l = (x ++ y).take l.length := List.prefix_iff_eq_take.mp h
  rw [List.take_append_eq_append_take, Nat.sub_eq_zero_of_le hl,
    List.take_zero, List.append_nil] at h1
  exact h1 ▸ List.take_prefix _ _

theorem drop_pre_of_pre_append {pat x y : List Char} (h : pat <+: x ++ y)
    (hx : x.length ≤ pat.length) : pat.drop x.length <+: y := by
  obtain ⟨r, hr⟩ := h
  refine ⟨r, ?_⟩
  have h2 := congrArg (List.drop x.length) hr
  rw [List.drop_append_eq_append_drop, Nat.sub_eq_zero_of_le hx, List.drop_zero,
    List.drop_append_eq_append_drop, List.drop_length, Nat.sub_self, List.drop_zero,
    List.nil_append] at h2
  exact h2

/-- Core lemma: appending `b` to a pattern-free `a` creates no occurrence of
`pat` unless a proper tail of `pat` is a prefix of `b`.  -/
theorem not_infix_append {pat a b : List Char}
    (ha : ¬ pat <:+: a) (hb : ¬ pat <:+: b)
    (hx : ∀ k, 0 < k → k < pat.length → ¬ (pat.drop k <+: b)) :
    ¬ pat <:+: (a ++ b) := by
  intro hinf
  obtain ⟨p, hp⟩ := infix_iff_exists_drop.mp hinf
  rw [List.drop_append_eq_append_drop] at hp
  by_cases hpa : a.length ≤ p
  · rw [List.drop_of_length_le hpa, List.nil_append] at hp
    exact hb (infix_iff_exists_drop.mpr ⟨p - a.length, hp⟩)
  · push_neg at hpa
    rw [Nat.sub_eq_zero_of_le (Nat.le_of_lt hpa), List.drop_zero] at hp
    by_cases hfit : p + pat.length ≤ a.length
    · have hlen : pat.length ≤ (a.drop p).length := by
        simp only [List.length_drop]; omega
      have hpre : pat <+: a.drop p := pre_of_pre_append_len hp hlen
      exact ha (infix_iff_exists_drop.mpr ⟨p, hpre⟩)
    · push_neg at hfit
      have hlenadp : (a.drop p).length = a.length - p := by simp
      have hk0 : 0 < a.length - p := by omega
      have hklen : a.length - p < pat.length := by omega
      have hdk : pat.drop (a.drop p).length <+: b :=
        drop_pre_of_pre_append hp (by omega)
      rw [hlenadp] at hdk
      exact hx (a.length - p) hk0 hklen hdk

/-- Accumulator form of `strings.Fields` (current word is kept reversed). -/
def fieldsAux : List Char → List Char → List (List Char)
  | [], acc => if acc.isEmpty then [] else [acc.reverse]
  | c :: rest, acc =>
    if goIsSpace c then
      if acc.isEmpty then fieldsAux rest [] else acc.reverse :: fieldsAux rest []
    else fieldsAux rest (c :: acc)

/-- `strings.Fields`: split around maximal runs of white space. -/
def fieldsGo (l : List Char) : List (List Char) := fieldsAux l []

/-- `strings.ToUpper` (ASCII; SDP transport tokens are ASCII). -/
def upperGo (l : List Char) : List Char := l.map Char.toUpper

/-! ## Go `strings.Split` and SDP line splitting (sdp.go `splitSDPLines`) -/

/-- Fuel-indexed splitter; with `fuel ≥ l.length` (and a non-empty separator)
the fuel is never exhausted, since every step removes at least one element. -/
def splitOnFuel (sep : List Char) : Nat → List Char → List (List Char)
  | 0, l => [l]
  | fuel + 1, l =>
    match firstIdx sep l with
    | none => [l]
    | some i => l.take i :: splitOnFuel sep fuel (l.drop (i + sep.length))

/-- `strings.Split` with a non-empty separator: cut at every occurrence. -/
def splitOnSub (sep : List Char) (l : List Char) : List (List Char) :=
  if sep = [] then [l] else splitOnFuel sep l.length l

def crlfSep : List Char := ['\r', '\n']

def lfSep : List Char := ['\n']

/-- sdp.go `splitSDPLines`: split on CRLF, fall back to LF when one line results. -/
def splitSDPLines (s : String) : List (List Char) :=
  let lines := splitOnSub crlfSep s.toList
  if lines.length = 1 then splitOnSub lfSep s.toList else lines

/-! ## Credential and media-order extraction (sdp.go) -/

/-- `ICECredentials` from sdp.go. -/
structure ICECredentials where
  iceUfrag : List Char
  icePwd : List Char
  fingerprint : List Char
  setup : List Char
  candidates : List (List Char)
deriving Repr, DecidableEq

/-- One switch step of `ExtractCredentials`. -/
def extractLine (creds : ICECredentials) (l : List Char) : ICECredentials :=
  let line := trimSpace l
  if hasPre line "a=ice-ufrag:".toList then
    { creds with iceUfrag := line.drop "a=ice-ufrag:".length }
  else if hasPre line "a=ice-pwd:".toList then
    { creds with icePwd := line.drop "a=ice-pwd:".length }
  else if hasPre line "a=fingerprint:".toList then
    { creds with fingerprint := line.drop "a=fingerprint:".length }
  else if hasPre line "a=setup:".toList then
    { creds with setup := line.drop "a=setup:".length }
  else if hasPre line "a=candidate:".toList then
    { creds with candidates := creds.candidates ++ [line.drop "a=".length] }
  else creds

/-- sdp.go `ExtractCredentials` (the Go function also returns an always-nil error). -/
def extractCredentials (s : String) : ICECredentials :=
  (splitSDPLines s).foldl extractLine ⟨[], [], [], [], []⟩

/-- `MediaInfo` from sdp.go. -/
structure MediaInfo where
  mid : List Char
  type : List Char
deriving Repr, DecidableEq

/-- One loop step of `ExtractMediaOrder`; state is (result, current).
A copy of `current` is appended at each `m=` line; when the `m=` line has
fewer than 4 fields Go keeps the old `current` pointer (the copy already
appended is unaffected by later `a=mid` updates). -/
def emoStepT (st : List MediaInfo × Option MediaInfo) (line : List Char) :
    List MediaInfo × Option MediaInfo :=
  if hasPre line "m=".toList then
    let result := match st.2 with
      | some c => st.1 ++ [c]
      | none => st.1
    let parts := fieldsGo line
    if 4 ≤ parts.length then (result, some ⟨[], (parts.headD []).drop 2⟩)
    else (result, st.2)
  else if st.2.isSome ∧ hasPre line "a=mid:".toList then
    (st.1, st.2.map fun c => { c with mid := line.drop "a=mid:".length })
  else st

/-- One loop step of `ExtractMediaOrder` on a raw line: Go first applies
`strings.TrimSpace`. -/
def emoStep (st : List MediaInfo × Option MediaInfo) (l : List Char) :
    List MediaInfo × Option MediaInfo :=
  emoStepT st (trimSpace l)

/-- sdp.go `ExtractMediaOrder`. -/
def extractMediaOrder (s : String) : List MediaInfo :=
  let st := (splitSDPLines s).foldl emoStep ([], none)
  match st.2 with
  | some c => st.1 ++ [c]
  | none => st.1

/-! ## wowza.go `cleanWowzaCandidate` -/

def genPat : List Char := " generation".toList

def tcpSuffix : List Char := " tcptype passive".toList

def tcptypePat : List Char := "tcptype".toList

/-- First phase of `cleanWowzaCandidate`: cut a `" generation"` suffix found at
a positive index (Go tests `idx > 0`). -/
def truncGen (cand : List Char) : List Char :=
  match firstIdx genPat cand with
  | some idx => if 0 < idx then trimSpace (cand.take idx) else cand
  | none => cand

/-- Second phase of `cleanWowzaCandidate`: append `" tcptype passive"` to a TCP
candidate that does not already mention `tcptype`. -/
def addTcptypeGo (cand : List Char) : List Char :=
  let parts := fieldsGo cand
  if 3 ≤ parts.length then
    if upperGo (parts.getD 2 []) = "TCP".toList ∧ containsSub cand tcptypePat = false then
      cand ++ tcpSuffix
    else cand
  else cand

def cleanWowzaCandidateChars (cand : List Char) : List Char :=
  addTcptypeGo (truncGen cand)

/-- wowza.go `cleanWowzaCandidate`. -/
def cleanWowzaCandidate (candidate : String) : String :=
  (cleanWowzaCandidateChars candidate.toList).asString

/-! ## Properties of `cleanWowzaCandidate` (claim C5) -/

theorem genPat_ne_nil : genPat ≠ [] := by decide

/-- After truncation, `" generation"` can occur only as a prefix. -/
theorem truncGen_occOnly0 (c : List Char) :
    ¬ genPat <:+: truncGen c ∨ genPat <+: truncGen c := by
  unfold truncGen
  cases hfi : firstIdx genPat c with
  | none => exact Or.inl (firstIdx_none_iff.mp hfi)
  | some idx =>
    dsimp only
    by_cases hpos : 0 < idx
    · rw [if_pos hpos]
      exact Or.inl (not_infix_of_infix_not ( trimSpace_infix _)
        (not_infix_take_firstIdx genPat_ne_nil hfi))
    · rw [if_neg hpos]
      have h0 : idx = 0 := by omega
      subst h0
      exact Or.inr (by simpa using (firstIdx_some_spec hfi).2)

/-- Truncation is the identity when `" generation"` occurs only as a prefix. -/
theorem truncGen_eq_of_occOnly0 {l : List Char}
    (h : ¬ genPat <:+: l ∨ genPat <+: l) : truncGen l = l := by
  unfold truncGen
  cases hfi : firstIdx genPat l with
  | none => rfl
  | some i =>
    dsimp only
    rcases h with h | h
    · exact absurd (infix_iff_exists_drop.mpr ⟨i, (firstIdx_some_spec hfi).2⟩) h
    · have := firstIdx_isSome_of_pre h
      rw [this] at hfi
      have hi0 : i = 0 := by
        injection hfi with h0
        omega
      subst hi0
      simp

theorem tcpSuffix_tail_free :
    ∀ k, 0 < k → k < genPat.length → ¬ (genPat.drop k <+: tcpSuffix) := by
  intro k hk0 hklen
  have h11 : genPat.length = 11 := by decide
  rw [h11] at hklen
  interval_cases k <;> decide

/-- The tcptype phase preserves "generation only as a prefix". -/
theorem addTcptype_occOnly0 {l : List Char}
    (h : ¬ genPat <:+: l ∨ genPat <+: l) :
    ¬ genPat <:+: addTcptypeGo l ∨ genPat <+: addTcptypeGo l := by
  unfold addTcptypeGo
  dsimp only
  split_ifs with h1 h2
  · rcases h with h | h
    · exact Or.inl (not_infix_append h (by decide) tcpSuffix_tail_free)
    · exact Or.inr (h.trans (List.prefix_append l tcpSuffix))
  · exact h
  · exact h

/-- The tcptype phase is idempotent. -/
theorem addTcptype_idem (l : List Char) :
    addTcptypeGo (addTcptypeGo l) = addTcptypeGo l := by
  by_cases h1 : 3 ≤ (fieldsGo l).length
  · by_cases h2 : upperGo ((fieldsGo l).getD 2 []) = "TCP".toList
      ∧ containsSub l tcptypePat = false
    · have happ : addTcptypeGo l = l ++ tcpSuffix := by
        unfold addTcptypeGo
        rw [if_pos h1, if_pos h2]
      rw [happ]
      have hcont : containsSub (l ++ tcpSuffix) tcptypePat = true := by
        refine containsSub_iff_infix.mpr ?_
        have h3 : tcptypePat <:+: tcpSuffix := by decide
        exact h3.trans (List.suffix_append l tcpSuffix).isInfix
      unfold addTcptypeGo
      dsimp only
      split_ifs with h3 h4
      · rw [hcont] at h4
        exact absurd h4.2 (by simp)
      · rfl
      · rfl
    · have hid : addTcptypeGo l = l := by
        unfold addTcptypeGo
        rw [if_pos h1, if_neg h2]
      rw [hid, hid]
  · have hid : addTcptypeGo l = l := by
      unfold addTcptypeGo
      rw [if_neg h1]
    rw [hid, hid]

theorem cleanChars_idem (c : List Char) :
    cleanWowzaCandidateChars (cleanWowzaCandidateChars c) = cleanWowzaCandidateChars c := by
  unfold cleanWowzaCandidateChars
  have h1 := truncGen_occOnly0 c
  have h2 := addTcptype_occOnly0 h1
  rw [truncGen_eq_of_occOnly0 h2, addTcptype_idem]

/-- A generation-free TCP candidate without `tcptype` gains the suffix. -/
theorem clean_tcptype_of_noGen {c : List Char}
    (hng : containsSub c genPat = false)
    (h3 : 3 ≤ (fieldsGo c).length)
    (htcp : upperGo ((fieldsGo c).getD 2 []) = "TCP".toList)
    (hct : containsSub c tcptypePat = false) :
    containsSub (cleanWowzaCandidateChars c) tcptypePat = true := by
  have hfi : firstIdx genPat c = none := by
    unfold containsSub at hng
    exact Option.not_isSome_iff_eq_none.mp (by simp [hng])
  have htr : truncGen c = c := by
    unfold truncGen
    rw [hfi]
  unfold cleanWowzaCandidateChars
  rw [htr]
  unfold addTcptypeGo
  dsimp only
  rw [if_pos h3, if_pos ⟨htcp, hct⟩]
  refine containsSub_iff_infix.mpr ?_
  have h4 : tcptypePat <:+: tcpSuffix := by decide
  exact h4.trans (List.suffix_append c tcpSuffix).isInfix

theorem clean_idem (c : String) :
    cleanWowzaCandidate (cleanWowzaCandidate c) = cleanWowzaCandidate c := by
  unfold cleanWowzaCandidate
  rw [List.toList_asString, cleanChars_idem]

/-- C5 (amended).  `cleanWowzaCandidate` is idempotent on every string.  For
every candidate in which `" generation"` does not occur whose third
whitespace-separated field is TCP case-insensitively and which lacks
`tcptype`, the result contains `tcptype`.  For every candidate, the cleaned
result can contain `" generation"` only as a leading prefix (the positive-index
truncation can never fire again); and cleaning the S5 example input yields the
claimed output.  (The original claim's unconditional tcptype and
no-generation-suffix parts fail when `" generation"` occurs at index 0 or
before the transport field: see the counterexample.) -/
theorem claim_C5_amended :
    (∀ c : String, cleanWowzaCandidate (cleanWowzaCandidate c) = cleanWowzaCandidate c)
    ∧ (∀ c : List Char, containsSub c genPat = false →
        3 ≤ (fieldsGo c).length →
        upperGo ((fieldsGo c).getD 2 []) = "TCP".toList →
        containsSub c tcptypePat = false →
        containsSub (cleanWowzaCandidateChars c) tcptypePat = true)
    ∧ (∀ c : List Char,
        ¬ genPat <:+: cleanWowzaCandidateChars c ∨ genPat <+: cleanWowzaCandidateChars c)
    ∧ cleanWowzaCandidate "candidate:1 1 TCP 100 1.2.3.4 9 typ host generation 0"
        = "candidate:1 1 TCP 100 1.2.3.4 9 typ host tcptype passive" := by
  refine ⟨clean_idem, ?_, ?_, by decide⟩
  · intro c hng h3 htcp hct
    exact clean_tcptype_of_noGen hng h3 htcp hct
  · intro c
    exact addTcptype_occOnly0 (truncGen_occOnly0 c)

/-- C5 counterexample.  `"a generation TCP x"` has third field `TCP` and lacks
`tcptype`, yet its cleaned form (`"a"`) does not contain `tcptype`: the claim's
"for every candidate whose third field is TCP ... the result contains tcptype"
is false as stated, because the `" generation"` truncation runs first and can
remove the transport field. -/
theorem claim_C5_counterexample :
    (3 ≤ (fieldsGo "a generation TCP x".toList).length
      ∧ upperGo ((fieldsGo "a generation TCP x".toList).getD 2 []) = "TCP".toList
      ∧ containsSub "a generation TCP x".toList tcptypePat = false)
    ∧ containsSub (cleanWowzaCandidate "a generation TCP x").toList tcptypePat = false
    ∧ cleanWowzaCandidate "a generation TCP x" = "a" := by decide

/-- C5 witness: the amended tcptype clause applied at a concrete input. -/
theorem claim_C5_witness :
    containsSub
      (cleanWowzaCandidateChars "candidate:1 1 tcp 100 9.9.9.9 9 typ host".toList)
      tcptypePat = true :=
  claim_C5_amended.2.1 "candidate:1 1 tcp 100 9.9.9.9 9 typ host".toList
    (by decide) (by decide) (by decide) (by decide)

/-! ## Go `net.ParseIP` model (used by sdp.go `filterPrivateIPs`)

`net.ParseIP` (Go ≥ 1.18) parses via `netip.ParseAddr`, rejects zones, and
returns the 16-byte form (IPv4 stored IPv4-mapped).  The address is modelled
as a list of 16 byte values. -/

def hexDigitVal (c : Char) : Option Nat :=
  if '0' ≤ c ∧ c ≤ '9' then some (c.toNat - '0'.toNat)
  else if 'a' ≤ c ∧ c ≤ 'f' then some (c.toNat - 'a'.toNat + 10)
  else if 'A' ≤ c ∧ c ≤ 'F' then some (c.toNat - 'A'.toNat + 10)
  else none

def isHexDigitGo (c : Char) : Bool := (hexDigitVal c).isSome

/-- One dotted-decimal field: non-empty, digits only, no leading zero, ≤ 255. -/
def v4FieldVal (f : List Char) : Option Nat :=
  if f.isEmpty then none
  else if !(f.all Char.isDigit) then none
  else if 2 ≤ f.length ∧ f.headD '1' = '0' then none
  else
    let v := f.foldl (fun acc c => acc * 10 + (c.toNat - '0'.toNat)) 0
    if v ≤ 255 then some v else none

/-- The 16-byte IPv4-mapped form `::ffff:a.b.c.d`. -/
def v4mapped (a b c d : Nat) : List Nat :=
  [0, 0, 0, 0, 0, 0, 0, 0, 0, 0, 0xff, 0xff, a, b, c, d]

/-- `netip.parseIPv4`: exactly four valid dotted-decimal fields. -/
def parseIPv4 (s : List Char) : Option (List Nat) :=
  match splitOnSub ['.'] s with
  | [f0, f1, f2, f3] =>
    match v4FieldVal f0, v4FieldVal f1, v4FieldVal f2, v4FieldVal f3 with
    | some a, some b, some c, some d => some (v4mapped a b c d)
    | _, _, _, _ => none
  | _ => none

/-- Ellipsis expansion and final checks of `netip.parseIPv6`. -/
def v6Finish (acc : List Nat) (ell : Option Nat) : Option (List Nat) :=
  if acc.length < 16 then
    match ell with
    | none => none
    | some p => some (acc.take p ++ List.replicate (16 - acc.length) 0 ++ acc.drop p)
  else if acc.length = 16 then
    match ell with
    | none => some acc
    | some _ => none
  else none

/-- Main loop of `netip.parseIPv6`.  `acc` collects bytes, `ell` records the
byte position of `::`.  A group of more than 4 hex digits fails (netip's
"each group must have 4 or fewer digits" check, so `::00001` is rejected as
in Go), as does a 16-bit overflow.  Any `%` (zone) makes `net.ParseIP` fail,
so it is an invalid character here.  The fuel only bounds the number of
`:`-separated groups (at most eight), so 20 is never exhausted. -/
def parseV6Loop : Nat → List Char → List Nat → Option Nat → Option (List Nat)
  | 0, _, _, _ => none
  | fuel + 1, s, acc, ell =>
    if 16 ≤ acc.length then
      if s.isEmpty then v6Finish acc ell else none
    else
      let digits := s.takeWhile isHexDigitGo
      let rest := s.dropWhile isHexDigitGo
      if digits.isEmpty then none
      else if 4 < digits.length then none
      else
        let v := digits.foldl (fun a c => a * 16 + (hexDigitVal c).getD 0) 0
        if 0xffff < v then none
        else
          match rest with
          | '.' :: _ =>
            if ell = none ∧ acc.length ≠ 12 then none
            else if 16 < acc.length + 4 then none
            else
              match parseIPv4 s with
              | some ip16 => v6Finish (acc ++ ip16.drop 12) ell
              | none => none
          | [] => v6Finish (acc ++ [v / 256, v % 256]) ell
          | ':' :: rest2 =>
            let acc2 := acc ++ [v / 256, v % 256]
            match rest2 with
            | [] => none
            | ':' :: rest3 =>
              if ell.isSome then none
              else if rest3.isEmpty then v6Finish acc2 (some acc2.length)
              else parseV6Loop fuel rest3 acc2 (some acc2.length)
            | _ => parseV6Loop fuel rest2 acc2 ell
          | _ => none

/-- `netip.parseIPv6` (zones rejected, as `net.ParseIP` does). -/
def parseIPv6 (s : List Char) : Option (List Nat) :=
  match s with
  | ':' :: ':' :: rest =>
    if rest.isEmpty then some (List.replicate 16 0)
    else parseV6Loop 20 rest [] (some 0)
  | _ => parseV6Loop 20 s [] none

/-- `net.ParseIP` on a character list: dispatch on the first `.`/`:`/`%`. -/
def goParseIPChars (l : List Char) : Option (List Nat) :=
  match l.find? (fun c => c = '.' || c = ':' || c = '%') with
  | some c => if c = '.' then parseIPv4 l else if c = ':' then parseIPv6 l else none
  | none => none

/-- `IP.To4`: the four trailing bytes when the 16-byte form is IPv4-mapped. -/
def goTo4 (ip : List Nat) : Option (List Nat) :=
  if ip.length = 16 ∧ ip.take 10 = List.replicate 10 0
      ∧ ip.getD 10 0 = 0xff ∧ ip.getD 11 0 = 0xff
  then some (ip.drop 12) else none

/-- `IP.IsPrivate`. -/
def goIsPrivate (ip : List Nat) : Bool :=
  match goTo4 ip with
  | some q =>
    q.getD 0 0 = 10
      ∨ (q.getD 0 0 = 172 ∧ 16 ≤ q.getD 1 0 ∧ q.getD 1 0 ≤ 31)
      ∨ (q.getD 0 0 = 192 ∧ q.getD 1 0 = 168)
  | none => ip.getD 0 0 = 0xfc ∨ ip.getD 0 0 = 0xfd

/-- `IP.IsLoopback`. -/
def goIsLoopback (ip : List Nat) : Bool :=
  match goTo4 ip with
  | some q => q.getD 0 0 = 127
  | none => ip = [0, 0, 0, 0, 0, 0, 0, 0, 0, 0, 0, 0, 0, 0, 0, 1]

/-- `IP.IsLinkLocalUnicast`. -/
def goIsLinkLocalUnicast (ip : List Nat) : Bool :=
  match goTo4 ip with
  | some q => q.getD 0 0 = 169 ∧ q.getD 1 0 = 254
  | none => ip.getD 0 0 = 0xfe ∧ 128 ≤ ip.getD 1 0 ∧ ip.getD 1 0 ≤ 191

/-- sdp.go `isPrivateIP`. -/
def isPrivateIPGo (ip : List Nat) : Bool :=
  goIsPrivate ip || goIsLoopback ip || goIsLinkLocalUnicast ip

/-! ## sdp.go `filterPrivateIPs` -/

/-- The per-line loop of `filterPrivateIPs` (`continue` drops the line). -/
def filterLines : List (List Char) → List (List Char)
  | [] => []
  | line :: rest =>
    if hasPre line "a=end-of-candidates".toList then filterLines rest
    else if hasPre line "a=candidate:".toList then
      if 5 ≤ (fieldsGo line).length then
        match goParseIPChars ((fieldsGo line).getD 4 []) with
        | some ip =>
          if goTo4 ip = none ∨ isPrivateIPGo ip = true then filterLines rest
          else line :: filterLines rest
        | none => line :: filterLines rest
      else line :: filterLines rest
    else line :: filterLines rest

/-- sdp.go `filterPrivateIPs`: split on CRLF, drop the matching lines, rejoin. -/
def filterPrivateIPs (s : String) : String :=
  (List.intercalate crlfSep (filterLines (splitOnSub crlfSep s.toList))).asString

/-! ## Claim C4: behaviour of `filterPrivateIPs` -/

def isRFC1918 (q : List Nat) : Bool :=
  q.getD 0 0 = 10
    ∨ (q.getD 0 0 = 172 ∧ 16 ≤ q.getD 1 0 ∧ q.getD 1 0 ≤ 31)
    ∨ (q.getD 0 0 = 192 ∧ q.getD 1 0 = 168)

def isLoopbackV4 (q : List Nat) : Bool := q.getD 0 0 = 127

def isLinkLocalV4 (q : List Nat) : Bool := q.getD 0 0 = 169 ∧ q.getD 1 0 = 254

/-- The claim's removal condition, stated in its own words: an
`a=end-of-candidates` line, or an `a=candidate:` line whose fifth
whitespace-separated field parses (as `net.ParseIP`) to a non-IPv4 address or
to an RFC1918 / loopback / link-local IPv4 address. -/
def lineRemoved (line : List Char) : Bool :=
  hasPre line "a=end-of-candidates".toList ||
  (hasPre line "a=candidate:".toList &&
    match goParseIPChars ((fieldsGo line).getD 4 []) with
    | some ip =>
      match goTo4 ip with
      | none => true
      | some q => isRFC1918 q || isLoopbackV4 q || isLinkLocalV4 q
    | none => false)

theorem filterLines_eq_filter (ls : List (List Char)) :
    filterLines ls = ls.filter (fun l => !lineRemoved l) := by
  induction ls with
  | nil => rfl
  | cons line rest ih =>
    rw [List.filter_cons]
    unfold filterLines
    by_cases h1 : hasPre line "a=end-of-candidates".toList
    · rw [if_pos h1]
      have hrem : lineRemoved line = true := by
        unfold lineRemoved
        rw [h1, Bool.true_or]
      rw [hrem]
      simpa using ih
    · rw [if_neg h1]
      rw [Bool.not_eq_true] at h1
      by_cases h2 : hasPre line "a=candidate:".toList
      · rw [if_pos h2]
        by_cases h5 : 5 ≤ (fieldsGo line).length
        · rw [if_pos h5]
          cases hp : goParseIPChars ((fieldsGo line).getD 4 []) with
          | none =>
            dsimp only
            have hrem : lineRemoved line = false := by
              unfold lineRemoved
              rw [h1, h2, hp]
              rfl
            rw [hrem]
            simpa using ih
          | some ip =>
            dsimp only
            cases ht : goTo4 ip with
            | none =>
              rw [if_pos (Or.inl rfl)]
              have hrem : lineRemoved line = true := by
                unfold lineRemoved
                rw [h1, h2, hp]
                dsimp only
                rw [ht]
                rfl
              rw [hrem]
              simpa using ih
            | some q =>
              by_cases hpriv : isPrivateIPGo ip = true
              · rw [if_pos (Or.inr hpriv)]
                have hrem : lineRemoved line = true := by
                  unfold lineRemoved
                  rw [h1, h2, hp]
                  dsimp only
                  rw [ht]
                  dsimp only
                  unfold isPrivateIPGo goIsPrivate goIsLoopback goIsLinkLocalUnicast at hpriv
                  rw [ht] at hpriv
                  dsimp only at hpriv
                  unfold isRFC1918 isLoopbackV4 isLinkLocalV4
                  simpa using hpriv
                rw [hrem]
                simpa using ih
              · rw [if_neg (fun hor =>
                  hor.elim (fun hc => Option.noConfusion hc) hpriv)]
                rw [Bool.not_eq_true] at hpriv
                have hrem : lineRemoved line = false := by
                  unfold lineRemoved
                  rw [h1, h2, hp]
                  dsimp only
                  rw [ht]
                  dsimp only
                  unfold isPrivateIPGo goIsPrivate goIsLoopback goIsLinkLocalUnicast at hpriv
                  rw [ht] at hpriv
                  dsimp only at hpriv
                  unfold isRFC1918 isLoopbackV4 isLinkLocalV4
                  simpa using hpriv
                rw [hrem]
                simpa using ih
        · rw [if_neg h5]
          have hfd : (fieldsGo line).getD 4 [] = [] := by
            apply List.getD_eq_default
            omega
          have hrem : lineRemoved line = false := by
            unfold lineRemoved
            rw [h1, h2, hfd]
            rfl
          rw [hrem]
          simpa using ih
      · rw [if_neg h2]
        rw [Bool.not_eq_true] at h2
        have hrem : lineRemoved line = false := by
          unfold lineRemoved
          rw [h1, h2]
          rfl
        rw [hrem]
        simpa using ih

/-- C4.  `filterPrivateIPs` splits its input at CRLF and reproduces exactly the
lines that are not removed, unchanged and in order; a line is removed precisely
when it is an `a=end-of-candidates` line or an `a=candidate:` line whose fifth
whitespace-separated field parses (per `net.ParseIP`) to a non-IPv4 address or
to an RFC1918, loopback, or link-local IPv4 address. -/
theorem claim_C4 (s : String) :
    filterPrivateIPs s =
      (List.intercalate crlfSep
        ((splitOnSub crlfSep s.toList).filter (fun l => !lineRemoved l))).asString := by
  unfold filterPrivateIPs
  rw [filterLines_eq_filter]

/-! ## Decimal rendering (used by the pion/sdp marshaller model) -/

def natCharsAux : Nat → Nat → List Char → List Char
  | 0, _, acc => acc
  | fuel + 1, n, acc =>
    let d := Nat.digitChar (n % 10)
    if n < 10 then d :: acc else natCharsAux fuel (n / 10) (d :: acc)

def natChars (n : Nat) : List Char := natCharsAux (n + 1) n []

/-! ## pion/sdp v3 structured session description and marshaller

The fields the program reads or writes are modelled; optional pion fields the
program never touches (session information, URI, bandwidth, time zones,
encryption keys, repeat times) are modelled as absent. -/

structure GoAttr where
  key : List Char
  value : List Char
deriving Repr, DecidableEq

/-- pion `Attribute.String`, prefixed by `a=`: `a=key` or `a=key:value`. -/
def attrLine (a : GoAttr) : List Char :=
  "a=".toList ++ a.key ++ (if a.value.isEmpty then [] else ':' :: a.value)

structure RangedPort where
  value : Nat
  range : Option Nat
deriving Repr, DecidableEq

structure MediaName where
  media : List Char
  port : RangedPort
  protos : List (List Char)
  formats : List (List Char)
deriving Repr, DecidableEq

structure ConnInfo where
  networkType : List Char
  addressType : List Char
  address : Option (List Char)
deriving Repr, DecidableEq

structure MediaDesc where
  mediaName : MediaName
  connInfo : Option ConnInfo
  attributes : List GoAttr
deriving Repr, DecidableEq

structure Origin where
  username : List Char
  sessionID : Nat
  sessionVersion : Nat
  networkType : List Char
  addressType : List Char
  unicastAddress : List Char
deriving Repr, DecidableEq

structure TimingDesc where
  startTime : Nat
  stopTime : Nat
deriving Repr, DecidableEq

structure SessionDesc where
  version : Nat
  origin : Origin
  sessionName : List Char
  connInfo : Option ConnInfo
  timeDescriptions : List TimingDesc
  attributes : List GoAttr
  mediaDescriptions : List MediaDesc
deriving Repr, DecidableEq

def vLine (n : Nat) : List Char := "v=".toList ++ natChars n

def oLine (o : Origin) : List Char :=
  "o=".toList ++ o.username ++ [' '] ++ natChars o.sessionID ++ [' ']
    ++ natChars o.sessionVersion ++ [' '] ++ o.networkType ++ [' ']
    ++ o.addressType ++ [' '] ++ o.unicastAddress

def sLine (name : List Char) : List Char := "s=".toList ++ name

def connLine (c : ConnInfo) : List Char :=
  "c=".toList ++ c.networkType ++ [' '] ++ c.addressType
    ++ (match c.address with | some a => ' ' :: a | none => [])

def tLine (t : TimingDesc) : List Char :=
  "t=".toList ++ natChars t.startTime ++ [' '] ++ natChars t.stopTime

def mLine (mn : MediaName) : List Char :=
  "m=".toList ++ mn.media ++ [' '] ++ natChars mn.port.value
    ++ (match mn.port.range with | some r => '/' :: natChars r | none => [])
    ++ [' '] ++ List.intercalate ['/'] mn.protos
    ++ [' '] ++ List.intercalate [' '] mn.formats

def mediaLines (md : MediaDesc) : List (List Char) :=
  mLine md.mediaName ::
    ((match md.connInfo with | some c => [connLine c] | none => [])
      ++ md.attributes.map attrLine)

def sessionLines (d : SessionDesc) : List (List Char) :=
  [vLine d.version, oLine d.origin, sLine d.sessionName]
    ++ (match d.connInfo with | some c => [connLine c] | none => [])
    ++ d.timeDescriptions.map tLine
    ++ d.attributes.map attrLine

def marshalLines (d : SessionDesc) : List (List Char) :=
  sessionLines d ++ (d.mediaDescriptions.map mediaLines).flatten

/-- pion `SessionDescription.Marshal`: every line ends in CRLF (hence the
final empty piece under a CRLF split). -/
def marshalString (d : SessionDesc) : String :=
  (List.intercalate crlfSep (marshalLines d ++ [[]])).asString

/-! ## sdp.go `CreateAnswerForWowza` -/

/-- The session-attribute loop: replace `a=fingerprint` with the client's. -/
def rewriteSessionAttr (cc : ICECredentials) (a : GoAttr) : GoAttr :=
  if a.key = "fingerprint".toList ∧ ¬ cc.fingerprint.isEmpty then
    ⟨"fingerprint".toList, cc.fingerprint⟩
  else a

/-- The media-attribute switch of `CreateAnswerForWowza` (one attribute in,
zero or one attribute out). -/
def rewriteMediaAttr (cc : ICECredentials) (attr : GoAttr) : List GoAttr :=
  if attr.key = "ice-ufrag".toList then
    if cc.iceUfrag.isEmpty then [] else [⟨"ice-ufrag".toList, cc.iceUfrag⟩]
  else if attr.key = "ice-pwd".toList then
    if cc.icePwd.isEmpty then [] else [⟨"ice-pwd".toList, cc.icePwd⟩]
  else if attr.key = "fingerprint".toList then
    if cc.fingerprint.isEmpty then [] else [⟨"fingerprint".toList, cc.fingerprint⟩]
  else if attr.key = "setup".toList then [⟨"setup".toList, "active".toList⟩]
  else if attr.key = "sendrecv".toList then [⟨"recvonly".toList, []⟩]
  else if attr.key = "candidate".toList then []
  else [attr]

/-- Rebuild one media section: rewritten attributes plus the client's
candidates (whose values keep their `candidate:` prefix from extraction, as in
the Go code). -/
def rewriteMedia (cc : ICECredentials) (md : MediaDesc) : MediaDesc :=
  { md with attributes :=
      (md.attributes.map (rewriteMediaAttr cc)).flatten
        ++ cc.candidates.map (fun c => ⟨"candidate".toList, c⟩) }

/-- The structured part of `CreateAnswerForWowza` before marshalling. -/
def answerForWowzaDesc (wowzaDesc : SessionDesc) (cc : ICECredentials) : SessionDesc :=
  { wowzaDesc with
    attributes := wowzaDesc.attributes.map (rewriteSessionAttr cc),
    mediaDescriptions := wowzaDesc.mediaDescriptions.map (rewriteMedia cc) }

def trickleLine : List Char := "a=ice-options:trickle".toList

def insertAfterFirstUfrag : List (List Char) → List (List Char)
  | [] => []
  | l :: rest =>
    if hasPre l "a=ice-ufrag:".toList then l :: trickleLine :: rest
    else l :: insertAfterFirstUfrag rest

/-- sdp.go `addTrickleICE` on lines.  (The Go guard is a substring test on the
whole string; the trickle option contains no CR, so an occurrence never spans a
CRLF boundary and the guard is equivalent to a per-line test.) -/
def addTrickleLines (ls : List (List Char)) : List (List Char) :=
  if ls.any (fun l => containsSub l trickleLine) then ls
  else insertAfterFirstUfrag ls

/-- sdp.go `addTrickleICE`. -/
def addTrickleICE (s : String) : String :=
  (List.intercalate crlfSep (addTrickleLines (splitOnSub crlfSep s.toList))).asString

/-- sdp.go `CreateAnswerForWowza`, with the wowza offer's successful
`Unmarshal` result passed as the structured `wowzaDesc` (the error paths -
parse and marshal failures - are the only ones; extraction never fails). -/
def CreateAnswerForWowza (wowzaDesc : SessionDesc) (clientOffer : String) : String :=
  addTrickleICE (filterPrivateIPs
    (marshalString (answerForWowzaDesc wowzaDesc (extractCredentials clientOffer))))

/-- The same pipeline on CRLF-split lines (without the final empty piece that
the trailing CRLF of `marshalString` produces; both filtering and the trickle
insertion are proved to commute with that final empty line). -/
def CreateAnswerForWowzaLines (wowzaDesc : SessionDesc) (clientOffer : String) :
    List (List Char) :=
  addTrickleLines (filterLines
    (marshalLines (answerForWowzaDesc wowzaDesc (extractCredentials clientOffer))))

/-! ## sdp.go `CreateAnswerForClient` -/

/-- wowza.go `WowzaICECandidate` (`sdpMLineIndex` is a `*uint16` in Go). -/
structure WowzaICECandidate where
  candidate : List Char
  sdpMid : Option (List Char)
  sdpMLineIndex : Option Nat
deriving Repr, DecidableEq

/-- `strings.ToLower` (ASCII; media-type tokens are ASCII). -/
def lowerGo (l : List Char) : List Char := l.map Char.toLower

/-- The `wowzaMediaByType` map: keyed by lower-cased media name, the last
insertion winning, as for a Go map filled in slice order. -/
def wowzaMediaByType (mds : List MediaDesc) (key : List Char) : Option MediaDesc :=
  (mds.filter (fun md => lowerGo md.mediaName.media = key)).getLast?

/-- Media attribute keys copied through from Wowza's section. -/
def codecKeys : List (List Char) :=
  ["rtpmap".toList, "fmtp".toList, "rtcp-fb".toList, "ssrc".toList,
   "msid".toList, "cliprect".toList, "framesize".toList, "control".toList]

/-- The rejected section emitted when Wowza has no media of the client's type. -/
def rejectedSection (wc : ICECredentials) (cm : MediaInfo) : MediaDesc :=
  { mediaName :=
      { media := lowerGo cm.type, port := ⟨0, none⟩,
        protos := ["UDP".toList, "TLS".toList, "RTP".toList, "SAVPF".toList],
        formats := [['0']] },
    connInfo := none,
    attributes :=
      [⟨"mid".toList, cm.mid⟩,
       ⟨"ice-ufrag".toList, wc.iceUfrag⟩,
       ⟨"ice-pwd".toList, wc.icePwd⟩,
       ⟨"fingerprint".toList, wc.fingerprint⟩,
       ⟨"setup".toList, "passive".toList⟩,
       ⟨"inactive".toList, []⟩] }

/-- One media section of the client answer at client-order index `i`. -/
def buildClientSection (wc : ICECredentials) (wowzaDesc : SessionDesc)
    (cands : List WowzaICECandidate) (i : Nat) (cm : MediaInfo) : MediaDesc :=
  let mediaType := lowerGo cm.type
  match wowzaMediaByType wowzaDesc.mediaDescriptions mediaType with
  | none => rejectedSection wc cm
  | some wmd =>
    { mediaName :=
        { media := wmd.mediaName.media, port := ⟨9, none⟩,
          protos := ["UDP".toList, "TLS".toList, "RTP".toList, "SAVPF".toList],
          formats := wmd.mediaName.formats },
      connInfo := some ⟨"IN".toList, "IP4".toList, some "0.0.0.0".toList⟩,
      attributes :=
        (wmd.attributes.filter (fun a => a.key ∈ codecKeys))
          ++ [⟨"ice-ufrag".toList, wc.iceUfrag⟩,
              ⟨"ice-pwd".toList, wc.icePwd⟩,
              ⟨"fingerprint".toList, wc.fingerprint⟩,
              ⟨"setup".toList, "passive".toList⟩,
              ⟨"mid".toList, cm.mid⟩,
              ⟨"sendonly".toList, []⟩,
              ⟨"rtcp-mux".toList, []⟩]
          ++ (cands.filter (fun c => c.sdpMLineIndex = some i)).map
              (fun c => ⟨"candidate".toList,
                trimPre (cleanWowzaCandidateChars c.candidate) "candidate:".toList⟩) }

/-- The structured part of `CreateAnswerForClient`: `none` models the
`wowza offer missing fingerprint` error (the only failure besides the parse
oracle and marshalling). -/
def answerForClientDesc (wowzaOffer : String) (wowzaDesc : SessionDesc)
    (clientOffer : String) (cands : List WowzaICECandidate) : Option SessionDesc :=
  let clientMedia := extractMediaOrder clientOffer
  let wc := extractCredentials wowzaOffer
  if wc.fingerprint.isEmpty then none
  else some
    { version := 0,
      origin :=
        { username := "-".toList,
          sessionID := wowzaDesc.origin.sessionID,
          sessionVersion := wowzaDesc.origin.sessionVersion,
          networkType := "IN".toList, addressType := "IP4".toList,
          unicastAddress := "127.0.0.1".toList },
      sessionName := "-".toList,
      connInfo := none,
      timeDescriptions := [⟨0, 0⟩],
      attributes :=
        [⟨"group".toList, "BUNDLE ".toList
            ++ List.intercalate [' '] (clientMedia.map MediaInfo.mid)⟩,
         ⟨"msid-semantic".toList, "WMS *".toList⟩,
         ⟨"fingerprint".toList, wc.fingerprint⟩],
      mediaDescriptions :=
        clientMedia.enum.map (fun p => buildClientSection wc wowzaDesc cands p.1 p.2) }

/-- sdp.go `CreateAnswerForClient` (parse oracle as in `CreateAnswerForWowza`). -/
def CreateAnswerForClient (wowzaOffer : String) (wowzaDesc : SessionDesc)
    (clientOffer : String) (cands : List WowzaICECandidate) : Option String :=
  (answerForClientDesc wowzaOffer wowzaDesc clientOffer cands).map marshalString

/-! ## session.go `Negotiate` -/

/-- wowza.go `WowzaSDP`. -/
structure WowzaSDPModel where
  sdp : String
  type : String
deriving Repr, DecidableEq

/-- wowza.go `WowzaResponse` (`status` is a Go `int`). -/
structure WowzaResponseModel where
  status : Int
  statusDescription : String
  sessionID : String
  sdp : Option WowzaSDPModel
  iceCandidates : List WowzaICECandidate

/-- The I/O outcomes a `Negotiate` run can encounter, in order: dial,
`WriteJSON`/`ReadJSON` of the two exchanges (`none` = success), the two
decoded response frames, and the parse oracle for the wowza offer SDP. -/
structure NegotiateScript where
  dialErr : Option String
  sendOfferErr : Option String
  readOfferErr : Option String
  offerResp : WowzaResponseModel
  sendRespErr : Option String
  readCandsErr : Option String
  candsResp : WowzaResponseModel
  wowzaParse : Option SessionDesc

/-- session.go `Negotiate`: the sequential decision structure, step by step.
Wowza's offer string is `offerResp.sdp.sdp`; the same parse oracle serves both
answer builders, which parse the same string. -/
def negotiateModel (clientOffer : String) (scr : NegotiateScript) :
    Except String String :=
  match scr.dialErr with
  | some e => .error ("websocket dial: " ++ e)
  | none =>
  match scr.sendOfferErr with
  | some e => .error ("send getOffer: " ++ e)
  | none =>
  match scr.readOfferErr with
  | some e => .error ("read getOffer response: " ++ e)
  | none =>
  if scr.offerResp.status < 200 ∨ 300 ≤ scr.offerResp.status then
    .error ("wowza error: " ++ scr.offerResp.statusDescription)
  else if scr.offerResp.sdp = none ∨ (scr.offerResp.sdp.map WowzaSDPModel.sdp).getD "" = "" then
    .error "wowza returned empty SDP offer"
  else
    let wowzaOffer := (scr.offerResp.sdp.map WowzaSDPModel.sdp).getD ""
    match scr.wowzaParse with
    | none => .error "create answer for wowza: parse wowza offer: unmarshal error"
    | some wowzaDesc =>
      let _answerForWowza := CreateAnswerForWowza wowzaDesc clientOffer
      match scr.sendRespErr with
      | some e => .error ("send sendResponse: " ++ e)
      | none =>
      match scr.readCandsErr with
      | some e => .error ("read sendResponse response: " ++ e)
      | none =>
      if scr.candsResp.status < 200 ∨ 300 ≤ scr.candsResp.status then
        .error ("wowza error: " ++ scr.candsResp.statusDescription)
      else
        match CreateAnswerForClient wowzaOffer wowzaDesc clientOffer
            scr.candsResp.iceCandidates with
        | none => .error "create answer for client: wowza offer missing fingerprint"
        | some answer => .ok answer

/-! ## HTTP router models (unnamed/part_002: `handleCreate`, `withCORS`,
`writeWHEPOptions`) -/

structure HttpRequest where
  method : String
  path : String
  contentType : String
  body : List Char

structure HttpResponse where
  status : Nat
  headers : List (String × String)
  body : String
deriving Repr, DecidableEq

def headerLookup (resp : HttpResponse) (k : String) : Option String :=
  (resp.headers.find? (fun p => p.1 = k)).map Prod.snd

/-- The headers `withCORS` sets on every response. -/
def corsHeaders : List (String × String) :=
  [("Access-Control-Allow-Origin", "*"),
   ("Access-Control-Allow-Methods", "GET, POST, PATCH, DELETE, OPTIONS"),
   ("Access-Control-Allow-Headers", "Content-Type, Authorization"),
   ("Access-Control-Expose-Headers", "Location, Link, Accept-Patch")]

/-- `withCORS`: every OPTIONS request is answered 204 with only the CORS
headers, before the wrapped handler (the mux) is ever consulted. -/
def withCORS (next : HttpRequest → HttpResponse) (r : HttpRequest) : HttpResponse :=
  if r.method = "OPTIONS" then ⟨204, corsHeaders, ""⟩
  else
    let resp := next r
    { resp with headers := corsHeaders ++ resp.headers }

/-- `writeWHEPOptions` (the WHEP OPTIONS responder the mux handlers call). -/
def writeWHEPOptions : HttpResponse :=
  ⟨204,
   [("Accept-Post", "application/sdp"),
    ("Accept-Patch", "application/trickle-ice-sdpfrag")], ""⟩

/-- `handleCreate` after routing: body (already drained through
`io.LimitReader(…, 64*1024)` by `take 65536`), Content-Type check, session
creation, negotiation.  The boolean records whether `mgr.Remove` ran for the
created session (the negotiate-failure path). -/
def handleCreate (body : List Char) (contentType : String)
    (negotiate : List Char → Except String String) : HttpResponse × Bool :=
  let offer := body.take 65536
  if offer.isEmpty then (⟨400, [], "empty SDP offer"⟩, false)
  else if containsSub contentType.toList "application/sdp".toList = false then
    (⟨415, [], "Content-Type must be application/sdp"⟩, false)
  else
    match negotiate offer with
    | .error e =>
      (⟨502, [],
        if containsSub e.toList "wowza error".toList then e else "signaling failed"⟩,
       true)
    | .ok answer =>
      (⟨201, [("Content-Type", "application/sdp"),
              ("Accept-Patch", "application/trickle-ice-sdpfrag")], answer⟩,
       false)

/-! ## session.go `Stop` -/

/-- The per-session stop state: the `stopped` flag, whether `stopOnce` has
fired, and how many times the stop callback has run. -/
structure SessionStopState where
  stopped : Bool
  onceDone : Bool
  callbackRuns : Nat
deriving Repr, DecidableEq

def newSessionStopState : SessionStopState := ⟨false, false, 0⟩

/-- One `Stop` call: `sync.Once` runs the body at most once; the body sets
`stopped` under the mutex and invokes the callback when one is registered.
(`sync.Once` and the mutex serialise concurrent calls, so any concurrent
schedule is some sequence of these atomic steps.) -/
def stopStep (hasCallback : Bool) (s : SessionStopState) : SessionStopState :=
  if s.onceDone then s
  else { stopped := true, onceDone := true,
         callbackRuns := s.callbackRuns + if hasCallback then 1 else 0 }

/-- `n` consecutive `Stop` calls. -/
def stopN (hasCallback : Bool) : Nat → SessionStopState → SessionStopState
  | 0, s => s
  | n + 1, s => stopN hasCallback n (stopStep hasCallback s)

/-! ## Claims C8, C6, C7, C10, C3 -/

theorem stopN_fixed (hc : Bool) (n : Nat) (s : SessionStopState)
    (h : s.onceDone = true) : stopN hc n s = s := by
  induction n generalizing s with
  | zero => rfl
  | succ m ih =>
    unfold stopN stopStep
    rw [if_pos h]
    exact ih s h

/-- C8.  Any positive number of sequential `Stop` calls (concurrent calls are
serialised by `sync.Once` and the mutex, so any schedule is such a sequence)
leaves the session stopped with the callback run exactly once; the `stopped`
flag starts false and never returns to false. -/
theorem claim_C8 :
    (∀ n, 1 ≤ n → stopN true n newSessionStopState = ⟨true, true, 1⟩)
    ∧ (∀ (hc : Bool) (s : SessionStopState) (n : Nat),
        s.stopped = true → (stopN hc n s).stopped = true)
    ∧ newSessionStopState.stopped = false := by
  refine ⟨?_, ?_, rfl⟩
  · intro n hn
    match n with
    | m + 1 =>
      show stopN true m (stopStep true newSessionStopState) = _
      have h1 : stopStep true newSessionStopState = ⟨true, true, 1⟩ := rfl
      rw [h1]
      exact stopN_fixed true m _ rfl
  · intro hc s n hs
    induction n generalizing s with
    | zero => exact hs
    | succ m ih =>
      show (stopN hc m (stopStep hc s)).stopped = true
      apply ih
      unfold stopStep
      split_ifs with h h2
      · exact hs
      · rfl
      · rfl

/-- C8 witness: two `Stop` calls on a fresh session. -/
theorem claim_C8_witness : stopN true 2 newSessionStopState = ⟨true, true, 1⟩ :=
  claim_C8.1 2 (by omega)

/-- C6 evaluation.  Every OPTIONS request is intercepted by `withCORS` before
the mux runs: the response is 204 with only the CORS headers and neither
`Accept-Post` nor `Accept-Patch`, although the (unreachable for OPTIONS)
`writeWHEPOptions` would set both - the claim describes `writeWHEPOptions`,
which the served handler chain never reaches. -/
theorem claim_C6_bug (next : HttpRequest → HttpResponse) (r : HttpRequest)
    (h : r.method = "OPTIONS") :
    (withCORS next r).status = 204
    ∧ headerLookup (withCORS next r) "Accept-Post" = none
    ∧ headerLookup (withCORS next r) "Accept-Patch" = none
    ∧ headerLookup writeWHEPOptions "Accept-Post" = some "application/sdp"
    ∧ headerLookup writeWHEPOptions "Accept-Patch"
        = some "application/trickle-ice-sdpfrag" := by
  unfold withCORS
  rw [if_pos h]
  exact ⟨rfl, by decide, by decide, by decide, by decide⟩

/-- C6 witness: a concrete OPTIONS request to a /whep/ path. -/
theorem claim_C6_witness :
    (withCORS (fun _ => ⟨200, [], ""⟩)
        ⟨"OPTIONS", "/whep/h264/live/demo", "", []⟩).status = 204
    ∧ headerLookup (withCORS (fun _ => ⟨200, [], ""⟩)
        ⟨"OPTIONS", "/whep/h264/live/demo", "", []⟩) "Accept-Post" = none :=
  ⟨(claim_C6_bug (fun _ => ⟨200, [], ""⟩) ⟨"OPTIONS", "/whep/h264/live/demo", "", []⟩ rfl).1,
   (claim_C6_bug (fun _ => ⟨200, [], ""⟩) ⟨"OPTIONS", "/whep/h264/live/demo", "", []⟩ rfl).2.1⟩

/-- C7 (amended).  The create handler never rejects an oversized body: it
processes exactly the first 64 KiB of any body (the `io.LimitReader` cap), so
the handler's behaviour on any body equals its behaviour on that body's
65536-byte prefix. -/
theorem claim_C7_amended (body : List Char) (ct : String)
    (f : List Char → Except String String) :
    handleCreate body ct f = handleCreate (body.take 65536) ct f := by
  unfold handleCreate
  rw [List.take_take, Nat.min_self]

/-- C7 counterexample: a 65537-byte body with correct Content-Type is not
answered with any 4xx status - its first 64 KiB are forwarded to negotiation
and the handler returns 201. -/
theorem claim_C7_counterexample :
    65536 < (List.replicate 65537 'a').length
    ∧ (handleCreate (List.replicate 65537 'a') "application/sdp"
        (fun _ => .ok "ANSWER")).1.status = 201 := by
  constructor
  · rw [List.length_replicate]
    omega
  · have h1 : (List.replicate 65537 'a').take 65536 = List.replicate 65536 'a' := by
      rw [List.take_replicate]
      norm_num
    have h2 : (List.replicate 65536 'a').isEmpty = false := by
      cases hE : (List.replicate 65536 'a').isEmpty with
      | false => rfl
      | true =>
        have hnil := List.isEmpty_iff.mp hE
        have hlen := congrArg List.length hnil
        rw [List.length_replicate, List.length_nil] at hlen
        exact absurd hlen (by omega)
    have h3 : containsSub "application/sdp".toList "application/sdp".toList = true := by
      decide
    unfold handleCreate
    dsimp only
    rw [h1, h2]
    rw [if_neg (fun hc : (false : Bool) = true => Bool.noConfusion hc)]
    rw [if_neg (fun hc => by rw [h3] at hc; exact Bool.noConfusion hc)]

/-- C10.  The empty-body check precedes the Content-Type check: an empty body
is answered 400 "empty SDP offer" whatever the Content-Type, and a 415 is
produced only for a non-empty body whose Content-Type lacks
`application/sdp`. -/
theorem claim_C10 :
    (∀ (ct : String) (f : List Char → Except String String),
      handleCreate [] ct f = (⟨400, [], "empty SDP offer"⟩, false))
    ∧ (∀ (body : List Char) (ct : String) (f : List Char → Except String String),
        (handleCreate body ct f).1.status = 415 →
        body ≠ [] ∧ containsSub ct.toList "application/sdp".toList = false) := by
  constructor
  · intro ct f
    rfl
  · intro body ct f h
    unfold handleCreate at h
    dsimp only at h
    by_cases he : (body.take 65536).isEmpty
    · rw [if_pos he] at h
      exact absurd h (by decide)
    · rw [if_neg he] at h
      refine ⟨fun hb => he (by rw [hb]; rfl), ?_⟩
      by_cases hct : containsSub ct.toList "application/sdp".toList = false
      · exact hct
      · rw [if_neg hct] at h
        cases hf : f (body.take 65536) with
        | error e =>
          rw [hf] at h
          dsimp only at h
          exact absurd h (by decide)
        | ok answer =>
          rw [hf] at h
          dsimp only at h
          exact absurd h (by decide)

/-- C10 witness: a non-empty body with a wrong Content-Type does get the 415. -/
theorem claim_C10_witness :
    ['a'] ≠ ([] : List Char)
    ∧ containsSub "text/plain".toList "application/sdp".toList = false :=
  claim_C10.2 ['a'] "text/plain" (fun _ => .ok "") (by decide)

theorem containsSub_of_pre {pat l : List Char} (h : pat <+: l) :
    containsSub l pat = true := by
  unfold containsSub
  rw [firstIdx_isSome_of_pre h]
  rfl

/-- C3.  A Wowza response frame with status outside [200,300) aborts
`Negotiate` with exactly `wowza error: <statusDescription>` - for the offer
frame unconditionally, for the candidates frame once the earlier steps
succeeded (otherwise that frame is never read); and the create handler answers
a failed negotiation with 502, removing the session, with the specific
`wowza error: …` text as body, or `signaling failed` for error messages not
containing `wowza error`. -/
theorem claim_C3 (clientOffer : String) (scr : NegotiateScript)
    (body : List Char) (ct : String) :
    ((scr.dialErr = none) → (scr.sendOfferErr = none) → (scr.readOfferErr = none) →
      (scr.offerResp.status < 200 ∨ 300 ≤ scr.offerResp.status) →
      negotiateModel clientOffer scr
        = .error ("wowza error: " ++ scr.offerResp.statusDescription))
    ∧ ((scr.dialErr = none) → (scr.sendOfferErr = none) → (scr.readOfferErr = none) →
      (¬ (scr.offerResp.status < 200 ∨ 300 ≤ scr.offerResp.status)) →
      (¬ (scr.offerResp.sdp = none
          ∨ (scr.offerResp.sdp.map WowzaSDPModel.sdp).getD "" = "")) →
      (∀ d, scr.wowzaParse = some d →
        (scr.sendRespErr = none) → (scr.readCandsErr = none) →
        (scr.candsResp.status < 200 ∨ 300 ≤ scr.candsResp.status) →
        negotiateModel clientOffer scr
          = .error ("wowza error: " ++ scr.candsResp.statusDescription)))
    ∧ (∀ (desc : String) (f : List Char → Except String String),
        (body.take 65536).isEmpty = false →
        containsSub ct.toList "application/sdp".toList = true →
        f (body.take 65536) = .error ("wowza error: " ++ desc) →
        handleCreate body ct f = (⟨502, [], "wowza error: " ++ desc⟩, true))
    ∧ (∀ (e : String) (f : List Char → Except String String),
        containsSub e.toList "wowza error".toList = false →
        (body.take 65536).isEmpty = false →
        containsSub ct.toList "application/sdp".toList = true →
        f (body.take 65536) = .error e →
        handleCreate body ct f = (⟨502, [], "signaling failed"⟩, true)) := by
  refine ⟨?_, ?_, ?_, ?_⟩
  · intro h1 h2 h3 hst
    unfold negotiateModel
    rw [h1]
    dsimp only
    rw [h2]
    dsimp only
    rw [h3]
    dsimp only
    rw [if_pos hst]
  · intro h1 h2 h3 hst1 hsdp d hd h4 h5 hst2
    unfold negotiateModel
    rw [h1]
    dsimp only
    rw [h2]
    dsimp only
    rw [h3]
    dsimp only
    rw [if_neg hst1, if_neg hsdp, hd]
    dsimp only
    rw [h4]
    dsimp only
    rw [h5]
    dsimp only
    rw [if_pos hst2]
  · intro desc f hbody hct hf
    unfold handleCreate
    dsimp only
    rw [hbody]
    rw [if_neg (fun hc : (false : Bool) = true => Bool.noConfusion hc)]
    rw [if_neg (fun hc => by rw [hct] at hc; exact Bool.noConfusion hc)]
    rw [hf]
    dsimp only
    have hcont : containsSub ("wowza error: " ++ desc).toList "wowza error".toList
        = true := by
      apply containsSub_of_pre
      have : ("wowza error: " ++ desc).toList
          = "wowza error: ".toList ++ desc.toList := by
        rw [← String.data_append]
        rfl
      rw [this]
      exact (show ("wowza error".toList <+: "wowza error: ".toList) by decide).trans
        (List.prefix_append _ _)
    rw [hcont]
    rfl
  · intro e f he hbody hct hf
    unfold handleCreate
    dsimp only
    rw [hbody]
    rw [if_neg (fun hc : (false : Bool) = true => Bool.noConfusion hc)]
    rw [if_neg (fun hc => by rw [hct] at hc; exact Bool.noConfusion hc)]
    rw [hf]
    dsimp only
    rw [he]
    rfl

/-- The S4 scenario script: Wowza answers `getOffer` with status 404. -/
def scrC3 : NegotiateScript :=
  { dialErr := none, sendOfferErr := none, readOfferErr := none,
    offerResp :=
      { status := 404, statusDescription := "stream not found",
        sessionID := "", sdp := none, iceCandidates := [] },
    sendRespErr := none, readCandsErr := none,
    candsResp :=
      { status := 200, statusDescription := "", sessionID := "",
        sdp := none, iceCandidates := [] },
    wowzaParse := none }

/-- C3 witness: the 404 offer frame aborts with the wowza error, and the
handler turns exactly that message into the 502 body, removing the session. -/
theorem claim_C3_witness :
    negotiateModel "OFFER" scrC3 = .error "wowza error: stream not found"
    ∧ handleCreate "v=0".toList "application/sdp"
        (fun _ => .error "wowza error: stream not found")
        = (⟨502, [], "wowza error: stream not found"⟩, true) :=
  ⟨(claim_C3 "OFFER" scrC3 "v=0".toList "application/sdp").1 rfl rfl rfl
      (by decide),
   (claim_C3 "OFFER" scrC3 "v=0".toList "application/sdp").2.2.1
      "stream not found" (fun _ => .error "wowza error: stream not found")
      (by decide) (by decide) rfl⟩

/-! ## Split/join bridging: a CRLF join of CRLF-free lines splits back -/

theorem not_infix_append2 {pat a b : List Char}
    (ha : ¬ pat <:+: a) (hb : ¬ pat <:+: b)
    (hx : ∀ k, 0 < k → k < pat.length → ¬ (pat.take k <:+ a ∧ pat.drop k <+: b)) :
    ¬ pat <:+: (a ++ b) := by
  intro hinf
  obtain ⟨p, hp⟩ := infix_iff_exists_drop.mp hinf
  rw [List.drop_append_eq_append_drop] at hp
  by_cases hpa : a.length ≤ p
  · rw [List.drop_of_length_le hpa, List.nil_append] at hp
    exact hb (infix_iff_exists_drop.mpr ⟨p - a.length, hp⟩)
  · push_neg at hpa
    rw [Nat.sub_eq_zero_of_le (Nat.le_of_lt hpa), List.drop_zero] at hp
    by_cases hfit : p + pat.length ≤ a.length
    · have hlen : pat.length ≤ (a.drop p).length := by
        simp only [List.length_drop]
        omega
      exact ha (infix_iff_exists_drop.mpr ⟨p, pre_of_pre_append_len hp hlen⟩)
    · push_neg at hfit
      have hlenadp : (a.drop p).length = a.length - p := by simp
      have hklt : a.length - p < pat.length := by omega
      refine hx (a.length - p) (by omega) hklt ⟨?_, ?_⟩
      · have htake : pat.take (a.length - p) = a.drop p := by
          obtain ⟨r, hr⟩ := hp
          have h1 := congrArg (List.take (a.length - p)) hr
          rw [List.take_append_eq_append_take,
            Nat.sub_eq_zero_of_le (Nat.le_of_lt hklt), List.take_zero,
            List.append_nil] at h1
          rw [List.take_append_eq_append_take, hlenadp, Nat.sub_self,
            List.take_zero, List.append_nil,
            List.take_of_length_le (Nat.le_of_eq hlenadp)] at h1
          exact h1
        rw [htake]
        exact List.drop_suffix p a
      · have h2 := drop_pre_of_pre_append hp (by omega)
        rw [hlenadp] at h2
        exact h2

theorem infix_of_mem {c : Char} {l : List Char} (h : c ∈ l) : [c] <:+: l := by
  obtain ⟨s, t, rfl⟩ := List.append_of_mem h
  exact ⟨s, t, by simp⟩

theorem mem_of_crlf_infix {l : List Char} (h : crlfSep <:+: l) : '\n' ∈ l :=
  h.sublist.subset (by decide)

theorem no_lf_not_crlf_infix {l : List Char} (h : '\n' ∉ l) : ¬ crlfSep <:+: l :=
  fun hinf => h ( mem_of_crlf_infix hinf)

theorem intercalate_nil_eq (sep : List Char) : List.intercalate sep [] = [] := by
  simp [List.intercalate]

theorem intercalate_single_eq (sep a : List Char) : List.intercalate sep [a] = a := by
  simp [List.intercalate]

theorem intercalate_cons₂ (sep a b : List Char) (t : List (List Char)) :
    List.intercalate sep (a :: b :: t) = a ++ sep ++ List.intercalate sep (b :: t) := by
  simp [List.intercalate, List.intersperse]

theorem crlf_firstIdx_append (l m : List Char) (hl : ¬ crlfSep <:+: l) :
    firstIdx crlfSep (l ++ crlfSep ++ m) = some l.length := by
  induction l with
  | nil =>
    simpa using firstIdx_isSome_of_pre (List.prefix_append crlfSep m)
  | cons c l' ih =>
    have hl' : ¬ crlfSep <:+: l' :=
      not_infix_of_infix_not ⟨[c], [], by simp⟩ hl
    have heq : (c :: l') ++ crlfSep ++ m = c :: (l' ++ crlfSep ++ m) := by simp
    rw [heq, firstIdx_cons_eq]
    have hcrlf : crlfSep = '\r' :: '\n' :: [] := rfl
    have hnp : ¬ crlfSep.isPrefixOf (c :: (l' ++ crlfSep ++ m)) := by
      intro hp
      have hpre := List.isPrefixOf_iff_prefix.mp hp
      rw [hcrlf, List.cons_prefix_cons] at hpre
      obtain ⟨hc, hpre2⟩ := hpre
      cases l' with
      | nil =>
        rw [List.nil_append, List.cons_append, List.cons_prefix_cons] at hpre2
        exact absurd hpre2.1 (by decide)
      | cons d l'' =>
        simp only [List.cons_append] at hpre2
        rw [List.cons_prefix_cons] at hpre2
        apply hl
        refine ⟨[], l'', ?_⟩
        rw [hcrlf]
        simp [← hc, ← hpre2.1]
    rw [if_neg hnp, ih hl']
    rfl

theorem splitOnFuel_crlf_roundtrip :
    ∀ (ls : List (List Char)) (fuel : Nat), ls ≠ [] →
      (∀ l ∈ ls, ¬ crlfSep <:+: l) →
      (List.intercalate crlfSep ls).length ≤ fuel →
      splitOnFuel crlfSep fuel (List.intercalate crlfSep ls) = ls := by
  intro ls
  induction ls with
  | nil => intro fuel h; exact absurd rfl h
  | cons a t ih =>
    intro fuel _ hwf hfuel
    cases t with
    | nil =>
      rw [intercalate_single_eq] at hfuel ⊢
      cases fuel with
      | zero =>
        have : a = [] := by
          have := List.length_eq_zero.mp (Nat.le_zero.mp hfuel)
          exact this
        rw [this]
        rfl
      | succ f =>
        unfold splitOnFuel
        rw [firstIdx_none_iff.mpr (hwf a (by simp))]
    | cons b t' =>
      rw [intercalate_cons₂] at hfuel ⊢
      have ha : ¬ crlfSep <:+: a := hwf a (by simp)
      have hlen : (a ++ crlfSep ++ List.intercalate crlfSep (b :: t')).length
          = a.length + 2 + (List.intercalate crlfSep (b :: t')).length := by
        simp [List.length_append, crlfSep]
        omega
      cases fuel with
      | zero =>
        rw [hlen] at hfuel
        omega
      | succ f =>
        unfold splitOnFuel
        rw [crlf_firstIdx_append a _ ha]
        dsimp only
        have htake : (a ++ crlfSep ++ List.intercalate crlfSep (b :: t')).take a.length
            = a := by
          rw [List.append_assoc, List.take_left]
        have hdrop : (a ++ crlfSep ++ List.intercalate crlfSep (b :: t')).drop
            (a.length + crlfSep.length) = List.intercalate crlfSep (b :: t') := by
          rw [List.append_assoc, List.drop_append_eq_append_drop,
            List.drop_of_length_le (by omega), List.nil_append]
          have h2 : a.length + crlfSep.length - a.length = crlfSep.length := by omega
          rw [h2, List.drop_left]
        rw [htake, hdrop]
        rw [ih f (by simp) (fun l hl => hwf l (by simp [hl])) ?_]
        rw [hlen] at hfuel
        omega

theorem splitOnSub_crlf_intercalate (ls : List (List Char)) (hne : ls ≠ [])
    (hwf : ∀ l ∈ ls, ¬ crlfSep <:+: l) :
    splitOnSub crlfSep (List.intercalate crlfSep ls) = ls := by
  unfold splitOnSub
  rw [if_neg (by decide : ¬ crlfSep = [])]
  exact splitOnFuel_crlf_roundtrip ls _ hne hwf (Nat.le_refl _)

/-! ## Split pieces contain no separator; extracted strings are CRLF-free -/

theorem splitOnFuel_pieces {sep : List Char} (hsep : sep ≠ []) :
    ∀ (fuel : Nat) (l piece : List Char), l.length ≤ fuel →
      piece ∈ splitOnFuel sep fuel l → ¬ sep <:+: piece := by
  intro fuel
  induction fuel with
  | zero =>
    intro l piece hlen hmem
    have hl : l = [] := List.length_eq_zero.mp (Nat.le_zero.mp hlen)
    subst hl
    have : piece = [] := by simpa [splitOnFuel] using hmem
    subst this
    intro hinf
    exact hsep (List.infix_nil.mp hinf)
  | succ f ih =>
    intro l piece hlen hmem
    unfold splitOnFuel at hmem
    cases hfi : firstIdx sep l with
    | none =>
      rw [hfi] at hmem
      have : piece = l := by simpa using hmem
      subst this
      exact firstIdx_none_iff.mp hfi
    | some i =>
      rw [hfi] at hmem
      rcases List.mem_cons.mp hmem with h | h
      · subst h
        exact not_infix_take_firstIdx hsep hfi
      · refine ih _ piece ?_ h
        have hspec := (firstIdx_some_spec hfi).1
        have hpos : 0 < sep.length := List.length_pos.mpr hsep
        simp only [List.length_drop]
        omega

theorem splitOnSub_pieces {sep : List Char} (hsep : sep ≠ []) {l piece : List Char}
    (h : piece ∈ splitOnSub sep l) : ¬ sep <:+: piece := by
  unfold splitOnSub at h
  rw [if_neg hsep] at h
  exact splitOnFuel_pieces hsep l.length l piece (Nat.le_refl _) h

/-- Every line `splitSDPLines` produces is CRLF-free. -/
theorem splitSDPLines_pieces (s : String) :
    ∀ piece ∈ splitSDPLines s, ¬ crlfSep <:+: piece := by
  intro piece hmem
  unfold splitSDPLines at hmem
  by_cases hone : (splitOnSub crlfSep s.toList).length = 1
  · rw [if_pos hone] at hmem
    have hlf : ¬ lfSep <:+: piece := splitOnSub_pieces (by decide) hmem
    intro hinf
    exact hlf (infix_of_mem ( mem_of_crlf_infix hinf))
  · rw [if_neg hone] at hmem
    exact splitOnSub_pieces (by decide) hmem

/-- CRLF-freeness of all the strings an `ICECredentials` holds. -/
def credsWf (cc : ICECredentials) : Prop :=
  ¬ crlfSep <:+: cc.iceUfrag ∧ ¬ crlfSep <:+: cc.icePwd
    ∧ ¬ crlfSep <:+: cc.fingerprint ∧ ¬ crlfSep <:+: cc.setup
    ∧ ∀ c ∈ cc.candidates, ¬ crlfSep <:+: c

theorem drop_not_infix {pat l : List Char} (k : Nat) (h : ¬ pat <:+: l) :
    ¬ pat <:+: l.drop k :=
  not_infix_of_infix_not (List.drop_suffix k l).isInfix h

theorem trim_not_infix {pat l : List Char} (h : ¬ pat <:+: l) :
    ¬ pat <:+: trimSpace l :=
  not_infix_of_infix_not ( trimSpace_infix l) h

theorem extractLine_wf {cc : ICECredentials} {l : List Char}
    (hcc : credsWf cc) (hl : ¬ crlfSep <:+: l) : credsWf (extractLine cc l) := by
  obtain ⟨h1, h2, h3, h4, h5⟩ := hcc
  have hline : ¬ crlfSep <:+: trimSpace l := trim_not_infix hl
  unfold extractLine
  dsimp only
  split_ifs with g1 g2 g3 g4 g5
  · exact ⟨ drop_not_infix _ hline, h2, h3, h4, h5⟩
  · exact ⟨h1, drop_not_infix _ hline, h3, h4, h5⟩
  · exact ⟨h1, h2, drop_not_infix _ hline, h4, h5⟩
  · exact ⟨h1, h2, h3, drop_not_infix _ hline, h5⟩
  · refine ⟨h1, h2, h3, h4, ?_⟩
    intro c hc
    rcases List.mem_append.mp hc with h | h
    · exact h5 c h
    · have : c = (trimSpace l).drop "a=".length := by simpa using h
      subst this
      exact drop_not_infix _ hline
  · exact ⟨h1, h2, h3, h4, h5⟩

theorem extractCredentials_wf (s : String) : credsWf (extractCredentials s) := by
  unfold extractCredentials
  have hgen : ∀ (lines : List (List Char)) (cc : ICECredentials),
      (∀ l ∈ lines, ¬ crlfSep <:+: l) → credsWf cc →
      credsWf (lines.foldl extractLine cc) := by
    intro lines
    induction lines with
    | nil => intro cc _ hcc; exact hcc
    | cons l rest ih =>
      intro cc hlines hcc
      exact ih _ (fun x hx => hlines x (by simp [hx]))
        (extractLine_wf hcc (hlines l (by simp)))
  exact hgen _ _ (splitSDPLines_pieces s)
    ⟨by decide, by decide, by decide, by decide, by simp⟩

/-! ## CRLF-freeness of marshalled lines -/

theorem crlf_not_infix_cons {c : Char} {l : List Char} (hc : c ≠ '\r')
    (hl : ¬ crlfSep <:+: l) : ¬ crlfSep <:+: (c :: l) := by
  intro hinf
  obtain ⟨j, hj⟩ := infix_iff_exists_drop.mp hinf
  match j with
  | 0 =>
    rw [List.drop_zero, show crlfSep = '\r' :: '\n' :: [] from rfl,
      List.cons_prefix_cons] at hj
    exact hc hj.1.symm
  | j + 1 =>
    rw [List.drop_succ_cons] at hj
    exact hl (infix_iff_exists_drop.mpr ⟨j, hj⟩)

theorem crlf_not_infix_append_cons {a : List Char} {c : Char} {l : List Char}
    (ha : ¬ crlfSep <:+: a) (hc : c ≠ '\r') (hc2 : c ≠ '\n')
    (hl : ¬ crlfSep <:+: l) : ¬ crlfSep <:+: (a ++ c :: l) := by
  refine not_infix_append2 ha (crlf_not_infix_cons hc hl) ?_
  intro k hk0 hklen
  have hk1 : k = 1 := by
    have : crlfSep.length = 2 := rfl
    omega
  subst hk1
  rintro ⟨_, hpre⟩
  rw [show crlfSep.drop 1 = ['\n'] from rfl, List.cons_prefix_cons] at hpre
  exact hc2 hpre.1.symm

theorem digitChar_ne_lf (m : Nat) : Nat.digitChar m ≠ '\n' := by
  by_cases h : m < 16
  · interval_cases m <;> decide
  · have h0 : Nat.digitChar m = Char.ofNat 42 := by
      unfold Nat.digitChar
      repeat rw [if_neg (by omega)]
    rw [h0]
    decide

theorem natCharsAux_mem_ne_lf :
    ∀ (fuel n : Nat) (acc : List Char), (∀ c ∈ acc, c ≠ '\n') →
      ∀ c ∈ natCharsAux fuel n acc, c ≠ '\n' := by
  intro fuel
  induction fuel with
  | zero => intro n acc hacc c hc; exact hacc c hc
  | succ f ih =>
    intro n acc hacc c hc
    unfold natCharsAux at hc
    dsimp only at hc
    by_cases hn : n < 10
    · rw [if_pos hn] at hc
      rcases List.mem_cons.mp hc with h | h
      · rw [h]; exact digitChar_ne_lf _
      · exact hacc c h
    · rw [if_neg hn] at hc
      refine ih _ _ ?_ c hc
      intro d hd
      rcases List.mem_cons.mp hd with h | h
      · rw [h]; exact digitChar_ne_lf _
      · exact hacc d h

theorem natChars_wf (n : Nat) : ¬ crlfSep <:+: natChars n := by
  apply no_lf_not_crlf_infix
  intro hmem
  exact natCharsAux_mem_ne_lf (n + 1) n [] (by simp) '\n' hmem rfl

def wfStr (l : List Char) : Prop := ¬ crlfSep <:+: l

def connWfL (ci : ConnInfo) : Prop :=
  wfStr ci.networkType ∧ wfStr ci.addressType
    ∧ ∀ a, ci.address = some a → wfStr a

def attrWfL (a : GoAttr) : Prop := wfStr a.key ∧ wfStr a.value

def mediaWfL (md : MediaDesc) : Prop :=
  wfStr md.mediaName.media
    ∧ (∀ p ∈ md.mediaName.protos, wfStr p)
    ∧ (∀ f ∈ md.mediaName.formats, wfStr f)
    ∧ (∀ ci, md.connInfo = some ci → connWfL ci)
    ∧ (∀ a ∈ md.attributes, attrWfL a)

def descWfL (d : SessionDesc) : Prop :=
  wfStr d.origin.username ∧ wfStr d.origin.networkType
    ∧ wfStr d.origin.addressType ∧ wfStr d.origin.unicastAddress
    ∧ wfStr d.sessionName
    ∧ (∀ ci, d.connInfo = some ci → connWfL ci)
    ∧ (∀ a ∈ d.attributes, attrWfL a)
    ∧ (∀ md ∈ d.mediaDescriptions, mediaWfL md)

theorem intercalate_sep1_wf {c : Char} (hc : c ≠ '\r') (hc2 : c ≠ '\n')
    (xs : List (List Char)) (hxs : ∀ x ∈ xs, wfStr x) :
    wfStr (List.intercalate [c] xs) := by
  induction xs with
  | nil =>
    rw [intercalate_nil_eq]
    unfold wfStr
    decide
  | cons x t ih =>
    cases t with
    | nil => rw [intercalate_single_eq]; exact hxs x (by simp)
    | cons y t' =>
      rw [intercalate_cons₂, List.append_assoc, List.singleton_append]
      exact crlf_not_infix_append_cons (hxs x (by simp)) hc hc2
        (ih (fun z hz => hxs z (by simp [List.mem_cons] at hz ⊢; tauto)))

theorem vLine_wf (n : Nat) : wfStr (vLine n) := by
  unfold vLine
  rw [show "v=".toList = ['v', '='] from rfl]
  simp only [List.cons_append, List.nil_append]
  exact crlf_not_infix_cons (by decide) (crlf_not_infix_cons (by decide) (natChars_wf n))

theorem sLine_wf {name : List Char} (h : wfStr name) : wfStr (sLine name) := by
  unfold sLine
  rw [show "s=".toList = ['s', '='] from rfl]
  simp only [List.cons_append, List.nil_append]
  exact crlf_not_infix_cons (by decide) (crlf_not_infix_cons (by decide) h)

theorem oLine_wf {o : Origin} (hu : wfStr o.username) (hn : wfStr o.networkType)
    (ha : wfStr o.addressType) (hx : wfStr o.unicastAddress) : wfStr (oLine o) := by
  unfold oLine
  rw [show "o=".toList = ['o', '='] from rfl]
  simp only [List.cons_append, List.nil_append, List.append_assoc,
    List.singleton_append]
  refine crlf_not_infix_cons (by decide) (crlf_not_infix_cons (by decide) ?_)
  refine crlf_not_infix_append_cons hu (by decide) (by decide) ?_
  refine crlf_not_infix_append_cons (natChars_wf _) (by decide) (by decide) ?_
  refine crlf_not_infix_append_cons (natChars_wf _) (by decide) (by decide) ?_
  refine crlf_not_infix_append_cons hn (by decide) (by decide) ?_
  exact crlf_not_infix_append_cons ha (by decide) (by decide) hx

theorem connLine_wf {ci : ConnInfo} (h : connWfL ci) : wfStr (connLine ci) := by
  obtain ⟨h1, h2, h3⟩ := h
  unfold connLine
  rw [show "c=".toList = ['c', '='] from rfl]
  simp only [List.cons_append, List.nil_append, List.append_assoc,
    List.singleton_append]
  refine crlf_not_infix_cons (by decide) (crlf_not_infix_cons (by decide) ?_)
  refine crlf_not_infix_append_cons h1 (by decide) (by decide) ?_
  cases haddr : ci.address with
  | none =>
    simp only
    rw [List.append_nil]
    exact h2
  | some a =>
    simp only
    exact crlf_not_infix_append_cons h2 (by decide) (by decide) (h3 a haddr)

theorem tLine_wf (t : TimingDesc) : wfStr (tLine t) := by
  unfold tLine
  rw [show "t=".toList = ['t', '='] from rfl]
  simp only [List.cons_append, List.nil_append, List.append_assoc,
    List.singleton_append]
  refine crlf_not_infix_cons (by decide) (crlf_not_infix_cons (by decide) ?_)
  exact crlf_not_infix_append_cons (natChars_wf _) (by decide) (by decide) (natChars_wf _)

theorem attrLine_wf {a : GoAttr} (h : attrWfL a) : wfStr (attrLine a) := by
  obtain ⟨h1, h2⟩ := h
  unfold attrLine
  rw [show "a=".toList = ['a', '='] from rfl]
  by_cases hemp : a.value.isEmpty
  · rw [if_pos hemp]
    simp only [List.cons_append, List.nil_append, List.append_nil]
    exact crlf_not_infix_cons (by decide) (crlf_not_infix_cons (by decide) h1)
  · rw [if_neg hemp]
    simp only [List.cons_append, List.nil_append]
    refine crlf_not_infix_cons (by decide) (crlf_not_infix_cons (by decide) ?_)
    exact crlf_not_infix_append_cons h1 (by decide) (by decide) h2

theorem mLine_wf {mn : MediaName} (hm : wfStr mn.media)
    (hp : ∀ p ∈ mn.protos, wfStr p) (hf : ∀ f ∈ mn.formats, wfStr f) :
    wfStr (mLine mn) := by
  unfold mLine
  rw [show "m=".toList = ['m', '='] from rfl]
  have hX : wfStr (List.intercalate ['/'] mn.protos
      ++ ' ' :: List.intercalate [' '] mn.formats) := by
    refine crlf_not_infix_append_cons (intercalate_sep1_wf (by decide) (by decide) _ hp)
      (by decide) (by decide) ?_
    exact intercalate_sep1_wf (by decide) (by decide) _ hf
  cases hr : mn.port.range with
  | none =>
    dsimp only
    simp only [List.cons_append, List.nil_append, List.append_assoc,
      List.singleton_append]
    refine crlf_not_infix_cons (by decide) (crlf_not_infix_cons (by decide) ?_)
    refine crlf_not_infix_append_cons hm (by decide) (by decide) ?_
    exact crlf_not_infix_append_cons (natChars_wf _) (by decide) (by decide) hX
  | some r =>
    dsimp only
    simp only [List.cons_append, List.nil_append, List.append_assoc,
      List.singleton_append]
    refine crlf_not_infix_cons (by decide) (crlf_not_infix_cons (by decide) ?_)
    refine crlf_not_infix_append_cons hm (by decide) (by decide) ?_
    refine crlf_not_infix_append_cons (natChars_wf _) (by decide) (by decide) ?_
    exact crlf_not_infix_append_cons (natChars_wf _) (by decide) (by decide) hX

theorem mediaLines_wf {md : MediaDesc} (h : mediaWfL md) :
    ∀ line ∈ mediaLines md, wfStr line := by
  obtain ⟨h1, h2, h3, h4, h5⟩ := h
  intro line hline
  unfold mediaLines at hline
  rcases List.mem_cons.mp hline with hl | hl
  · rw [hl]
    exact mLine_wf h1 h2 h3
  · rcases List.mem_append.mp hl with hl2 | hl2
    · cases hci : md.connInfo with
      | none => rw [hci] at hl2; simp at hl2
      | some ci =>
        rw [hci] at hl2
        have : line = connLine ci := by simpa using hl2
        rw [this]
        exact connLine_wf (h4 ci hci)
    · obtain ⟨a, ha, rfl⟩ := List.mem_map.mp hl2
      exact attrLine_wf (h5 a ha)

theorem sessionLines_wf {d : SessionDesc} (h : descWfL d) :
    ∀ line ∈ sessionLines d, wfStr line := by
  obtain ⟨h1, h2, h3, h4, h5, h6, h7, _⟩ := h
  intro line hline
  unfold sessionLines at hline
  rcases List.mem_append.mp hline with hl | hl
  · rcases List.mem_append.mp hl with hl2 | hl2
    · rcases List.mem_append.mp hl2 with hl3 | hl3
      · rcases List.mem_cons.mp hl3 with h9 | h9
        · rw [h9]; exact vLine_wf _
        · rcases List.mem_cons.mp h9 with h10 | h10
          · rw [h10]; exact oLine_wf h1 h2 h3 h4
          · have : line = sLine d.sessionName := by simpa using h10
            rw [this]
            exact sLine_wf h5
      · cases hci : d.connInfo with
        | none => rw [hci] at hl3; simp at hl3
        | some ci =>
          rw [hci] at hl3
          have : line = connLine ci := by simpa using hl3
          rw [this]
          exact connLine_wf (h6 ci hci)
    · obtain ⟨t, _, rfl⟩ := List.mem_map.mp hl2
      exact tLine_wf t
  · obtain ⟨a, ha, rfl⟩ := List.mem_map.mp hl
    exact attrLine_wf (h7 a ha)

theorem marshalLines_wf {d : SessionDesc} (h : descWfL d) :
    ∀ line ∈ marshalLines d, wfStr line := by
  intro line hline
  unfold marshalLines at hline
  rcases List.mem_append.mp hline with hl | hl
  · exact sessionLines_wf h line hl
  · obtain ⟨ls, hls, hmem⟩ := List.mem_flatten.mp hl
    obtain ⟨md, hmd, rfl⟩ := List.mem_map.mp hls
    exact mediaLines_wf (h.2.2.2.2.2.2.2 md hmd) line hmem

theorem splitOnSub_marshalString {d : SessionDesc} (h : descWfL d) :
    splitOnSub crlfSep (marshalString d).toList = marshalLines d ++ [[]] := by
  unfold marshalString
  rw [List.toList_asString]
  apply splitOnSub_crlf_intercalate
  · simp
  · intro l hl
    rcases List.mem_append.mp hl with h2 | h2
    · exact marshalLines_wf h l h2
    · have : l = [] := by simpa using h2
      rw [this]
      decide

theorem filterLines_append_empty (L : List (List Char)) :
    filterLines (L ++ [[]]) = filterLines L ++ [[]] := by
  rw [filterLines_eq_filter, filterLines_eq_filter, List.filter_append]
  rfl

theorem insertAfterFirstUfrag_cons (l : List Char) (rest : List (List Char)) :
    insertAfterFirstUfrag (l :: rest)
      = if hasPre l "a=ice-ufrag:".toList then l :: trickleLine :: rest
        else l :: insertAfterFirstUfrag rest := rfl

theorem insertAfterFirstUfrag_append_empty (Y : List (List Char)) :
    insertAfterFirstUfrag (Y ++ [[]]) = insertAfterFirstUfrag Y ++ [[]] := by
  induction Y with
  | nil => rfl
  | cons l rest ih =>
    rw [List.cons_append, insertAfterFirstUfrag_cons, insertAfterFirstUfrag_cons]
    by_cases hu : hasPre l "a=ice-ufrag:".toList
    · rw [if_pos hu, if_pos hu]
      rfl
    · rw [if_neg hu, if_neg hu, ih]
      rfl

theorem addTrickleLines_append_empty (Y : List (List Char)) :
    addTrickleLines (Y ++ [[]]) = addTrickleLines Y ++ [[]] := by
  unfold addTrickleLines
  have hany : (Y ++ [[]]).any (fun l => containsSub l trickleLine)
      = Y.any (fun l => containsSub l trickleLine) := by
    rw [List.any_append]
    have hnil : containsSub [] trickleLine = false := by decide
    simp [hnil]
  rw [hany]
  by_cases hg : Y.any (fun l => containsSub l trickleLine)
  · rw [if_pos hg, if_pos hg]
  · rw [if_neg hg, if_neg hg]
    exact insertAfterFirstUfrag_append_empty Y

theorem filterLines_subset {L : List (List Char)} {l : List Char}
    (h : l ∈ filterLines L) : l ∈ L := by
  rw [filterLines_eq_filter] at h
  exact List.mem_of_mem_filter h

theorem insertAfterFirstUfrag_subset {Y : List (List Char)} {l : List Char}
    (h : l ∈ insertAfterFirstUfrag Y) : l = trickleLine ∨ l ∈ Y := by
  induction Y with
  | nil => simp [insertAfterFirstUfrag] at h
  | cons x rest ih =>
    unfold insertAfterFirstUfrag at h
    by_cases hu : hasPre x "a=ice-ufrag:".toList
    · rw [if_pos hu] at h
      rcases List.mem_cons.mp h with h2 | h2
      · exact Or.inr (by simp [h2])
      · rcases List.mem_cons.mp h2 with h3 | h3
        · exact Or.inl h3
        · exact Or.inr (by simp [h3])
    · rw [if_neg hu] at h
      rcases List.mem_cons.mp h with h2 | h2
      · exact Or.inr (by simp [h2])
      · rcases ih h2 with h3 | h3
        · exact Or.inl h3
        · exact Or.inr (by simp [h3])

theorem addTrickleLines_subset {Y : List (List Char)} {l : List Char}
    (h : l ∈ addTrickleLines Y) : l = trickleLine ∨ l ∈ Y := by
  unfold addTrickleLines at h
  by_cases hg : Y.any (fun x => containsSub x trickleLine)
  · rw [if_pos hg] at h
    exact Or.inr h
  · rw [if_neg hg] at h
    exact insertAfterFirstUfrag_subset h

theorem trickleLine_wf : wfStr trickleLine := by
  unfold wfStr
  decide

/-- The string pipeline of `CreateAnswerForWowza` equals the joined line
pipeline (plus the final CRLF) whenever the rewritten description is
CRLF-free. -/
theorem createAnswerForWowza_eq_lines {w : SessionDesc} {co : String}
    (hwf : descWfL (answerForWowzaDesc w (extractCredentials co))) :
    CreateAnswerForWowza w co
      = (List.intercalate crlfSep (CreateAnswerForWowzaLines w co ++ [[]])).asString := by
  unfold CreateAnswerForWowza CreateAnswerForWowzaLines addTrickleICE filterPrivateIPs
  rw [splitOnSub_marshalString hwf, filterLines_append_empty, List.toList_asString]
  have hFwf : ∀ l ∈ filterLines
      (marshalLines (answerForWowzaDesc w (extractCredentials co))) ++ [[]],
      ¬ crlfSep <:+: l := by
    intro l hl
    rcases List.mem_append.mp hl with h2 | h2
    · exact marshalLines_wf hwf l (filterLines_subset h2)
    · have : l = [] := by simpa using h2
      rw [this]
      decide
  rw [splitOnSub_crlf_intercalate _ (by simp) hFwf, addTrickleLines_append_empty]

theorem attrWfL_mk {K V : List Char} (hK : wfStr K) (hV : wfStr V) :
    attrWfL ⟨K, V⟩ := ⟨hK, hV⟩

theorem rewriteMediaAttr_wf {cc : ICECredentials} {a0 a : GoAttr}
    (hcc : credsWf cc) (ha0 : attrWfL a0) (h : a ∈ rewriteMediaAttr cc a0) :
    attrWfL a := by
  obtain ⟨c1, c2, c3, c4, c5⟩ := hcc
  unfold rewriteMediaAttr at h
  split_ifs at h with g1 g2 g3 g4 g5 g6 g7 g8 g9
  all_goals first
    | exact absurd h (List.not_mem_nil a)
    | (rw [List.mem_singleton] at h
       subst h
       first
        | exact attrWfL_mk (by unfold wfStr; decide) c1
        | exact attrWfL_mk (by unfold wfStr; decide) c2
        | exact attrWfL_mk (by unfold wfStr; decide) c3
        | exact attrWfL_mk (by unfold wfStr; decide) (by unfold wfStr; decide)
        | exact ha0)

theorem answerForWowzaDesc_wf {w : SessionDesc} {cc : ICECredentials}
    (hw : descWfL w) (hcc : credsWf cc) : descWfL (answerForWowzaDesc w cc) := by
  obtain ⟨h1, h2, h3, h4, h5, h6, h7, h8⟩ := hw
  refine ⟨h1, h2, h3, h4, h5, h6, ?_, ?_⟩
  · intro a ha
    obtain ⟨a0, ha0, rfl⟩ := List.mem_map.mp ha
    unfold rewriteSessionAttr
    split_ifs with g
    · exact attrWfL_mk (by unfold wfStr; decide) hcc.2.2.1
    · exact h7 a0 ha0
  · intro md hmd
    obtain ⟨md0, hmd0, rfl⟩ := List.mem_map.mp hmd
    obtain ⟨m1, m2, m3, m4, m5⟩ := h8 md0 hmd0
    refine ⟨m1, m2, m3, m4, ?_⟩
    intro a ha
    unfold rewriteMedia at ha
    dsimp only at ha
    rcases List.mem_append.mp ha with h9 | h9
    · obtain ⟨as, has, hmem⟩ := List.mem_flatten.mp h9
      obtain ⟨a0, ha0, rfl⟩ := List.mem_map.mp has
      exact rewriteMediaAttr_wf hcc (m5 a0 ha0) hmem
    · obtain ⟨c, hc, rfl⟩ := List.mem_map.mp h9
      exact attrWfL_mk (by unfold wfStr; decide) (hcc.2.2.2.2 c hc)

/-! ## Media sections of a line list -/

def isMLineB (l : List Char) : Bool := hasPre l "m=".toList

/-- Accumulator pass over the lines after the first `m=` line; `cur` is the
current section in reverse. -/
def mediaSectionsAux : List (List Char) → List (List Char) → List (List (List Char))
  | [], cur => [cur.reverse]
  | l :: rest, cur =>
    if isMLineB l then cur.reverse :: mediaSectionsAux rest [l]
    else mediaSectionsAux rest (l :: cur)

/-- The media sections of an SDP given as lines: each section starts at an
`m=` line and runs to the next one; lines before the first `m=` line are the
session part. -/
def mediaSections (ls : List (List Char)) : List (List (List Char)) :=
  match ls.dropWhile (fun l => !isMLineB l) with
  | [] => []
  | m :: rest => mediaSectionsAux rest [m]

/-- The session-level part: the lines before the first `m=` line. -/
def sessionSection (ls : List (List Char)) : List (List Char) :=
  ls.takeWhile (fun l => !isMLineB l)

/-- Attach `post` to the last section. -/
def attachLast (post : List (List Char)) : List (List (List Char)) → List (List (List Char))
  | [] => []
  | [s] => [s ++ post]
  | s :: rest => s :: attachLast post rest

theorem attachLast_nil_post : ∀ secs : List (List (List Char)), attachLast [] secs = secs
  | [] => rfl
  | [s] => by simp [attachLast]
  | s :: s2 :: rest => by
    rw [show attachLast [] (s :: s2 :: rest) = s :: attachLast [] (s2 :: rest) from rfl,
      attachLast_nil_post (s2 :: rest)]

theorem attachLast_mem {post : List (List Char)} :
    ∀ {secs : List (List (List Char))} {sec : List (List Char)},
      sec ∈ attachLast post secs →
      ∃ s ∈ secs, sec = s ∨ sec = s ++ post := by
  intro secs
  induction secs with
  | nil => intro sec h; simp [attachLast] at h
  | cons s rest ih =>
    intro sec h
    cases rest with
    | nil =>
      have : sec = s ++ post := by simpa [attachLast] using h
      exact ⟨s, by simp, Or.inr this⟩
    | cons s2 rest2 =>
      rw [show attachLast post (s :: s2 :: rest2)
        = s :: attachLast post (s2 :: rest2) from rfl] at h
      rcases List.mem_cons.mp h with h2 | h2
      · exact ⟨s, by simp, Or.inl h2⟩
      · obtain ⟨x, hx, hor⟩ := ih h2
        exact ⟨x, by simp [hx], hor⟩

/-- Shape of one marshalled media section: an `m=` line followed by non-`m=`
lines. -/
def SecShape (sec : List (List Char)) : Prop :=
  ∃ m t, sec = m :: t ∧ isMLineB m = true ∧ ∀ l ∈ t, isMLineB l = false

theorem mediaSectionsAux_cons (l : List Char) (rest cur : List (List Char)) :
    mediaSectionsAux (l :: rest) cur
      = if isMLineB l then cur.reverse :: mediaSectionsAux rest [l]
        else mediaSectionsAux rest (l :: cur) := rfl

theorem attachLast_cons₂ (post : List (List Char)) (x y : List (List Char))
    (r : List (List (List Char))) :
    attachLast post (x :: y :: r) = x :: attachLast post (y :: r) := rfl

theorem msAux_nonm :
    ∀ (tail cur : List (List Char)), (∀ l ∈ tail, isMLineB l = false) →
      mediaSectionsAux tail cur = [cur.reverse ++ tail] := by
  intro tail
  induction tail with
  | nil => intro cur _; simp [mediaSectionsAux]
  | cons l t ih =>
    intro cur h
    rw [mediaSectionsAux_cons, if_neg (by simp [h l (List.mem_cons_self l t)]),
      ih (l :: cur) (fun x hx => h x (List.mem_cons_of_mem l hx))]
    simp

theorem msAux_spec :
    ∀ (secs : List (List (List Char))), (∀ sec ∈ secs, SecShape sec) →
    ∀ (post : List (List Char)), (∀ l ∈ post, isMLineB l = false) →
    ∀ (tail : List (List Char)), (∀ l ∈ tail, isMLineB l = false) →
    ∀ (cur : List (List Char)),
      mediaSectionsAux (tail ++ secs.flatten ++ post) cur
        = attachLast post ((cur.reverse ++ tail) :: secs) := by
  intro secs
  induction secs with
  | nil =>
    intro _ post hpost tail htail cur
    rw [List.flatten_nil, List.append_nil]
    rw [msAux_nonm (tail ++ post) cur (by
      intro l hl
      rcases List.mem_append.mp hl with h | h
      · exact htail l h
      · exact hpost l h)]
    simp [attachLast]
  | cons sec rest ih =>
    intro hshape post hpost tail htail cur
    obtain ⟨m, t, hsec, hm, ht⟩ := hshape sec (by simp)
    subst hsec
    induction tail generalizing cur with
    | nil =>
      rw [List.nil_append]
      have hflat : ((m :: t) :: rest).flatten = m :: (t ++ rest.flatten) := by
        simp
      rw [hflat]
      rw [show m :: (t ++ rest.flatten) ++ post = m :: (t ++ rest.flatten ++ post) by simp]
      rw [mediaSectionsAux_cons, if_pos hm]
      rw [ih (fun s hs => hshape s (by simp [hs])) post hpost t ht [m]]
      rw [attachLast_cons₂]
      have : ([m].reverse ++ t) = m :: t := by simp
      rw [this]
      simp
    | cons l tl ihtail =>
      have hl : isMLineB l = false := htail l (List.mem_cons_self l tl)
      rw [show (l :: tl) ++ ((m :: t) :: rest).flatten ++ post
        = l :: (tl ++ ((m :: t) :: rest).flatten ++ post) by simp]
      rw [mediaSectionsAux_cons, if_neg (by simp [hl])]
      rw [ihtail (fun x hx => htail x (List.mem_cons_of_mem l hx)) (l :: cur)]
      have : (l :: cur).reverse ++ tl = cur.reverse ++ (l :: tl) := by simp
      rw [this]

theorem mediaSections_spec (pre : List (List Char))
    (secs : List (List (List Char))) (post : List (List Char))
    (hpre : ∀ l ∈ pre, isMLineB l = false)
    (hpost : ∀ l ∈ post, isMLineB l = false)
    (hshape : ∀ sec ∈ secs, SecShape sec) :
    mediaSections (pre ++ secs.flatten ++ post) = attachLast post secs := by
  unfold mediaSections
  cases secs with
  | nil =>
    rw [List.flatten_nil, List.append_nil]
    have hall : ∀ l ∈ pre ++ post, (fun l => !isMLineB l) l = true := by
      intro l hl
      rcases List.mem_append.mp hl with h | h
      · simp [hpre l h]
      · simp [hpost l h]
    rw [List.dropWhile_eq_nil_iff.mpr hall]
    rfl
  | cons sec rest =>
    obtain ⟨m, t, hsec, hm, ht⟩ := hshape sec (by simp)
    subst hsec
    have hflat : ((m :: t) :: rest).flatten = m :: (t ++ rest.flatten) := by simp
    rw [hflat]
    rw [show pre ++ (m :: (t ++ rest.flatten)) ++ post
      = pre ++ (m :: (t ++ rest.flatten ++ post)) by simp]
    have hdrop : (pre ++ (m :: (t ++ rest.flatten ++ post))).dropWhile
        (fun l => !isMLineB l) = m :: (t ++ rest.flatten ++ post) := by
      have h1 : ∀ x ∈ pre, (fun l => !isMLineB l) x = true := by
        intro x hx; simp [hpre x hx]
      induction pre with
      | nil => simp [List.dropWhile_cons, hm]
      | cons p ps ihp =>
        rw [List.cons_append, List.dropWhile_cons]
        rw [if_pos (by simpa using h1 p (by simp))]
        exact ihp (fun x hx => hpre x (by simp [hx])) (fun x hx => h1 x (by simp [hx]))
    rw [hdrop]
    dsimp only
    rw [show mediaSectionsAux (t ++ rest.flatten ++ post) [m]
        = attachLast post (([m].reverse ++ t) :: rest) from
      msAux_spec rest (fun s hs => hshape s (by simp [hs])) post hpost t ht [m]]
    simp

theorem sessionSection_spec (pre : List (List Char))
    (secs : List (List (List Char))) (post : List (List Char))
    (hpre : ∀ l ∈ pre, isMLineB l = false)
    (hpost : ∀ l ∈ post, isMLineB l = false)
    (hshape : ∀ sec ∈ secs, SecShape sec) :
    sessionSection (pre ++ secs.flatten ++ post)
      = if secs.isEmpty then pre ++ post else pre := by
  unfold sessionSection
  cases secs with
  | nil =>
    rw [List.flatten_nil, List.append_nil]
    rw [List.takeWhile_eq_self_iff.mpr (by
      intro l hl
      rcases List.mem_append.mp hl with h | h
      · simp [hpre l h]
      · simp [hpost l h])]
    rfl
  | cons sec rest =>
    obtain ⟨m, t, hsec, hm, ht⟩ := hshape sec (by simp)
    subst hsec
    have hflat : ((m :: t) :: rest).flatten = m :: (t ++ rest.flatten) := by simp
    rw [hflat]
    rw [show pre ++ (m :: (t ++ rest.flatten)) ++ post
      = pre ++ (m :: (t ++ rest.flatten ++ post)) by simp]
    induction pre with
    | nil => simp [List.takeWhile_cons, hm]
    | cons p ps ihp =>
      rw [List.cons_append, List.takeWhile_cons]
      rw [if_pos (by simpa using hpre p (by simp))]
      have h2 := ihp (fun x hx => hpre x (by simp [hx]))
      simp only [List.isEmpty_cons, Bool.false_eq_true, if_false] at h2 ⊢
      rw [h2]

/-! ## Claim C9: candidate placement by `sdpMLineIndex` -/

/-- The values of the `candidate` attributes of a media description. -/
def candValuesOf (md : MediaDesc) : List (List Char) :=
  md.attributes.filterMap
    (fun a => if a.key = "candidate".toList then some a.value else none)

theorem candValuesOf_rejected (wc : ICECredentials) (cm : MediaInfo) :
    candValuesOf (rejectedSection wc cm) = [] := by
  simp [candValuesOf, rejectedSection, List.filterMap_cons]

theorem candValuesOf_build_none (wc : ICECredentials) (wd : SessionDesc)
    (cands : List WowzaICECandidate) (i : Nat) (cm : MediaInfo)
    (h : wowzaMediaByType wd.mediaDescriptions (lowerGo cm.type) = none) :
    candValuesOf (buildClientSection wc wd cands i cm) = [] := by
  unfold buildClientSection
  dsimp only
  rw [h]
  exact candValuesOf_rejected wc cm

theorem candValuesOf_build_some (wc : ICECredentials) (wd : SessionDesc)
    (cands : List WowzaICECandidate) (i : Nat) (cm : MediaInfo) (wmd : MediaDesc)
    (h : wowzaMediaByType wd.mediaDescriptions (lowerGo cm.type) = some wmd) :
    candValuesOf (buildClientSection wc wd cands i cm)
      = (cands.filter (fun c => c.sdpMLineIndex = some i)).map
          (fun c => trimPre (cleanWowzaCandidateChars c.candidate)
            "candidate:".toList) := by
  unfold buildClientSection
  dsimp only
  rw [h]
  unfold candValuesOf
  dsimp only
  rw [List.filterMap_append, List.filterMap_append]
  have h1 : (wmd.attributes.filter (fun a => a.key ∈ codecKeys)).filterMap
      (fun a => if a.key = "candidate".toList then some a.value else none)
        = [] := by
    rw [List.filterMap_eq_nil_iff]
    intro a ha
    rw [List.mem_filter] at ha
    have hk : a.key ∈ codecKeys := of_decide_eq_true ha.2
    rw [if_neg]
    intro hc
    rw [hc] at hk
    exact absurd hk (by decide)
  have h2 : ([⟨"ice-ufrag".toList, wc.iceUfrag⟩,
      ⟨"ice-pwd".toList, wc.icePwd⟩,
      ⟨"fingerprint".toList, wc.fingerprint⟩,
      ⟨"setup".toList, "passive".toList⟩,
      ⟨"mid".toList, cm.mid⟩,
      ⟨"sendonly".toList, []⟩,
      ⟨"rtcp-mux".toList, []⟩] : List GoAttr).filterMap
        (fun a => if a.key = "candidate".toList then some a.value else none)
          = [] := by
    simp [List.filterMap_cons]
  have h3 : ((cands.filter (fun c => c.sdpMLineIndex = some i)).map
      (fun c => (⟨"candidate".toList,
        trimPre (cleanWowzaCandidateChars c.candidate) "candidate:".toList⟩
          : GoAttr))).filterMap
        (fun a => if a.key = "candidate".toList then some a.value else none)
      = (cands.filter (fun c => c.sdpMLineIndex = some i)).map
          (fun c => trimPre (cleanWowzaCandidateChars c.candidate)
            "candidate:".toList) := by
    rw [List.filterMap_map]
    rw [show ((fun (a : GoAttr) =>
        if a.key = "candidate".toList then some a.value else none)
          ∘ (fun c => (⟨"candidate".toList,
            trimPre (cleanWowzaCandidateChars c.candidate)
              "candidate:".toList⟩ : GoAttr)))
      = fun (c : WowzaICECandidate) =>
          some (trimPre (cleanWowzaCandidateChars c.candidate)
            "candidate:".toList) from funext fun c => by simp]
    exact congrFun (List.filterMap_eq_map _) _
  rw [h1, h2, h3]
  rfl

/-- **C9.** When `CreateAnswerForClient` builds an answer, the `i`-th media
section carries exactly the candidate values of the Wowza candidates whose
`sdpMLineIndex` is present and equal to `i` (cleaned and stripped of the
`candidate:` prefix, in list order) when Wowza has media of the client's
`i`-th type, and no candidate at all in the rejected case; in particular a
candidate whose `sdpMLineIndex` is absent never appears. -/
theorem claim_C9 (wowzaOffer : String) (wd : SessionDesc) (clientOffer : String)
    (cands : List WowzaICECandidate) (ans : SessionDesc)
    (hsucc : answerForClientDesc wowzaOffer wd clientOffer cands = some ans) :
    ans.mediaDescriptions.length = (extractMediaOrder clientOffer).length
    ∧ ∀ i, ∀ hi : i < (extractMediaOrder clientOffer).length,
        ∀ hi2 : i < ans.mediaDescriptions.length,
        candValuesOf (ans.mediaDescriptions.get ⟨i, hi2⟩)
          = if wowzaMediaByType wd.mediaDescriptions
                (lowerGo ((extractMediaOrder clientOffer).get ⟨i, hi⟩).type) = none
            then []
            else (cands.filter (fun c => c.sdpMLineIndex = some i)).map
              (fun c => trimPre (cleanWowzaCandidateChars c.candidate)
                "candidate:".toList) := by
  unfold answerForClientDesc at hsucc
  dsimp only at hsucc
  by_cases hfp : (extractCredentials wowzaOffer).fingerprint.isEmpty
  · rw [if_pos hfp] at hsucc
    exact absurd hsucc (by simp)
  · rw [if_neg hfp] at hsucc
    injection hsucc with hrec
    subst hrec
    constructor
    · simp
    · intro i hi hi2
      simp only [List.get_eq_getElem] at hi2 ⊢
      rw [List.getElem_map, List.getElem_enum]
      cases hmt : wowzaMediaByType wd.mediaDescriptions
          (lowerGo (extractMediaOrder clientOffer)[i].type) with
      | none =>
        rw [if_pos rfl]
        exact candValuesOf_build_none _ wd cands i _ hmt
      | some wmd =>
        rw [if_neg (fun hx => Option.noConfusion hx)]
        exact candValuesOf_build_some _ wd cands i _ wmd hmt

def c9d : SessionDesc :=
  { version := 0,
    origin := ⟨"-".toList, 1, 1, "IN".toList, "IP4".toList, "127.0.0.1".toList⟩,
    sessionName := "-".toList,
    connInfo := none,
    timeDescriptions := [⟨0, 0⟩],
    attributes := [],
    mediaDescriptions :=
      [{ mediaName :=
           { media := "video".toList, port := ⟨9, none⟩,
             protos := ["RTP".toList, "AVP".toList], formats := [['9', '6']] },
         connInfo := none,
         attributes := [⟨"rtpmap".toList, "96 H264/90000".toList⟩] }] }

def c9w : String := "a=ice-ufrag:wu\r\na=ice-pwd:wp\r\na=fingerprint:sha-256 AA:BB\r\n"

def c9o : String := "v=0\r\nm=video 9 RTP/AVP 96\r\na=mid:0\r\n"

def c9k : List WowzaICECandidate :=
  [⟨"candidate:1 1 UDP 1 1.2.3.4 9 typ host".toList, none, some 0⟩,
   ⟨"candidate:2 1 UDP 1 5.6.7.8 9 typ host".toList, none, none⟩]

/-- Witness for C9 at a concrete input: the single video section receives the
one candidate with `sdpMLineIndex = 0`; the nil-index candidate is dropped. -/
theorem claim_C9_witness :
    (((answerForClientDesc c9w c9d c9o c9k).getD c9d).mediaDescriptions.length
        = (extractMediaOrder c9o).length)
    ∧ candValuesOf
        (((answerForClientDesc c9w c9d c9o c9k).getD c9d).mediaDescriptions.get
          ⟨0, by decide⟩)
        = ["1 1 UDP 1 1.2.3.4 9 typ host".toList] := by
  have h := claim_C9 c9w c9d c9o c9k
    ((answerForClientDesc c9w c9d c9o c9k).getD c9d) (by decide)
  exact ⟨h.1, ((h.2 0 (by decide) (by decide)).trans (by decide))⟩

/-! ## Claim C2: mids of the client answer -/

/-- Claim-worded: the mid announced by one SDP line of the client offer. -/
def parseMid (l : List Char) : Option (List Char) :=
  if hasPre l "a=mid:".toList then some (l.drop "a=mid:".length) else none

/-- Claim-worded: the mid of a media section is the value of its last
`a=mid:` line, the empty mid when there is none. -/
def lastMidD (sec : List (List Char)) : List Char :=
  ((sec.filterMap parseMid).getLast?).getD []

/-- Claim-worded: the mids of the client offer's media sections, in order
(lines trimmed as the extraction trims them). -/
def specMediaMids (s : String) : List (List Char) :=
  (mediaSections ((splitSDPLines s).map trimSpace)).map lastMidD

/-- The mid value carried by a line of the marshalled answer (`a=mid:x`, or
the bare `a=mid` form that pion emits for an empty mid). -/
def parseMidLine (l : List Char) : Option (List Char) :=
  if l = "a=mid".toList then some []
  else if hasPre l "a=mid:".toList then some (l.drop "a=mid:".length) else none

/-- All mid values announced by a media section of the answer. -/
def midValues (sec : List (List Char)) : List (List Char) :=
  sec.filterMap parseMidLine

/-- The mid the in-progress section will flush with, given its current mid
and the remaining lines. -/
def pendingMid (m0 : List Char) (L : List (List Char)) : List Char :=
  ((((L.takeWhile (fun l => !isMLineB l)).filterMap parseMid).getLast?).getD m0)

/-- The final flush of `ExtractMediaOrder`'s loop state. -/
def finishEmo (st : List MediaInfo × Option MediaInfo) : List MediaInfo :=
  match st.2 with
  | some c => st.1 ++ [c]
  | none => st.1

theorem extractMediaOrder_eq_finish (s : String) :
    extractMediaOrder s
      = finishEmo ((splitSDPLines s).foldl emoStep ([], none)) := rfl

theorem foldl_emoStep_map_trim :
    ∀ (L : List (List Char)) (b : List MediaInfo × Option MediaInfo),
      L.foldl emoStep b = (L.map trimSpace).foldl emoStepT b := by
  intro L
  induction L with
  | nil => intro b; rfl
  | cons l t ih =>
    intro b
    rw [List.map_cons, List.foldl_cons, List.foldl_cons]
    exact ih (emoStep b l)

theorem hasPre_eq_true_iff {l pat : List Char} : hasPre l pat = true ↔ pat <+: l := by
  unfold hasPre
  exact List.isPrefixOf_iff_prefix

theorem getLastD_cons {α : Type} (v d : α) (xs : List α) :
    ((v :: xs).getLast?).getD d = (xs.getLast?).getD v := by
  cases xs with
  | nil => rfl
  | cons y ys =>
    rw [List.getLast?_cons_cons, List.getLast?_eq_getLast (y :: ys) (by simp)]
    rfl

theorem dropWhile_self_idem {α : Type} (p : α → Bool) :
    ∀ t : List α, (t.dropWhile p).dropWhile p = t.dropWhile p := by
  intro t
  induction t with
  | nil => rfl
  | cons x r ih =>
    rw [List.dropWhile_cons]
    by_cases h : p x
    · rw [if_pos h]; exact ih
    · rw [if_neg h, List.dropWhile_cons, if_neg h]

theorem mediaSections_dropWhile (t : List (List Char)) :
    mediaSections (t.dropWhile (fun l => !isMLineB l)) = mediaSections t := by
  unfold mediaSections
  rw [dropWhile_self_idem]

theorem mediaSections_cons_nonm {l : List Char} (rest : List (List Char))
    (h : isMLineB l = false) :
    mediaSections (l :: rest) = mediaSections rest := by
  unfold mediaSections
  rw [List.dropWhile_cons, if_pos (by simp [h])]

theorem mediaSections_cons_m {l : List Char} (rest : List (List Char))
    (h : isMLineB l = true) :
    mediaSections (l :: rest) = mediaSectionsAux rest [l] := by
  unfold mediaSections
  rw [List.dropWhile_cons, if_neg (by simp [h])]

theorem msAux_take_drop :
    ∀ (rest cur : List (List Char)),
      mediaSectionsAux rest cur
        = (cur.reverse ++ rest.takeWhile (fun l => !isMLineB l))
          :: mediaSections (rest.dropWhile (fun l => !isMLineB l)) := by
  intro rest
  induction rest with
  | nil =>
    intro cur
    simp [mediaSectionsAux, mediaSections]
  | cons l r ih =>
    intro cur
    rw [mediaSectionsAux_cons]
    by_cases hm : isMLineB l
    · rw [if_pos hm]
      have h1 : (l :: r).takeWhile (fun x => !isMLineB x) = [] := by
        simp [List.takeWhile_cons, hm]
      have h2 : (l :: r).dropWhile (fun x => !isMLineB x) = l :: r := by
        simp [List.dropWhile_cons, hm]
      rw [h1, h2, List.append_nil, mediaSections_cons_m r hm]
    · rw [if_neg hm, ih (l :: cur)]
      have hmf : isMLineB l = false := by
        rw [Bool.not_eq_true] at hm
        exact hm
      have h1 : (l :: r).takeWhile (fun x => !isMLineB x)
          = l :: r.takeWhile (fun x => !isMLineB x) := by
        simp [List.takeWhile_cons, hmf]
      have h2 : (l :: r).dropWhile (fun x => !isMLineB x)
          = r.dropWhile (fun x => !isMLineB x) := by
        simp [List.dropWhile_cons, hmf]
      rw [h1, h2, List.reverse_cons, List.append_assoc, List.cons_append,
        List.nil_append]

theorem isMLineB_head {l : List Char} (h : l.head? ≠ some 'm') :
    isMLineB l = false := by
  rw [Bool.eq_false_iff]
  intro hb
  have hpre := hasPre_eq_true_iff.mp hb
  cases l with
  | nil => exact absurd hpre (by decide)
  | cons c t =>
    rw [show "m=".toList = 'm' :: "=".toList from rfl, List.cons_prefix_cons] at hpre
    exact h (by rw [← hpre.1]; rfl)

theorem parseMid_none_of_not_a {l : List Char} (h : l.head? ≠ some 'a') :
    parseMid l = none := by
  unfold parseMid
  rw [if_neg]
  intro hb
  have hpre := hasPre_eq_true_iff.mp hb
  cases l with
  | nil => exact absurd hpre (by decide)
  | cons c t =>
    rw [show "a=mid:".toList = 'a' :: "=mid:".toList from rfl,
      List.cons_prefix_cons] at hpre
    exact h (by rw [← hpre.1]; rfl)

theorem parseMidLine_none_of_not_a {l : List Char} (h : l.head? ≠ some 'a') :
    parseMidLine l = none := by
  unfold parseMidLine
  rw [if_neg, if_neg]
  · intro hb
    have hpre := hasPre_eq_true_iff.mp hb
    cases l with
    | nil => exact absurd hpre (by decide)
    | cons c t =>
      rw [show "a=mid:".toList = 'a' :: "=mid:".toList from rfl,
        List.cons_prefix_cons] at hpre
      exact h (by rw [← hpre.1]; rfl)
  · intro heq
    rw [heq] at h
    exact h rfl

theorem parseMid_mline {l : List Char} (h : isMLineB l = true) :
    parseMid l = none := by
  obtain ⟨t, ht⟩ := hasPre_eq_true_iff.mp h
  apply parseMid_none_of_not_a
  rw [← ht]
  intro hx
  have : 'm' = 'a' := by
    rw [show "m=".toList ++ t = 'm' :: ('=' :: t) from rfl] at hx
    exact Option.some_injective _ hx
  exact absurd this (by decide)

theorem parseMidLine_mline {l : List Char} (h : isMLineB l = true) :
    parseMidLine l = none := by
  obtain ⟨t, ht⟩ := hasPre_eq_true_iff.mp h
  apply parseMidLine_none_of_not_a
  rw [← ht]
  intro hx
  have : 'm' = 'a' := by
    rw [show "m=".toList ++ t = 'm' :: ('=' :: t) from rfl] at hx
    exact Option.some_injective _ hx
  exact absurd this (by decide)

/-- A key announced by an `a=<key>:<value>` prefix is the attribute's own key
when neither may contain a colon. -/
theorem pre_key_unique :
    ∀ (K key tail : List Char), ':' ∉ K → ':' ∉ key →
      (tail = [] ∨ ∃ v, tail = ':' :: v) →
      (K ++ [':']) <+: (key ++ tail) → key = K := by
  intro K
  induction K with
  | nil =>
    intro key tail hK hkey htail hpre
    cases key with
    | nil => rfl
    | cons c kt =>
      exfalso
      rw [List.nil_append, List.cons_append, List.cons_prefix_cons] at hpre
      exact hkey (by rw [← hpre.1]; exact List.mem_cons_self ':' kt)
  | cons a K2 ih =>
    intro key tail hK hkey htail hpre
    cases key with
    | nil =>
      exfalso
      rcases htail with rfl | ⟨v, rfl⟩
      · rw [List.nil_append] at hpre
        exact absurd hpre (by simp)
      · rw [List.nil_append, List.cons_append, List.cons_prefix_cons] at hpre
        exact hK (by rw [hpre.1]; exact List.mem_cons_self ':' K2)
    | cons c kt =>
      rw [List.cons_append, List.cons_append, List.cons_prefix_cons] at hpre
      have hrec := ih kt tail (fun hm => hK (List.mem_cons_of_mem a hm))
        (fun hm => hkey (List.mem_cons_of_mem c hm)) htail hpre.2
      rw [hpre.1, hrec]

theorem attr_tail_shape (a : GoAttr) :
    (if a.value.isEmpty then ([] : List Char) else ':' :: a.value) = []
      ∨ ∃ v, (if a.value.isEmpty then ([] : List Char) else ':' :: a.value)
          = ':' :: v := by
  by_cases hv : a.value.isEmpty
  · rw [if_pos hv]; exact Or.inl rfl
  · rw [if_neg hv]; exact Or.inr ⟨a.value, rfl⟩

theorem attr_hasPre_key {a : GoAttr} {K : List Char}
    (hK : ':' ∉ K) (hkey : ':' ∉ a.key)
    (h : hasPre (attrLine a) ("a=".toList ++ (K ++ [':'])) = true) : a.key = K := by
  have hpre := hasPre_eq_true_iff.mp h
  unfold attrLine at hpre
  rw [List.append_assoc] at hpre
  have hpre2 := (List.prefix_append_right_inj "a=".toList).mp hpre
  exact pre_key_unique K a.key _ hK hkey (attr_tail_shape a) hpre2

theorem parseMidLine_attr_mid (a : GoAttr) (h : a.key = "mid".toList) :
    parseMidLine (attrLine a) = some a.value := by
  cases hv : a.value with
  | nil =>
    have hline : attrLine a = "a=mid".toList := by
      unfold attrLine
      rw [h, hv]
      rfl
    unfold parseMidLine
    rw [hline, if_pos rfl]
  | cons x v2 =>
    have hline : attrLine a = "a=mid:".toList ++ a.value := by
      unfold attrLine
      rw [h, hv]
      rfl
    unfold parseMidLine
    rw [hline, if_neg, if_pos]
    · rw [show "a=mid:".length = "a=mid:".toList.length from rfl, List.drop_left,
        hv]
    · exact hasPre_eq_true_iff.mpr (List.prefix_append _ _)
    · intro heq
      have hlen := congrArg List.length heq
      simp only [List.length_append] at hlen
      rw [show ("a=mid:".toList.length = 6) from rfl,
        show ("a=mid".toList.length = 5) from rfl] at hlen
      omega

theorem parseMidLine_attr_ne (a : GoAttr) (hkey : ':' ∉ a.key)
    (h : a.key ≠ "mid".toList) : parseMidLine (attrLine a) = none := by
  unfold parseMidLine
  rw [if_neg, if_neg]
  · intro hp
    exact h (attr_hasPre_key (by decide) hkey hp)
  · intro heq
    unfold attrLine at heq
    rw [List.append_assoc] at heq
    have h2 : a.key ++ (if a.value.isEmpty then ([] : List Char) else ':' :: a.value)
        = "mid".toList :=
      List.append_cancel_left
        (heq.trans (show "a=mid".toList = "a=".toList ++ "mid".toList from rfl))
    by_cases hv : a.value.isEmpty
    · rw [if_pos hv, List.append_nil] at h2
      exact h h2
    · rw [if_neg hv] at h2
      have hmem : ':' ∈ a.key ++ ':' :: a.value :=
        List.mem_append.mpr (Or.inr (List.mem_cons_self ':' a.value))
      rw [h2] at hmem
      exact absurd hmem (by decide)

/-- The mids still to be flushed, given the in-progress section (if any) and
the remaining lines. -/
def curSecMids (cur : Option MediaInfo) (L : List (List Char)) : List (List Char) :=
  match cur with
  | none => (mediaSections L).map lastMidD
  | some c => pendingMid c.mid L :: (mediaSections L).map lastMidD

theorem curSecMids_none (L : List (List Char)) :
    curSecMids none L = (mediaSections L).map lastMidD := rfl

theorem curSecMids_some (c : MediaInfo) (L : List (List Char)) :
    curSecMids (some c) L
      = pendingMid c.mid L :: (mediaSections L).map lastMidD := rfl

theorem finishEmo_none (res : List MediaInfo) : finishEmo (res, none) = res := rfl

theorem finishEmo_some (res : List MediaInfo) (c : MediaInfo) :
    finishEmo (res, some c) = res ++ [c] := rfl

theorem parseMid_of_pre {l : List Char} (h : hasPre l "a=mid:".toList = true) :
    parseMid l = some (l.drop "a=mid:".length) := by
  unfold parseMid
  rw [if_pos h]

theorem parseMid_of_not_pre {l : List Char} (h : ¬ hasPre l "a=mid:".toList = true) :
    parseMid l = none := by
  unfold parseMid
  rw [if_neg h]

theorem pendingMid_cons_m {l : List Char} (m0 : List Char) (t : List (List Char))
    (h : isMLineB l = true) : pendingMid m0 (l :: t) = m0 := by
  unfold pendingMid
  rw [List.takeWhile_cons, if_neg (by simp [h])]
  rfl

theorem pendingMid_cons_mid {l : List Char} (m0 : List Char) (t : List (List Char))
    (hnm : isMLineB l = false) (hmid : hasPre l "a=mid:".toList = true) :
    pendingMid m0 (l :: t) = pendingMid (l.drop "a=mid:".length) t := by
  unfold pendingMid
  rw [List.takeWhile_cons, if_pos (by simp [hnm]), List.filterMap_cons,
    parseMid_of_pre hmid]
  exact getLastD_cons _ _ _

theorem pendingMid_cons_other {l : List Char} (m0 : List Char) (t : List (List Char))
    (hnm : isMLineB l = false) (hpm : parseMid l = none) :
    pendingMid m0 (l :: t) = pendingMid m0 t := by
  unfold pendingMid
  rw [List.takeWhile_cons, if_pos (by simp [hnm]), List.filterMap_cons, hpm]

theorem lastMidD_msec {l : List Char} (t : List (List Char))
    (h : isMLineB l = true) :
    lastMidD ([l].reverse ++ t.takeWhile (fun x => !isMLineB x))
      = pendingMid [] t := by
  unfold lastMidD pendingMid
  rw [show ([l].reverse ++ t.takeWhile (fun x => !isMLineB x))
      = l :: t.takeWhile (fun x => !isMLineB x) from by simp]
  rw [List.filterMap_cons, parseMid_mline h]

/-- The loop of `ExtractMediaOrder` computes, per media section, the value of
the last `a=mid:` line of the section — provided every `m=` line carries at
least 4 fields. -/
theorem emoFold_mids :
    ∀ (L : List (List Char)),
      (∀ l ∈ L, hasPre l "m=".toList = true → 4 ≤ (fieldsGo l).length) →
      ∀ (res : List MediaInfo) (cur : Option MediaInfo),
      (finishEmo (L.foldl emoStepT (res, cur))).map MediaInfo.mid
        = res.map MediaInfo.mid ++ curSecMids cur L := by
  intro L
  induction L with
  | nil =>
    intro _ res cur
    cases cur with
    | none => simp [finishEmo_none, curSecMids_none, mediaSections]
    | some c =>
      rw [List.foldl_nil, finishEmo_some, curSecMids_some]
      simp [pendingMid, mediaSections]
  | cons l t ih =>
    intro hL res cur
    have hLt : ∀ x ∈ t, hasPre x "m=".toList = true → 4 ≤ (fieldsGo x).length :=
      fun x hx => hL x (List.mem_cons_of_mem l hx)
    rw [List.foldl_cons]
    by_cases hm : hasPre l "m=".toList
    · have hmB : isMLineB l = true := hm
      have h4 : 4 ≤ (fieldsGo l).length := hL l (List.mem_cons_self l t) hm
      have hstep : emoStepT (res, cur) l
          = (finishEmo (res, cur), some ⟨[], ((fieldsGo l).headD []).drop 2⟩) := by
        unfold emoStepT
        dsimp only
        rw [if_pos hm, if_pos h4]
        rfl
      rw [hstep, ih hLt, curSecMids_some]
      dsimp only
      cases cur with
      | none =>
        rw [finishEmo_none, curSecMids_none, mediaSections_cons_m t hmB,
          msAux_take_drop t [l], List.map_cons, lastMidD_msec t hmB,
          mediaSections_dropWhile]
      | some c =>
        rw [finishEmo_some, curSecMids_some, pendingMid_cons_m c.mid t hmB,
          mediaSections_cons_m t hmB, msAux_take_drop t [l], List.map_cons,
          lastMidD_msec t hmB, mediaSections_dropWhile]
        simp
    · have hmB : isMLineB l = false := Bool.eq_false_iff.mpr hm
      cases cur with
      | none =>
        have hstep : emoStepT (res, none) l = (res, none) := by
          unfold emoStepT
          dsimp only
          rw [if_neg hm, if_neg (by rintro ⟨h1, _⟩; simp at h1)]
        rw [hstep, ih hLt, curSecMids_none, curSecMids_none,
          mediaSections_cons_nonm t hmB]
      | some c =>
        by_cases hmid : hasPre l "a=mid:".toList
        · have hstep : emoStepT (res, some c) l
              = (res, some { c with mid := l.drop "a=mid:".length }) := by
            unfold emoStepT
            dsimp only
            rw [if_neg hm, if_pos ⟨rfl, hmid⟩]
            rfl
          rw [hstep, ih hLt, curSecMids_some, curSecMids_some]
          dsimp only
          rw [pendingMid_cons_mid c.mid t hmB hmid,
            mediaSections_cons_nonm t hmB]
        · have hstep : emoStepT (res, some c) l = (res, some c) := by
            unfold emoStepT
            dsimp only
            rw [if_neg hm, if_neg (by rintro ⟨_, h2⟩; exact hmid h2)]
          rw [hstep, ih hLt, curSecMids_some, curSecMids_some,
            pendingMid_cons_other c.mid t hmB (parseMid_of_not_pre hmid),
            mediaSections_cons_nonm t hmB]

/-- Under the 4-field hypothesis on `m=` lines, the extracted mids are the
per-section last `a=mid:` values of the client offer. -/
theorem extract_mids_eq_spec (s : String)
    (hL : ∀ l ∈ (splitSDPLines s).map trimSpace,
      hasPre l "m=".toList = true → 4 ≤ (fieldsGo l).length) :
    (extractMediaOrder s).map MediaInfo.mid = specMediaMids s := by
  rw [extractMediaOrder_eq_finish, foldl_emoStep_map_trim,
    emoFold_mids ((splitSDPLines s).map trimSpace) hL [] none,
    curSecMids_none]
  rfl

/-! ### CRLF-freeness of the extracted media order, lower-casing and cleaning -/

theorem fieldsAux_no_space :
    ∀ (l acc : List Char), (∀ c ∈ acc, goIsSpace c = false) →
      ∀ f ∈ fieldsAux l acc, ∀ c ∈ f, goIsSpace c = false := by
  intro l
  induction l with
  | nil =>
    intro acc hacc f hf c hc
    unfold fieldsAux at hf
    by_cases he : acc.isEmpty
    · rw [if_pos he] at hf
      exact absurd hf (by simp)
    · rw [if_neg he] at hf
      have hfe : f = acc.reverse := by simpa using hf
      subst hfe
      exact hacc c (by simpa using hc)
  | cons d rest ih =>
    intro acc hacc f hf c hc
    unfold fieldsAux at hf
    by_cases hs : goIsSpace d
    · rw [if_pos hs] at hf
      by_cases he : acc.isEmpty
      · rw [if_pos he] at hf
        exact ih [] (by simp) f hf c hc
      · rw [if_neg he] at hf
        rcases List.mem_cons.mp hf with h2 | h2
        · subst h2
          exact hacc c (by simpa using hc)
        · exact ih [] (by simp) f h2 c hc
    · rw [if_neg hs] at hf
      refine ih (d :: acc) ?_ f hf c hc
      intro x hx
      rcases List.mem_cons.mp hx with h2 | h2
      · subst h2
        exact Bool.eq_false_iff.mpr hs
      · exact hacc x h2

theorem fieldsGo_wf (l : List Char) : ∀ f ∈ fieldsGo l, wfStr f := by
  intro f hf
  apply no_lf_not_crlf_infix
  intro hmem
  have hsp := fieldsAux_no_space l [] (by simp) f hf '\n' hmem
  exact absurd hsp (by decide)

theorem headD_fieldsGo_wf (l : List Char) : wfStr ((fieldsGo l).headD []) := by
  cases hf : fieldsGo l with
  | nil =>
    unfold wfStr
    decide
  | cons x xs =>
    have hx : x ∈ fieldsGo l := by
      rw [hf]
      exact List.mem_cons_self x xs
    exact fieldsGo_wf l x hx

/-- CRLF-freeness invariant of `ExtractMediaOrder`'s loop state. -/
def emoInv (st : List MediaInfo × Option MediaInfo) : Prop :=
  (∀ mi ∈ st.1, wfStr mi.mid ∧ wfStr mi.type)
    ∧ ∀ mi, st.2 = some mi → wfStr mi.mid ∧ wfStr mi.type

theorem finishEmo_wf {st : List MediaInfo × Option MediaInfo}
    (h : emoInv st) : ∀ mi ∈ finishEmo st, wfStr mi.mid ∧ wfStr mi.type := by
  obtain ⟨h1, h2⟩ := h
  intro mi hmi
  unfold finishEmo at hmi
  cases hc : st.2 with
  | none =>
    rw [hc] at hmi
    exact h1 mi hmi
  | some c =>
    rw [hc] at hmi
    dsimp only at hmi
    rcases List.mem_append.mp hmi with hh | hh
    · exact h1 mi hh
    · have he : mi = c := by simpa using hh
      rw [he]
      exact h2 c hc

theorem emoStep_inv {res : List MediaInfo} {cur : Option MediaInfo} {l : List Char}
    (hl : wfStr l) (h : emoInv (res, cur)) : emoInv (emoStep (res, cur) l) := by
  obtain ⟨h1, h2⟩ := h
  dsimp only at h1 h2
  have hline : wfStr (trimSpace l) := trim_not_infix hl
  show emoInv (emoStepT (res, cur) (trimSpace l))
  by_cases hm : hasPre (trimSpace l) "m=".toList
  · by_cases h4 : 4 ≤ (fieldsGo (trimSpace l)).length
    · have hstep : emoStepT (res, cur) (trimSpace l)
          = (finishEmo (res, cur),
             some ⟨[], ((fieldsGo (trimSpace l)).headD []).drop 2⟩) := by
        unfold emoStepT
        dsimp only
        rw [if_pos hm, if_pos h4]
        rfl
      rw [hstep]
      constructor
      · intro mi hmi
        exact finishEmo_wf ⟨h1, h2⟩ mi hmi
      · intro mi hmi
        dsimp only at hmi
        have he := (Option.some_injective _ hmi).symm
        rw [he]
        refine ⟨?_, drop_not_infix _ (headD_fieldsGo_wf _)⟩
        dsimp only
        unfold wfStr
        decide
    · have hstep : emoStepT (res, cur) (trimSpace l) = (finishEmo (res, cur), cur) := by
        unfold emoStepT
        dsimp only
        rw [if_pos hm, if_neg h4]
        rfl
      rw [hstep]
      exact ⟨fun mi hmi => finishEmo_wf ⟨h1, h2⟩ mi hmi, fun mi hmi => h2 mi hmi⟩
  · cases cur with
    | none =>
      have hstep : emoStepT (res, none) (trimSpace l) = (res, none) := by
        unfold emoStepT
        dsimp only
        rw [if_neg hm, if_neg (by rintro ⟨hx, _⟩; simp at hx)]
      rw [hstep]
      exact ⟨h1, h2⟩
    | some c =>
      by_cases hmid : hasPre (trimSpace l) "a=mid:".toList
      · have hstep : emoStepT (res, some c) (trimSpace l)
            = (res, some { c with mid := (trimSpace l).drop "a=mid:".length }) := by
          unfold emoStepT
          dsimp only
          rw [if_neg hm, if_pos ⟨rfl, hmid⟩]
          rfl
        rw [hstep]
        refine ⟨h1, ?_⟩
        intro mi hmi
        have he := (Option.some_injective _ hmi).symm
        rw [he]
        exact ⟨ drop_not_infix _ hline, (h2 c rfl).2⟩
      · have hstep : emoStepT (res, some c) (trimSpace l) = (res, some c) := by
          unfold emoStepT
          dsimp only
          rw [if_neg hm, if_neg (by rintro ⟨_, hx⟩; exact hmid hx)]
        rw [hstep]
        exact ⟨h1, h2⟩

theorem emoFold_inv :
    ∀ (L : List (List Char)) (st : List MediaInfo × Option MediaInfo),
      (∀ l ∈ L, wfStr l) → emoInv st → emoInv (L.foldl emoStep st) := by
  intro L
  induction L with
  | nil =>
    intro st _ h
    exact h
  | cons l t ih =>
    intro st hL h
    rw [List.foldl_cons]
    have hstep : emoInv (emoStep st l) := by
      obtain ⟨res, cur⟩ := st
      exact emoStep_inv (hL l (List.mem_cons_self l t)) h
    exact ih _ (fun x hx => hL x (List.mem_cons_of_mem l hx)) hstep

theorem extractMediaOrder_wf (s : String) :
    ∀ mi ∈ extractMediaOrder s, wfStr mi.mid ∧ wfStr mi.type := by
  rw [extractMediaOrder_eq_finish]
  exact finishEmo_wf
    (emoFold_inv _ _ (splitSDPLines_pieces s) ⟨by simp, by simp⟩)

theorem toLower_ne_cr {c : Char} (h : c ≠ '\r') : Char.toLower c ≠ '\r' := by
  unfold Char.toLower
  dsimp only
  by_cases hc : c.toNat ≥ 65 ∧ c.toNat ≤ 90
  · rw [if_pos hc]
    obtain ⟨h65, h90⟩ := hc
    obtain ⟨k, hk⟩ : ∃ k, c.toNat = k := ⟨c.toNat, rfl⟩
    rw [hk] at h65 h90 ⊢
    interval_cases k <;> decide
  · rw [if_neg hc]
    exact h

theorem toLower_ne_lf {c : Char} (h : c ≠ '\n') : Char.toLower c ≠ '\n' := by
  unfold Char.toLower
  dsimp only
  by_cases hc : c.toNat ≥ 65 ∧ c.toNat ≤ 90
  · rw [if_pos hc]
    obtain ⟨h65, h90⟩ := hc
    obtain ⟨k, hk⟩ : ∃ k, c.toNat = k := ⟨c.toNat, rfl⟩
    rw [hk] at h65 h90 ⊢
    interval_cases k <;> decide
  · rw [if_neg hc]
    exact h

theorem toLower_eq_cr {c : Char} (h : Char.toLower c = '\r') : c = '\r' := by
  by_contra hne
  exact toLower_ne_cr hne h

theorem toLower_eq_lf {c : Char} (h : Char.toLower c = '\n') : c = '\n' := by
  by_contra hne
  exact toLower_ne_lf hne h

theorem lowerGo_wf {l : List Char} (h : wfStr l) : wfStr (lowerGo l) := by
  unfold wfStr at h ⊢
  intro hinf
  obtain ⟨j, hj⟩ := infix_iff_exists_drop.mp hinf
  rw [show lowerGo l = l.map Char.toLower from rfl, ← List.map_drop] at hj
  cases hd : l.drop j with
  | nil =>
    rw [hd] at hj
    exact absurd hj (by decide)
  | cons a rest =>
    rw [hd] at hj
    cases rest with
    | nil =>
      have hlen := hj.length_le
      rw [show crlfSep.length = 2 from rfl, List.length_map] at hlen
      simp at hlen
    | cons b rest2 =>
      rw [show (a :: b :: rest2).map Char.toLower
          = Char.toLower a :: Char.toLower b :: rest2.map Char.toLower from rfl,
        show crlfSep = '\r' :: '\n' :: [] from rfl, List.cons_prefix_cons] at hj
      obtain ⟨hca, hj2⟩ := hj
      rw [List.cons_prefix_cons] at hj2
      obtain ⟨hcb, _⟩ := hj2
      apply h
      apply infix_iff_exists_drop.mpr ⟨j, ?_⟩
      rw [hd, toLower_eq_cr hca.symm, toLower_eq_lf hcb.symm]
      exact ⟨rest2, rfl⟩

theorem truncGen_wf {c : List Char} (h : wfStr c) : wfStr (truncGen c) := by
  unfold truncGen
  cases hfi : firstIdx genPat c with
  | none => exact h
  | some idx =>
    dsimp only
    by_cases hpos : 0 < idx
    · rw [if_pos hpos]
      exact trim_not_infix (not_infix_of_infix_not (List.take_prefix idx c).isInfix h)
    · rw [if_neg hpos]
      exact h

theorem addTcptypeGo_wf {c : List Char} (h : wfStr c) : wfStr (addTcptypeGo c) := by
  unfold addTcptypeGo
  dsimp only
  split_ifs with h1 h2
  · exact crlf_not_infix_append_cons h (by decide) (by decide) (by decide)
  · exact h
  · exact h

theorem cleanChars_wf {c : List Char} (h : wfStr c) :
    wfStr (cleanWowzaCandidateChars c) := addTcptypeGo_wf (truncGen_wf h)

theorem trimPre_wf {l pat : List Char} (h : wfStr l) : wfStr (trimPre l pat) := by
  unfold trimPre
  split_ifs with h1
  · exact drop_not_infix _ h
  · exact h

/-! ### Mid values of the marshalled answer sections -/

theorem codecKeys_facts : ∀ k ∈ codecKeys, ':' ∉ k ∧ k ≠ "mid".toList := by decide

theorem parseMidLine_key_ne {K V : List Char} (hK : ':' ∉ K)
    (hne : K ≠ "mid".toList) : parseMidLine (attrLine ⟨K, V⟩) = none :=
  parseMidLine_attr_ne ⟨K, V⟩ hK hne

theorem parseMidLine_key_mid {K V : List Char} (hK : K = "mid".toList) :
    parseMidLine (attrLine ⟨K, V⟩) = some V :=
  parseMidLine_attr_mid ⟨K, V⟩ hK

theorem parseMidLine_mLine (mn : MediaName) : parseMidLine (mLine mn) = none :=
  parseMidLine_none_of_not_a
    (by rw [show (mLine mn).head? = some 'm' from rfl]; decide)

theorem parseMidLine_connLine (ci : ConnInfo) : parseMidLine (connLine ci) = none :=
  parseMidLine_none_of_not_a
    (by rw [show (connLine ci).head? = some 'c' from rfl]; decide)

theorem midValues_mediaLines_rejected (wc : ICECredentials) (cm : MediaInfo) :
    midValues (mediaLines (rejectedSection wc cm)) = [cm.mid] := by
  unfold midValues mediaLines rejectedSection
  dsimp only
  rw [List.nil_append]
  simp only [List.map_cons, List.map_nil]
  rw [List.filterMap_cons_none (parseMidLine_mLine _),
    List.filterMap_cons_some (parseMidLine_key_mid rfl),
    List.filterMap_cons_none (parseMidLine_key_ne (by decide) (by decide)),
    List.filterMap_cons_none (parseMidLine_key_ne (by decide) (by decide)),
    List.filterMap_cons_none (parseMidLine_key_ne (by decide) (by decide)),
    List.filterMap_cons_none (parseMidLine_key_ne (by decide) (by decide)),
    List.filterMap_cons_none (parseMidLine_key_ne (by decide) (by decide)),
    List.filterMap_nil]

theorem midValues_build_sec (wc : ICECredentials) (wd : SessionDesc)
    (cands : List WowzaICECandidate) (i : Nat) (cm : MediaInfo) :
    midValues (mediaLines (buildClientSection wc wd cands i cm)) = [cm.mid] := by
  unfold buildClientSection
  dsimp only
  cases hmt : wowzaMediaByType wd.mediaDescriptions (lowerGo cm.type) with
  | none => exact midValues_mediaLines_rejected wc cm
  | some wmd =>
    unfold midValues mediaLines
    dsimp only
    rw [List.filterMap_cons_none (parseMidLine_mLine _)]
    rw [show ([connLine ⟨"IN".toList, "IP4".toList, some "0.0.0.0".toList⟩]
        ++ ((wmd.attributes.filter (fun a => a.key ∈ codecKeys))
          ++ [(⟨"ice-ufrag".toList, wc.iceUfrag⟩ : GoAttr),
              ⟨"ice-pwd".toList, wc.icePwd⟩,
              ⟨"fingerprint".toList, wc.fingerprint⟩,
              ⟨"setup".toList, "passive".toList⟩,
              ⟨"mid".toList, cm.mid⟩,
              ⟨"sendonly".toList, []⟩,
              ⟨"rtcp-mux".toList, []⟩]
          ++ (cands.filter (fun c => c.sdpMLineIndex = some i)).map
              (fun c => (⟨"candidate".toList,
                trimPre (cleanWowzaCandidateChars c.candidate)
                  "candidate:".toList⟩ : GoAttr))).map attrLine)
      = connLine ⟨"IN".toList, "IP4".toList, some "0.0.0.0".toList⟩
          :: (((wmd.attributes.filter (fun a => a.key ∈ codecKeys)).map attrLine)
            ++ ([(⟨"ice-ufrag".toList, wc.iceUfrag⟩ : GoAttr),
              ⟨"ice-pwd".toList, wc.icePwd⟩,
              ⟨"fingerprint".toList, wc.fingerprint⟩,
              ⟨"setup".toList, "passive".toList⟩,
              ⟨"mid".toList, cm.mid⟩,
              ⟨"sendonly".toList, []⟩,
              ⟨"rtcp-mux".toList, []⟩].map attrLine)
            ++ (((cands.filter (fun c => c.sdpMLineIndex = some i)).map
              (fun c => (⟨"candidate".toList,
                trimPre (cleanWowzaCandidateChars c.candidate)
                  "candidate:".toList⟩ : GoAttr))).map attrLine))
      from by simp [List.map_append]]
    rw [List.filterMap_cons_none (parseMidLine_connLine _),
      List.filterMap_append, List.filterMap_append]
    have hA : List.filterMap parseMidLine
        ((wmd.attributes.filter (fun a => a.key ∈ codecKeys)).map attrLine) = [] := by
      rw [List.filterMap_map, List.filterMap_eq_nil_iff]
      intro a ha
      rw [List.mem_filter] at ha
      obtain ⟨hc1, hc2⟩ := codecKeys_facts _ (of_decide_eq_true ha.2)
      exact parseMidLine_attr_ne a hc1 hc2
    have hC : List.filterMap parseMidLine
        (((cands.filter (fun c => c.sdpMLineIndex = some i)).map
          (fun c => (⟨"candidate".toList,
            trimPre (cleanWowzaCandidateChars c.candidate)
              "candidate:".toList⟩ : GoAttr))).map attrLine) = [] := by
      rw [List.map_map, List.filterMap_map, List.filterMap_eq_nil_iff]
      intro c _
      exact parseMidLine_key_ne (by decide) (by decide)
    rw [hA, hC]
    simp only [List.map_cons, List.map_nil]
    rw [List.filterMap_cons_none (parseMidLine_key_ne (by decide) (by decide)),
      List.filterMap_cons_none (parseMidLine_key_ne (by decide) (by decide)),
      List.filterMap_cons_none (parseMidLine_key_ne (by decide) (by decide)),
      List.filterMap_cons_none (parseMidLine_key_ne (by decide) (by decide)),
      List.filterMap_cons_some (parseMidLine_key_mid rfl),
      List.filterMap_cons_none (parseMidLine_key_ne (by decide) (by decide)),
      List.filterMap_cons_none (parseMidLine_key_ne (by decide) (by decide)),
      List.filterMap_nil]
    simp

/-! ### Shape and wellformedness of the client answer -/

theorem isMLineB_mLine (mn : MediaName) : isMLineB (mLine mn) = true := by
  show hasPre (mLine mn) "m=".toList = true
  apply hasPre_eq_true_iff.mpr
  unfold mLine
  simp only [List.append_assoc]
  exact List.prefix_append _ _

theorem isMLineB_connLine (ci : ConnInfo) : isMLineB (connLine ci) = false :=
  isMLineB_head (by rw [show (connLine ci).head? = some 'c' from rfl]; decide)

theorem isMLineB_attrLine (a : GoAttr) : isMLineB (attrLine a) = false :=
  isMLineB_head (by rw [show (attrLine a).head? = some 'a' from rfl]; decide)

theorem mediaLines_shape (md : MediaDesc) : SecShape (mediaLines md) := by
  refine ⟨mLine md.mediaName, _, rfl, isMLineB_mLine _, ?_⟩
  intro l hl
  rcases List.mem_append.mp hl with h2 | h2
  · cases hci : md.connInfo with
    | none =>
      rw [hci] at h2
      simp at h2
    | some ci =>
      rw [hci] at h2
      have he : l = connLine ci := by simpa using h2
      rw [he]
      exact isMLineB_connLine ci
  · obtain ⟨a, _, rfl⟩ := List.mem_map.mp h2
    exact isMLineB_attrLine a

theorem sessionLines_nonm (d : SessionDesc) :
    ∀ l ∈ sessionLines d, isMLineB l = false := by
  intro l hl
  unfold sessionLines at hl
  rcases List.mem_append.mp hl with h2 | h2
  · rcases List.mem_append.mp h2 with h3 | h3
    · rcases List.mem_append.mp h3 with h4 | h4
      · simp only [List.mem_cons, List.not_mem_nil, or_false] at h4
        rcases h4 with rfl | rfl | rfl
        · exact isMLineB_head (by rw [show (vLine d.version).head? = some 'v' from rfl]; decide)
        · exact isMLineB_head (by rw [show (oLine d.origin).head? = some 'o' from rfl]; decide)
        · exact isMLineB_head (by rw [show (sLine d.sessionName).head? = some 's' from rfl]; decide)
      · cases hci : d.connInfo with
        | none =>
          rw [hci] at h4
          simp at h4
        | some ci =>
          rw [hci] at h4
          have he : l = connLine ci := by simpa using h4
          rw [he]
          exact isMLineB_connLine ci
    · obtain ⟨t, _, rfl⟩ := List.mem_map.mp h3
      exact isMLineB_head (by rw [show (tLine t).head? = some 't' from rfl]; decide)
  · obtain ⟨a, _, rfl⟩ := List.mem_map.mp h2
    exact isMLineB_attrLine a

theorem wowzaMediaByType_mem {mds : List MediaDesc} {key : List Char}
    {wmd : MediaDesc} (h : wowzaMediaByType mds key = some wmd) : wmd ∈ mds := by
  unfold wowzaMediaByType at h
  exact List.mem_of_mem_filter (List.mem_of_mem_getLast? h)

theorem buildClientSection_wfL {wd : SessionDesc} {cands : List WowzaICECandidate}
    {wc : ICECredentials} {i : Nat} {cm : MediaInfo}
    (hW : ∀ md ∈ wd.mediaDescriptions, mediaWfL md)
    (hcands : ∀ c ∈ cands, wfStr c.candidate)
    (hcm : wfStr cm.mid ∧ wfStr cm.type)
    (hwc : credsWf wc) :
    mediaWfL (buildClientSection wc wd cands i cm) := by
  obtain ⟨hu, hp2, hf, hs2, _⟩ := hwc
  unfold buildClientSection
  dsimp only
  cases hmt : wowzaMediaByType wd.mediaDescriptions (lowerGo cm.type) with
  | none =>
    show mediaWfL (rejectedSection wc cm)
    unfold rejectedSection
    refine ⟨?_, ?_, ?_, ?_, ?_⟩
    · exact lowerGo_wf hcm.2
    · dsimp only
      unfold wfStr
      decide
    · dsimp only
      unfold wfStr
      decide
    · intro ci h
      exact Option.noConfusion h
    · intro a ha
      dsimp only at ha
      simp only [List.mem_cons, List.not_mem_nil, or_false] at ha
      rcases ha with rfl | rfl | rfl | rfl | rfl | rfl
      · exact attrWfL_mk (by unfold wfStr; decide) hcm.1
      · exact attrWfL_mk (by unfold wfStr; decide) hu
      · exact attrWfL_mk (by unfold wfStr; decide) hp2
      · exact attrWfL_mk (by unfold wfStr; decide) hf
      · exact attrWfL_mk (by unfold wfStr; decide) (by unfold wfStr; decide)
      · exact attrWfL_mk (by unfold wfStr; decide) (by unfold wfStr; decide)
  | some wmd =>
    have hmem := wowzaMediaByType_mem hmt
    obtain ⟨hwm, hwp, hwf2, hwc2, hwa⟩ := hW wmd hmem
    refine ⟨?_, ?_, ?_, ?_, ?_⟩
    · exact hwm
    · dsimp only
      unfold wfStr
      decide
    · exact hwf2
    · intro ci h
      dsimp only at h
      have he := (Option.some_injective _ h).symm
      rw [he]
      refine ⟨by dsimp only; unfold wfStr; decide, by dsimp only; unfold wfStr; decide, ?_⟩
      intro a ha
      have ha2 := (Option.some_injective _ ha).symm
      rw [ha2]
      unfold wfStr
      decide
    · intro a ha
      dsimp only at ha
      rcases List.mem_append.mp ha with h2 | h2
      · rcases List.mem_append.mp h2 with h3 | h3
        · exact hwa a (List.mem_of_mem_filter h3)
        · simp only [List.mem_cons, List.not_mem_nil, or_false] at h3
          rcases h3 with rfl | rfl | rfl | rfl | rfl | rfl | rfl
          · exact attrWfL_mk (by unfold wfStr; decide) hu
          · exact attrWfL_mk (by unfold wfStr; decide) hp2
          · exact attrWfL_mk (by unfold wfStr; decide) hf
          · exact attrWfL_mk (by unfold wfStr; decide) (by unfold wfStr; decide)
          · exact attrWfL_mk (by unfold wfStr; decide) hcm.1
          · exact attrWfL_mk (by unfold wfStr; decide) (by unfold wfStr; decide)
          · exact attrWfL_mk (by unfold wfStr; decide) (by unfold wfStr; decide)
      · obtain ⟨c, hcmem, rfl⟩ := List.mem_map.mp h2
        exact attrWfL_mk (by unfold wfStr; decide)
          (trimPre_wf (cleanChars_wf (hcands c (List.mem_of_mem_filter hcmem))))

theorem answerForClientDesc_wf {wowzaOffer clientOffer : String} {wd : SessionDesc}
    {cands : List WowzaICECandidate} {ans : SessionDesc}
    (hW : ∀ md ∈ wd.mediaDescriptions, mediaWfL md)
    (hcands : ∀ c ∈ cands, wfStr c.candidate)
    (hsucc : answerForClientDesc wowzaOffer wd clientOffer cands = some ans) :
    descWfL ans := by
  unfold answerForClientDesc at hsucc
  dsimp only at hsucc
  by_cases hfp : (extractCredentials wowzaOffer).fingerprint.isEmpty
  · rw [if_pos hfp] at hsucc
    exact absurd hsucc (by simp)
  · rw [if_neg hfp] at hsucc
    injection hsucc with hrec
    subst hrec
    obtain ⟨hu, hp2, hf, hs2, hc5⟩ := extractCredentials_wf wowzaOffer
    refine ⟨?_, ?_, ?_, ?_, ?_, ?_, ?_, ?_⟩
    · dsimp only
      unfold wfStr
      decide
    · dsimp only
      unfold wfStr
      decide
    · dsimp only
      unfold wfStr
      decide
    · dsimp only
      unfold wfStr
      decide
    · dsimp only
      unfold wfStr
      decide
    · intro ci h
      exact Option.noConfusion h
    · intro a ha
      dsimp only at ha
      simp only [List.mem_cons, List.not_mem_nil, or_false] at ha
      have hmids : ∀ m ∈ (extractMediaOrder clientOffer).map MediaInfo.mid,
          wfStr m := by
        intro m hm
        obtain ⟨mi, hmi, rfl⟩ := List.mem_map.mp hm
        exact (extractMediaOrder_wf clientOffer mi hmi).1
      rcases ha with rfl | rfl | rfl
      · refine attrWfL_mk (by unfold wfStr; decide) ?_
        show wfStr ("BUNDLE".toList ++ ' ' :: List.intercalate [' ']
          ((extractMediaOrder clientOffer).map MediaInfo.mid))
        exact crlf_not_infix_append_cons (by decide) (by decide) (by decide)
          (intercalate_sep1_wf (by decide) (by decide) _ hmids)
      · exact attrWfL_mk (by unfold wfStr; decide) (by unfold wfStr; decide)
      · exact attrWfL_mk (by unfold wfStr; decide) hf
    · intro md hmd
      dsimp only at hmd
      obtain ⟨p, hp, rfl⟩ := List.mem_map.mp hmd
      have hcm : p.2 ∈ extractMediaOrder clientOffer := by
        have h2 := List.mem_map_of_mem Prod.snd hp
        rwa [List.enum_map_snd] at h2
      exact buildClientSection_wfL hW hcands
        (extractMediaOrder_wf clientOffer p.2 hcm) ⟨hu, hp2, hf, hs2, hc5⟩

theorem midValues_append_empty (sec : List (List Char)) :
    midValues (sec ++ [[]]) = midValues sec := by
  unfold midValues
  rw [List.filterMap_append,
    show List.filterMap parseMidLine [[]] = [] from by decide]
  exact List.append_nil _

theorem attachLast_map_midValues :
    ∀ secs : List (List (List Char)),
      (attachLast [[]] secs).map midValues = secs.map midValues := by
  intro secs
  induction secs with
  | nil => rfl
  | cons s rest ih =>
    cases rest with
    | nil =>
      show [midValues (s ++ [[]])] = [midValues s]
      rw [midValues_append_empty]
    | cons s2 r2 =>
      rw [attachLast_cons₂, List.map_cons, List.map_cons, ih]

/-- **C2 (amended).** For every successful `CreateAnswerForClient` on inputs
whose Wowza description, candidate strings and extracted media types are
CRLF-free, and whose client offer has at least 4 fields on every trimmed `m=`
line, the `i`-th media section of the returned SDP announces exactly the mid
of the `i`-th client media section (the value of its last `a=mid:` line, empty
when absent), in client declaration order, and the session part carries the
`a=group:BUNDLE` attribute enumerating exactly those mids in the same order. -/
theorem claim_C2_amended (wowzaOffer clientOffer : String) (wd : SessionDesc)
    (cands : List WowzaICECandidate) (out : String)
    (hW : ∀ md ∈ wd.mediaDescriptions, mediaWfL md)
    (hcands : ∀ c ∈ cands, wfStr c.candidate)
    (hfields : ∀ l ∈ (splitSDPLines clientOffer).map trimSpace,
      hasPre l "m=".toList = true → 4 ≤ (fieldsGo l).length)
    (hsucc : CreateAnswerForClient wowzaOffer wd clientOffer cands = some out) :
    (mediaSections (splitOnSub crlfSep out.toList)).map midValues
        = (specMediaMids clientOffer).map (fun m => [m])
    ∧ ("a=group:BUNDLE ".toList
        ++ List.intercalate [' '] (specMediaMids clientOffer))
        ∈ sessionSection (splitOnSub crlfSep out.toList) := by
  unfold CreateAnswerForClient at hsucc
  obtain ⟨ans, hans, hout⟩ := Option.map_eq_some'.mp hsucc
  subst hout
  have hwf : descWfL ans := answerForClientDesc_wf hW hcands hans
  have hsplit := splitOnSub_marshalString hwf
  have hspec := extract_mids_eq_spec clientOffer hfields
  unfold answerForClientDesc at hans
  dsimp only at hans
  by_cases hfp : (extractCredentials wowzaOffer).fingerprint.isEmpty
  · rw [if_pos hfp] at hans
    exact absurd hans (by simp)
  · rw [if_neg hfp] at hans
    injection hans with hrec
    subst hrec
    rw [hsplit]
    unfold marshalLines
    dsimp only
    have hpost : ∀ l ∈ [([] : List Char)], isMLineB l = false := by
      intro l hl
      have he : l = [] := by simpa using hl
      rw [he]
      decide
    constructor
    · rw [mediaSections_spec _ _ _ (sessionLines_nonm _) hpost
        (fun sec hs => by
          obtain ⟨md, _, hmd⟩ := List.mem_map.mp hs
          rw [← hmd]
          exact mediaLines_shape md)]
      rw [attachLast_map_midValues, List.map_map, List.map_map]
      rw [List.map_congr_left
        (fun p _ => midValues_build_sec (extractCredentials wowzaOffer) wd cands p.1 p.2)]
      rw [show ((fun p : ℕ × MediaInfo => [p.2.mid]) : ℕ × MediaInfo → List (List Char))
          = (fun m : List Char => [m]) ∘ (MediaInfo.mid ∘ Prod.snd) from rfl]
      rw [← List.map_map, ← List.map_map, List.enum_map_snd, hspec]
    · rw [sessionSection_spec _ _ _ (sessionLines_nonm _) hpost
        (fun sec hs => by
          obtain ⟨md, _, hmd⟩ := List.mem_map.mp hs
          rw [← hmd]
          exact mediaLines_shape md)]
      rw [← hspec]
      have key : ∀ (d : SessionDesc),
          (⟨"group".toList, "BUNDLE ".toList ++ List.intercalate [' ']
            ((extractMediaOrder clientOffer).map MediaInfo.mid)⟩ : GoAttr)
            ∈ d.attributes →
          ("a=group:BUNDLE ".toList ++ List.intercalate [' ']
            ((extractMediaOrder clientOffer).map MediaInfo.mid))
            ∈ sessionLines d := by
        intro d hd
        unfold sessionLines
        refine List.mem_append.mpr (Or.inr ?_)
        exact (show attrLine ⟨"group".toList, "BUNDLE ".toList
            ++ List.intercalate [' '] ((extractMediaOrder clientOffer).map MediaInfo.mid)⟩
          = "a=group:BUNDLE ".toList
            ++ List.intercalate [' '] ((extractMediaOrder clientOffer).map MediaInfo.mid)
          from rfl) ▸ List.mem_map_of_mem attrLine hd
      split_ifs with he
      · exact List.mem_append.mpr (Or.inl (key _ (by simp)))
      · exact key _ (by simp)

def c2w : String := "a=fingerprint:sha-256 AA:BB\r\n"

def c2d : SessionDesc :=
  { version := 0,
    origin := ⟨"-".toList, 0, 0, "IN".toList, "IP4".toList, "0.0.0.0".toList⟩,
    sessionName := "-".toList,
    connInfo := none,
    timeDescriptions := [⟨0, 0⟩],
    attributes := [],
    mediaDescriptions := [] }

def c2o : String := "m=video 9 RTP 0\r\na=mid:A\r\nm=x\r\n"

/-- Counterexample to C2 as stated: for the client offer
`m=video 9 RTP 0 / a=mid:A / m=x`, the second client media section (the bare
`m=x` line) has no mid, yet both media sections of the returned answer carry
mid `A` — the under-4-field `m=` branch of `ExtractMediaOrder` duplicates the
previous entry, so the answer's second section does not match the client's
second section. -/
theorem claim_C2_counterexample :
    specMediaMids c2o = [['A'], []]
    ∧ (CreateAnswerForClient c2w c2d c2o []).map
        (fun out => (mediaSections (splitOnSub crlfSep out.toList)).map midValues)
      = some [[['A']], [['A']]] := ⟨by decide, by decide⟩

def c2gw : String := "a=ice-ufrag:cu\r\na=ice-pwd:cp\r\na=fingerprint:sha-256 CC:DD\r\n"

def c2gd : SessionDesc :=
  { version := 0,
    origin := ⟨"-".toList, 1, 1, "IN".toList, "IP4".toList, "127.0.0.1".toList⟩,
    sessionName := "-".toList,
    connInfo := none,
    timeDescriptions := [⟨0, 0⟩],
    attributes := [],
    mediaDescriptions :=
      [{ mediaName :=
           { media := "video".toList, port := ⟨9, none⟩,
             protos := ["RTP".toList, "AVP".toList], formats := [['9', '6']] },
         connInfo := none,
         attributes := [⟨"rtpmap".toList, "96 H264/90000".toList⟩] }] }

def c2go : String := "v=0\r\nm=video 9 RTP/AVP 96\r\na=mid:0\r\n"

/-- Witness for the amended C2 at a concrete input: the one-section answer
carries mid `0`, matching the client's single section, and the BUNDLE group
lists exactly `0`. -/
theorem claim_C2_witness :
    ((mediaSections (splitOnSub crlfSep
        ((CreateAnswerForClient c2gw c2gd c2go []).getD "").toList)).map midValues
      = (specMediaMids c2go).map (fun m => [m]))
    ∧ ("a=group:BUNDLE ".toList ++ List.intercalate [' '] (specMediaMids c2go))
        ∈ sessionSection (splitOnSub crlfSep
            ((CreateAnswerForClient c2gw c2gd c2go []).getD "").toList) :=
  claim_C2_amended c2gw c2go c2gd []
    ((CreateAnswerForClient c2gw c2gd c2go []).getD "")
    (by
      intro md hmd
      simp only [c2gd, List.mem_cons, List.not_mem_nil, or_false] at hmd
      subst hmd
      refine ⟨by unfold wfStr; decide, by unfold wfStr; decide,
        by unfold wfStr; decide, fun ci h => Option.noConfusion h,
        by unfold attrWfL wfStr; decide⟩)
    (by simp)
    (by decide)
    (by decide)

/-! ## Claim C1: credentials and candidates of the Wowza-side answer -/

theorem head_of_hasPre {l : List Char} {c : Char} {pt : List Char}
    (h : hasPre l (c :: pt) = true) : l.head? = some c := by
  obtain ⟨t, ht⟩ := hasPre_eq_true_iff.mp h
  rw [← ht]
  rfl

theorem hasPre_false_head {l pat : List Char} {c d : Char}
    (hpat : pat.head? = some c) (hl : l.head? = some d) (hne : d ≠ c) :
    hasPre l pat = false := by
  rw [Bool.eq_false_iff]
  intro h
  cases pat with
  | nil => exact Option.noConfusion hpat
  | cons p pt =>
    have hp : p = c := Option.some_injective _ hpat
    have hd : l.head? = some p := head_of_hasPre h
    rw [hl] at hd
    exact hne (by rw [← hp]; exact (Option.some_injective _ hd.symm).symm)

theorem isEmpty_false_of_ne {l : List Char} (h : l ≠ []) : l.isEmpty = false := by
  cases l with
  | nil => exact absurd rfl h
  | cons a t => rfl

theorem attrLine_val_ne {K v : List Char} (hv : v ≠ []) :
    attrLine ⟨K, v⟩ = "a=".toList ++ K ++ ':' :: v := by
  unfold attrLine
  dsimp only
  rw [isEmpty_false_of_ne hv]
  rfl

theorem lineRemoved_false {l : List Char}
    (h1 : hasPre l "a=end-of-candidates".toList = false)
    (h2 : hasPre l "a=candidate:".toList = false) : lineRemoved l = false := by
  unfold lineRemoved
  rw [h1, h2]
  rfl

theorem lineRemoved_false_head {l : List Char} (h : l.head? = some 'm' ∨ l.head? = some 'c' ∨ l.head? = some 'v' ∨ l.head? = some 'o' ∨ l.head? = some 's' ∨ l.head? = some 't') :
    lineRemoved l = false := by
  rcases h with h | h | h | h | h | h <;>
    exact lineRemoved_false
      (hasPre_false_head
        (show "a=end-of-candidates".toList.head? = some 'a' from rfl) h (by decide))
      (hasPre_false_head
        (show "a=candidate:".toList.head? = some 'a' from rfl) h (by decide))

theorem eoc_not_pre_of_key {key tail : List Char} (hne : key.head? ≠ some 'e')
    (hkey : key ≠ []) : ¬ ("end-of-candidates".toList <+: key ++ tail) := by
  cases key with
  | nil => exact absurd rfl hkey
  | cons c kt =>
    intro hpre
    rw [List.cons_append,
      show "end-of-candidates".toList = 'e' :: "nd-of-candidates".toList from rfl,
      List.cons_prefix_cons] at hpre
    exact hne (by rw [← hpre.1]; rfl)

theorem cred_attr_not_removed {K v : List Char} (hKc : ':' ∉ K)
    (hKe : K.head? ≠ some 'e') (hKne : K ≠ "candidate".toList) (hKnil : K ≠ []) :
    lineRemoved (attrLine ⟨K, v⟩) = false := by
  apply lineRemoved_false
  · rw [Bool.eq_false_iff]
    intro h
    have hpre := hasPre_eq_true_iff.mp h
    unfold attrLine at hpre
    rw [show "a=end-of-candidates".toList
        = "a=".toList ++ "end-of-candidates".toList from rfl,
      List.append_assoc] at hpre
    exact eoc_not_pre_of_key hKe hKnil ((List.prefix_append_right_inj _).mp hpre)
  · rw [Bool.eq_false_iff]
    intro h
    exact hKne (@attr_hasPre_key ⟨K, v⟩ "candidate".toList (by decide) hKc h)

/-! ### `insertAfterFirstUfrag` structure -/

theorem ins_append_left {A B : List (List Char)}
    (h : ∃ l ∈ A, hasPre l "a=ice-ufrag:".toList = true) :
    insertAfterFirstUfrag (A ++ B) = insertAfterFirstUfrag A ++ B := by
  induction A with
  | nil =>
    obtain ⟨l, hl, _⟩ := h
    simp at hl
  | cons a A2 ih =>
    rw [List.cons_append, insertAfterFirstUfrag_cons, insertAfterFirstUfrag_cons]
    by_cases ha : hasPre a "a=ice-ufrag:".toList
    · rw [if_pos ha, if_pos ha]
      rfl
    · rw [if_neg ha, if_neg ha, ih ?_]
      · rfl
      obtain ⟨l, hl, hh⟩ := h
      rcases List.mem_cons.mp hl with rfl | hl2
      · exact absurd hh (by rw [Bool.not_eq_true] at ha ⊢; exact ha)
      · exact ⟨l, hl2, hh⟩

theorem ins_append_right {A B : List (List Char)}
    (h : ∀ l ∈ A, hasPre l "a=ice-ufrag:".toList = false) :
    insertAfterFirstUfrag (A ++ B) = A ++ insertAfterFirstUfrag B := by
  induction A with
  | nil => rfl
  | cons a A2 ih =>
    rw [List.cons_append, insertAfterFirstUfrag_cons,
      if_neg (by rw [h a (List.mem_cons_self a A2)]; exact Bool.false_ne_true),
      ih (fun l hl => h l (List.mem_cons_of_mem a hl)), List.cons_append]

theorem ins_supset {A : List (List Char)} : ∀ x ∈ A, x ∈ insertAfterFirstUfrag A := by
  induction A with
  | nil => intro x hx; exact absurd hx (List.not_mem_nil x)
  | cons a A2 ih =>
    intro x hx
    rw [insertAfterFirstUfrag_cons]
    by_cases ha : hasPre a "a=ice-ufrag:".toList
    · rw [if_pos ha]
      rcases List.mem_cons.mp hx with rfl | hx2
      · exact List.mem_cons_self _ _
      · exact List.mem_cons_of_mem _ (List.mem_cons_of_mem _ hx2)
    · rw [if_neg ha]
      rcases List.mem_cons.mp hx with rfl | hx2
      · exact List.mem_cons_self _ _
      · exact List.mem_cons_of_mem _ (ih x hx2)

theorem ins_shape {sec : List (List Char)} (h : SecShape sec) :
    SecShape (insertAfterFirstUfrag sec) := by
  obtain ⟨m, t, rfl, hm, ht⟩ := h
  have hmm : m.head? = some 'm' :=
    head_of_hasPre (show hasPre m ('m' :: "=".toList) = true from hm)
  rw [insertAfterFirstUfrag_cons,
    if_neg (by
      rw [hasPre_false_head
        (show "a=ice-ufrag:".toList.head? = some 'a' from rfl) hmm (by decide)]
      exact Bool.false_ne_true)]
  refine ⟨m, insertAfterFirstUfrag t, rfl, hm, ?_⟩
  intro x hx
  rcases insertAfterFirstUfrag_subset hx with rfl | hx2
  · decide
  · exact ht x hx2

theorem ins_flatten :
    ∀ (fsecs : List (List (List Char))), (∀ sec ∈ fsecs, SecShape sec) →
      ∃ fsecs2 : List (List (List Char)),
        insertAfterFirstUfrag fsecs.flatten = fsecs2.flatten
        ∧ (∀ sec ∈ fsecs2, SecShape sec)
        ∧ ∀ sec2 ∈ fsecs2, ∃ sec ∈ fsecs, ∀ x ∈ sec, x ∈ sec2 := by
  intro fsecs
  induction fsecs with
  | nil =>
    intro _
    exact ⟨[], rfl, by simp, by simp⟩
  | cons s rest ih =>
    intro hsh
    rw [List.flatten_cons]
    by_cases hs : ∃ l ∈ s, hasPre l "a=ice-ufrag:".toList = true
    · refine ⟨insertAfterFirstUfrag s :: rest, ?_, ?_, ?_⟩
      · rw [ins_append_left hs, List.flatten_cons]
      · intro sec hsec
        rcases List.mem_cons.mp hsec with rfl | h2
        · exact ins_shape (hsh s (List.mem_cons_self s rest))
        · exact hsh sec (List.mem_cons_of_mem s h2)
      · intro sec2 hsec2
        rcases List.mem_cons.mp hsec2 with rfl | h2
        · exact ⟨s, List.mem_cons_self s rest, fun x hx => ins_supset x hx⟩
        · exact ⟨sec2, List.mem_cons_of_mem s h2, fun x hx => hx⟩
    · have hno : ∀ l ∈ s, hasPre l "a=ice-ufrag:".toList = false := by
        intro l hl
        rw [Bool.eq_false_iff]
        intro hh
        exact hs ⟨l, hl, hh⟩
      obtain ⟨fs2, heq, hsh2, hsub⟩ := ih (fun sec h2 => hsh sec (List.mem_cons_of_mem s h2))
      refine ⟨s :: fs2, ?_, ?_, ?_⟩
      · rw [ins_append_right hno, heq, List.flatten_cons]
      · intro sec hsec
        rcases List.mem_cons.mp hsec with rfl | h2
        · exact hsh sec (List.mem_cons_self sec rest)
        · exact hsh2 sec h2
      · intro sec2 hsec2
        rcases List.mem_cons.mp hsec2 with rfl | h2
        · exact ⟨sec2, List.mem_cons_self sec2 rest, fun x hx => hx⟩
        · obtain ⟨sec, hmem, hsub2⟩ := hsub sec2 h2
          exact ⟨sec, List.mem_cons_of_mem s hmem, hsub2⟩

theorem filter_keep_shape {sec : List (List Char)} (h : SecShape sec) :
    SecShape (List.filter (fun l => !lineRemoved l) sec) := by
  obtain ⟨m, t, rfl, hm, ht⟩ := h
  have hmm : m.head? = some 'm' :=
    head_of_hasPre (show hasPre m ('m' :: "=".toList) = true from hm)
  rw [List.filter_cons,
    if_pos (by rw [lineRemoved_false_head (Or.inl hmm)]; rfl)]
  exact ⟨m, _, rfl, hm, fun x hx => ht x (List.mem_of_mem_filter hx)⟩

/-! ### Provenance of the answer's attributes -/

theorem rewriteSessionAttr_cases (cc : ICECredentials) (a0 : GoAttr) :
    rewriteSessionAttr cc a0 = ⟨"fingerprint".toList, cc.fingerprint⟩
      ∨ (rewriteSessionAttr cc a0 = a0
          ∧ (a0.key = "fingerprint".toList → cc.fingerprint.isEmpty = true)) := by
  unfold rewriteSessionAttr
  split_ifs with g
  · exact Or.inl rfl
  · refine Or.inr ⟨rfl, fun hk => ?_⟩
    by_contra hne
    exact g ⟨hk, hne⟩

theorem rewriteMediaAttr_cases (cc : ICECredentials) (a0 : GoAttr) :
    ∀ a ∈ rewriteMediaAttr cc a0,
      a = ⟨"ice-ufrag".toList, cc.iceUfrag⟩
        ∨ a = ⟨"ice-pwd".toList, cc.icePwd⟩
        ∨ a = ⟨"fingerprint".toList, cc.fingerprint⟩
        ∨ a = ⟨"setup".toList, "active".toList⟩
        ∨ a = ⟨"recvonly".toList, []⟩
        ∨ (a = a0 ∧ a0.key ≠ "ice-ufrag".toList ∧ a0.key ≠ "ice-pwd".toList
            ∧ a0.key ≠ "fingerprint".toList ∧ a0.key ≠ "setup".toList
            ∧ a0.key ≠ "candidate".toList) := by
  intro a ha
  unfold rewriteMediaAttr at ha
  split_ifs at ha with g1 g2 g3 g4 g5 g6 g7 g8 g9
  · exact absurd ha (List.not_mem_nil a)
  · rw [List.mem_singleton] at ha
    exact Or.inl ha
  · exact absurd ha (List.not_mem_nil a)
  · rw [List.mem_singleton] at ha
    exact Or.inr (Or.inl ha)
  · exact absurd ha (List.not_mem_nil a)
  · rw [List.mem_singleton] at ha
    exact Or.inr (Or.inr (Or.inl ha))
  · rw [List.mem_singleton] at ha
    exact Or.inr (Or.inr (Or.inr (Or.inl ha)))
  · rw [List.mem_singleton] at ha
    exact Or.inr (Or.inr (Or.inr (Or.inr (Or.inl ha))))
  · exact absurd ha (List.not_mem_nil a)
  · rw [List.mem_singleton] at ha
    exact Or.inr (Or.inr (Or.inr (Or.inr (Or.inr ⟨ha, g1, g3, g5, g7, g9⟩))))

theorem extractLine_cands {cc : ICECredentials} {l : List Char} :
    ∀ c ∈ (extractLine cc l).candidates,
      c ∈ cc.candidates
        ∨ (hasPre (trimSpace l) "a=candidate:".toList = true
            ∧ c = (trimSpace l).drop "a=".length) := by
  intro c hc
  unfold extractLine at hc
  dsimp only at hc
  split_ifs at hc with g1 g2 g3 g4 g5
  · exact Or.inl hc
  · exact Or.inl hc
  · exact Or.inl hc
  · exact Or.inl hc
  · rcases List.mem_append.mp hc with h2 | h2
    · exact Or.inl h2
    · have he : c = (trimSpace l).drop "a=".length := by simpa using h2
      exact Or.inr ⟨g5, he⟩
  · exact Or.inl hc

theorem extractCredentials_cands_pre (s : String) :
    ∀ c ∈ (extractCredentials s).candidates, hasPre c "candidate:".toList = true := by
  unfold extractCredentials
  have hgen : ∀ (lines : List (List Char)) (cc : ICECredentials),
      (∀ c ∈ cc.candidates, hasPre c "candidate:".toList = true) →
      ∀ c ∈ (lines.foldl extractLine cc).candidates,
        hasPre c "candidate:".toList = true := by
    intro lines
    induction lines with
    | nil => intro cc h; exact h
    | cons l rest ih =>
      intro cc h
      rw [List.foldl_cons]
      apply ih
      intro c hc
      rcases extractLine_cands c hc with h2 | ⟨hpre, rfl⟩
      · exact h c h2
      · obtain ⟨t, ht⟩ := hasPre_eq_true_iff.mp hpre
        rw [← ht, show (("a=candidate:".toList ++ t)).drop "a=".length
            = "candidate:".toList ++ t from rfl]
        exact hasPre_eq_true_iff.mpr (List.prefix_append _ _)
  exact hgen _ _ (by simp)

theorem marshal_attr_of_a {d : SessionDesc} {l : List Char}
    (hl : l ∈ marshalLines d) (ha : l.head? = some 'a') :
    (∃ a ∈ d.attributes, l = attrLine a)
      ∨ ∃ md ∈ d.mediaDescriptions, ∃ a ∈ md.attributes, l = attrLine a := by
  unfold marshalLines at hl
  rcases List.mem_append.mp hl with h2 | h2
  · unfold sessionLines at h2
    rcases List.mem_append.mp h2 with h3 | h3
    · rcases List.mem_append.mp h3 with h4 | h4
      · rcases List.mem_append.mp h4 with h5 | h5
        · simp only [List.mem_cons, List.not_mem_nil, or_false] at h5
          rcases h5 with rfl | rfl | rfl
          · rw [show (vLine d.version).head? = some 'v' from rfl] at ha
            exact absurd ha (by decide)
          · rw [show (oLine d.origin).head? = some 'o' from rfl] at ha
            exact absurd ha (by decide)
          · rw [show (sLine d.sessionName).head? = some 's' from rfl] at ha
            exact absurd ha (by decide)
        · cases hci : d.connInfo with
          | none =>
            rw [hci] at h5
            simp at h5
          | some ci =>
            rw [hci] at h5
            have he : l = connLine ci := by simpa using h5
            subst he
            rw [show (connLine ci).head? = some 'c' from rfl] at ha
            exact absurd ha (by decide)
      · obtain ⟨t, _, rfl⟩ := List.mem_map.mp h4
        rw [show (tLine t).head? = some 't' from rfl] at ha
        exact absurd ha (by decide)
    · obtain ⟨a, hma, rfl⟩ := List.mem_map.mp h3
      exact Or.inl ⟨a, hma, rfl⟩
  · obtain ⟨ls, hls, hmem⟩ := List.mem_flatten.mp h2
    obtain ⟨md, hmd, rfl⟩ := List.mem_map.mp hls
    unfold mediaLines at hmem
    rcases List.mem_cons.mp hmem with rfl | h3
    · rw [show (mLine md.mediaName).head? = some 'm' from rfl] at ha
      exact absurd ha (by decide)
    · rcases List.mem_append.mp h3 with h4 | h4
      · cases hci : md.connInfo with
        | none =>
          rw [hci] at h4
          simp at h4
        | some ci =>
          rw [hci] at h4
          have he : l = connLine ci := by simpa using h4
          subst he
          rw [show (connLine ci).head? = some 'c' from rfl] at ha
          exact absurd ha (by decide)
      · obtain ⟨a, hma, rfl⟩ := List.mem_map.mp h4
        exact Or.inr ⟨md, hmd, a, hma, rfl⟩

theorem ansD_attr_session {w : SessionDesc} {cc : ICECredentials} {a : GoAttr}
    (ha : a ∈ (answerForWowzaDesc w cc).attributes) :
    ∃ a0 ∈ w.attributes, a = rewriteSessionAttr cc a0 := by
  unfold answerForWowzaDesc at ha
  dsimp only at ha
  obtain ⟨a0, h0, rfl⟩ := List.mem_map.mp ha
  exact ⟨a0, h0, rfl⟩

theorem ansD_attr_media {w : SessionDesc} {cc : ICECredentials} {md2 : MediaDesc}
    {a : GoAttr} (hmd : md2 ∈ (answerForWowzaDesc w cc).mediaDescriptions)
    (ha : a ∈ md2.attributes) :
    ∃ md ∈ w.mediaDescriptions,
      ((∃ a0 ∈ md.attributes, a ∈ rewriteMediaAttr cc a0)
        ∨ ∃ c ∈ cc.candidates, a = ⟨"candidate".toList, c⟩) := by
  unfold answerForWowzaDesc at hmd
  dsimp only at hmd
  obtain ⟨md, h0, rfl⟩ := List.mem_map.mp hmd
  unfold rewriteMedia at ha
  dsimp only at ha
  rcases List.mem_append.mp ha with h2 | h2
  · obtain ⟨la, hla, hmem⟩ := List.mem_flatten.mp h2
    obtain ⟨a0, ha0, rfl⟩ := List.mem_map.mp hla
    exact ⟨md, h0, Or.inl ⟨a0, ha0, hmem⟩⟩
  · obtain ⟨c, hcm, rfl⟩ := List.mem_map.mp h2
    exact ⟨md, h0, Or.inr ⟨c, hcm, rfl⟩⟩

theorem marshal_attr_provenance {w : SessionDesc} {cc : ICECredentials}
    {l : List Char} (hl : l ∈ marshalLines (answerForWowzaDesc w cc))
    (ha : l.head? = some 'a') :
    ∃ a : GoAttr, l = attrLine a
      ∧ ((∃ a0 ∈ w.attributes, a = rewriteSessionAttr cc a0)
        ∨ ∃ md ∈ w.mediaDescriptions,
            ((∃ a0 ∈ md.attributes, a ∈ rewriteMediaAttr cc a0)
              ∨ ∃ c ∈ cc.candidates, a = ⟨"candidate".toList, c⟩)) := by
  rcases marshal_attr_of_a hl ha with ⟨a, hma, rfl⟩ | ⟨md2, hmd2, a, hma, rfl⟩
  · exact ⟨a, rfl, Or.inl (ansD_attr_session hma)⟩
  · exact ⟨a, rfl, Or.inr (ansD_attr_media hmd2 hma)⟩

theorem ansD_attr_classify {w : SessionDesc} {cc : ICECredentials} {a : GoAttr}
    (hf : cc.fingerprint ≠ [])
    (hsess : ∀ a2 ∈ w.attributes, ':' ∉ a2.key ∧ a2.key ≠ "ice-ufrag".toList
      ∧ a2.key ≠ "ice-pwd".toList ∧ a2.key ≠ "setup".toList
      ∧ a2.key ≠ "candidate".toList)
    (hmkeys : ∀ md ∈ w.mediaDescriptions, ∀ a2 ∈ md.attributes, ':' ∉ a2.key)
    (hcase : (∃ a0 ∈ w.attributes, a = rewriteSessionAttr cc a0)
      ∨ ∃ md ∈ w.mediaDescriptions,
          ((∃ a0 ∈ md.attributes, a ∈ rewriteMediaAttr cc a0)
            ∨ ∃ c ∈ cc.candidates, a = ⟨"candidate".toList, c⟩)) :
    ':' ∉ a.key
    ∧ (a = ⟨"ice-ufrag".toList, cc.iceUfrag⟩
      ∨ a = ⟨"ice-pwd".toList, cc.icePwd⟩
      ∨ a = ⟨"fingerprint".toList, cc.fingerprint⟩
      ∨ a = ⟨"setup".toList, "active".toList⟩
      ∨ (∃ c ∈ cc.candidates, a = ⟨"candidate".toList, c⟩)
      ∨ (a.key ≠ "ice-ufrag".toList ∧ a.key ≠ "ice-pwd".toList
          ∧ a.key ≠ "fingerprint".toList ∧ a.key ≠ "setup".toList
          ∧ a.key ≠ "candidate".toList)) := by
  rcases hcase with ⟨a0, ha0, rfl⟩ | ⟨md, hmd, hcase2⟩
  · obtain ⟨hc1, hc2, hc3, hc4, hc5⟩ := hsess a0 ha0
    rcases rewriteSessionAttr_cases cc a0 with heq | ⟨heq, himp⟩
    · rw [heq]
      exact ⟨by dsimp only; decide, Or.inr (Or.inr (Or.inl rfl))⟩
    · rw [heq]
      refine ⟨hc1, Or.inr (Or.inr (Or.inr (Or.inr (Or.inr ⟨hc2, hc3, ?_, hc4, hc5⟩))))⟩
      intro hk
      exact absurd (himp hk)
        (by rw [isEmpty_false_of_ne hf]; exact Bool.false_ne_true)
  · rcases hcase2 with ⟨a0, ha0, hmem⟩ | ⟨c, hcm, rfl⟩
    · have hc0 := hmkeys md hmd a0 ha0
      rcases rewriteMediaAttr_cases cc a0 a hmem with
        heq | heq | heq | heq | heq | ⟨heq, h1, h2, h3, h4, h5⟩
      · rw [heq]
        exact ⟨by dsimp only; decide, Or.inl rfl⟩
      · rw [heq]
        exact ⟨by dsimp only; decide, Or.inr (Or.inl rfl)⟩
      · rw [heq]
        exact ⟨by dsimp only; decide, Or.inr (Or.inr (Or.inl rfl))⟩
      · rw [heq]
        exact ⟨by dsimp only; decide, Or.inr (Or.inr (Or.inr (Or.inl rfl)))⟩
      · rw [heq]
        exact ⟨by dsimp only; decide, Or.inr (Or.inr (Or.inr (Or.inr (Or.inr
          ⟨by decide, by decide, by decide, by decide, by decide⟩))))⟩
      · rw [heq]
        exact ⟨hc0, Or.inr (Or.inr (Or.inr (Or.inr (Or.inr ⟨h1, h2, h3, h4, h5⟩))))⟩
    · exact ⟨by dsimp only; decide, Or.inr (Or.inr (Or.inr (Or.inr (Or.inl ⟨c, hcm, rfl⟩))))⟩

theorem marshal_line_props {w : SessionDesc} {cc : ICECredentials} {l : List Char}
    (hu : cc.iceUfrag ≠ []) (hp : cc.icePwd ≠ []) (hf : cc.fingerprint ≠ [])
    (hsess : ∀ a2 ∈ w.attributes, ':' ∉ a2.key ∧ a2.key ≠ "ice-ufrag".toList
      ∧ a2.key ≠ "ice-pwd".toList ∧ a2.key ≠ "setup".toList
      ∧ a2.key ≠ "candidate".toList)
    (hmkeys : ∀ md ∈ w.mediaDescriptions, ∀ a2 ∈ md.attributes, ':' ∉ a2.key)
    (hcands : ∀ c ∈ cc.candidates, hasPre c "candidate:".toList = true)
    (hl : l ∈ marshalLines (answerForWowzaDesc w cc)) :
    (hasPre l "a=ice-ufrag:".toList = true → l = "a=ice-ufrag:".toList ++ cc.iceUfrag)
    ∧ (hasPre l "a=ice-pwd:".toList = true → l = "a=ice-pwd:".toList ++ cc.icePwd)
    ∧ (hasPre l "a=fingerprint:".toList = true
        → l = "a=fingerprint:".toList ++ cc.fingerprint)
    ∧ (hasPre l "a=setup:".toList = true → l = "a=setup:active".toList)
    ∧ (hasPre l "a=candidate:".toList = true
        → ∃ c ∈ cc.candidates, l = "a=candidate:".toList ++ c) := by
  refine ⟨?_, ?_, ?_, ?_, ?_⟩
  · intro hK
    have ha : l.head? = some 'a' :=
      head_of_hasPre (show hasPre l ('a' :: "=ice-ufrag:".toList) = true from hK)
    obtain ⟨a, rfl, hprov⟩ := marshal_attr_provenance hl ha
    obtain ⟨hcf, hcls⟩ := ansD_attr_classify hf hsess hmkeys hprov
    have hkey : a.key = "ice-ufrag".toList :=
      @attr_hasPre_key a "ice-ufrag".toList (by decide) hcf hK
    rcases hcls with heq | heq | heq | heq | ⟨c, hcm, heq⟩ | ⟨h1, h2, h3, h4, h5⟩
    · rw [heq]
      exact attrLine_val_ne hu
    · rw [heq] at hkey
      exact absurd hkey (by dsimp only; decide)
    · rw [heq] at hkey
      exact absurd hkey (by dsimp only; decide)
    · rw [heq] at hkey
      exact absurd hkey (by dsimp only; decide)
    · rw [heq] at hkey
      exact absurd hkey (by dsimp only; decide)
    · exact absurd hkey h1
  · intro hK
    have ha : l.head? = some 'a' :=
      head_of_hasPre (show hasPre l ('a' :: "=ice-pwd:".toList) = true from hK)
    obtain ⟨a, rfl, hprov⟩ := marshal_attr_provenance hl ha
    obtain ⟨hcf, hcls⟩ := ansD_attr_classify hf hsess hmkeys hprov
    have hkey : a.key = "ice-pwd".toList :=
      @attr_hasPre_key a "ice-pwd".toList (by decide) hcf hK
    rcases hcls with heq | heq | heq | heq | ⟨c, hcm, heq⟩ | ⟨h1, h2, h3, h4, h5⟩
    · rw [heq] at hkey
      exact absurd hkey (by dsimp only; decide)
    · rw [heq]
      exact attrLine_val_ne hp
    · rw [heq] at hkey
      exact absurd hkey (by dsimp only; decide)
    · rw [heq] at hkey
      exact absurd hkey (by dsimp only; decide)
    · rw [heq] at hkey
      exact absurd hkey (by dsimp only; decide)
    · exact absurd hkey h2
  · intro hK
    have ha : l.head? = some 'a' :=
      head_of_hasPre (show hasPre l ('a' :: "=fingerprint:".toList) = true from hK)
    obtain ⟨a, rfl, hprov⟩ := marshal_attr_provenance hl ha
    obtain ⟨hcf, hcls⟩ := ansD_attr_classify hf hsess hmkeys hprov
    have hkey : a.key = "fingerprint".toList :=
      @attr_hasPre_key a "fingerprint".toList (by decide) hcf hK
    rcases hcls with heq | heq | heq | heq | ⟨c, hcm, heq⟩ | ⟨h1, h2, h3, h4, h5⟩
    · rw [heq] at hkey
      exact absurd hkey (by dsimp only; decide)
    · rw [heq] at hkey
      exact absurd hkey (by dsimp only; decide)
    · rw [heq]
      exact attrLine_val_ne hf
    · rw [heq] at hkey
      exact absurd hkey (by dsimp only; decide)
    · rw [heq] at hkey
      exact absurd hkey (by dsimp only; decide)
    · exact absurd hkey h3
  · intro hK
    have ha : l.head? = some 'a' :=
      head_of_hasPre (show hasPre l ('a' :: "=setup:".toList) = true from hK)
    obtain ⟨a, rfl, hprov⟩ := marshal_attr_provenance hl ha
    obtain ⟨hcf, hcls⟩ := ansD_attr_classify hf hsess hmkeys hprov
    have hkey : a.key = "setup".toList :=
      @attr_hasPre_key a "setup".toList (by decide) hcf hK
    rcases hcls with heq | heq | heq | heq | ⟨c, hcm, heq⟩ | ⟨h1, h2, h3, h4, h5⟩
    · rw [heq] at hkey
      exact absurd hkey (by dsimp only; decide)
    · rw [heq] at hkey
      exact absurd hkey (by dsimp only; decide)
    · rw [heq] at hkey
      exact absurd hkey (by dsimp only; decide)
    · rw [heq]
      decide
    · rw [heq] at hkey
      exact absurd hkey (by dsimp only; decide)
    · exact absurd hkey h4
  · intro hK
    have ha : l.head? = some 'a' :=
      head_of_hasPre (show hasPre l ('a' :: "=candidate:".toList) = true from hK)
    obtain ⟨a, rfl, hprov⟩ := marshal_attr_provenance hl ha
    obtain ⟨hcf, hcls⟩ := ansD_attr_classify hf hsess hmkeys hprov
    have hkey : a.key = "candidate".toList :=
      @attr_hasPre_key a "candidate".toList (by decide) hcf hK
    rcases hcls with heq | heq | heq | heq | ⟨c, hcm, heq⟩ | ⟨h1, h2, h3, h4, h5⟩
    · rw [heq] at hkey
      exact absurd hkey (by dsimp only; decide)
    · rw [heq] at hkey
      exact absurd hkey (by dsimp only; decide)
    · rw [heq] at hkey
      exact absurd hkey (by dsimp only; decide)
    · rw [heq] at hkey
      exact absurd hkey (by dsimp only; decide)
    · rw [heq]
      refine ⟨c, hcm, ?_⟩
      have hcne : c ≠ [] := by
        intro hnil
        have hcp := hcands c hcm
        rw [hnil] at hcp
        exact absurd hcp (by decide)
      exact attrLine_val_ne hcne
    · exact absurd hkey h5

/-! ### The client's credential lines survive into every media section -/

theorem rewriteMediaAttr_ufrag {cc : ICECredentials} {a0 : GoAttr}
    (hk : a0.key = "ice-ufrag".toList) (hu : cc.iceUfrag ≠ []) :
    rewriteMediaAttr cc a0 = [⟨"ice-ufrag".toList, cc.iceUfrag⟩] := by
  unfold rewriteMediaAttr
  rw [if_pos hk,
    if_neg (by rw [isEmpty_false_of_ne hu]; exact Bool.false_ne_true)]

theorem rewriteMediaAttr_pwd {cc : ICECredentials} {a0 : GoAttr}
    (hk : a0.key = "ice-pwd".toList) (hp : cc.icePwd ≠ []) :
    rewriteMediaAttr cc a0 = [⟨"ice-pwd".toList, cc.icePwd⟩] := by
  unfold rewriteMediaAttr
  rw [if_neg (by rw [hk]; decide), if_pos hk,
    if_neg (by rw [isEmpty_false_of_ne hp]; exact Bool.false_ne_true)]

theorem rewriteMediaAttr_fp {cc : ICECredentials} {a0 : GoAttr}
    (hk : a0.key = "fingerprint".toList) (hf : cc.fingerprint ≠ []) :
    rewriteMediaAttr cc a0 = [⟨"fingerprint".toList, cc.fingerprint⟩] := by
  unfold rewriteMediaAttr
  rw [if_neg (by rw [hk]; decide), if_neg (by rw [hk]; decide), if_pos hk,
    if_neg (by rw [isEmpty_false_of_ne hf]; exact Bool.false_ne_true)]

theorem rewriteMediaAttr_setup {cc : ICECredentials} {a0 : GoAttr}
    (hk : a0.key = "setup".toList) :
    rewriteMediaAttr cc a0 = [⟨"setup".toList, "active".toList⟩] := by
  unfold rewriteMediaAttr
  rw [if_neg (by rw [hk]; decide), if_neg (by rw [hk]; decide),
    if_neg (by rw [hk]; decide), if_pos hk]

theorem rm_attr_mem {cc : ICECredentials} {md : MediaDesc} {a0 out : GoAttr}
    (ha0 : a0 ∈ md.attributes) (heq : rewriteMediaAttr cc a0 = [out]) :
    out ∈ (rewriteMedia cc md).attributes := by
  unfold rewriteMedia
  dsimp only
  apply List.mem_append.mpr
  left
  apply List.mem_flatten.mpr
  exact ⟨[out], List.mem_map.mpr ⟨a0, ha0, heq⟩, List.mem_singleton.mpr rfl⟩

theorem attr_to_filtered_line {cc : ICECredentials} {md : MediaDesc}
    {K V : List Char} (hV : V ≠ [])
    (hattr : (⟨K, V⟩ : GoAttr) ∈ (rewriteMedia cc md).attributes)
    (hkeep : lineRemoved (attrLine ⟨K, V⟩) = false) :
    ("a=".toList ++ K ++ ':' :: V)
      ∈ List.filter (fun l => !lineRemoved l) (mediaLines (rewriteMedia cc md)) := by
  rw [← attrLine_val_ne hV]
  apply List.mem_filter.mpr
  refine ⟨?_, by rw [hkeep]; rfl⟩
  unfold mediaLines
  exact List.mem_cons_of_mem _
    (List.mem_append.mpr (Or.inr (List.mem_map_of_mem attrLine hattr)))

theorem client_lines_in_filtered {cc : ICECredentials} {md : MediaDesc}
    (hu : cc.iceUfrag ≠ []) (hp : cc.icePwd ≠ []) (hf : cc.fingerprint ≠ [])
    (h1 : ∃ a ∈ md.attributes, a.key = "ice-ufrag".toList)
    (h2 : ∃ a ∈ md.attributes, a.key = "ice-pwd".toList)
    (h3 : ∃ a ∈ md.attributes, a.key = "fingerprint".toList)
    (h4 : ∃ a ∈ md.attributes, a.key = "setup".toList) :
    ("a=ice-ufrag:".toList ++ cc.iceUfrag)
        ∈ List.filter (fun l => !lineRemoved l) (mediaLines (rewriteMedia cc md))
    ∧ ("a=ice-pwd:".toList ++ cc.icePwd)
        ∈ List.filter (fun l => !lineRemoved l) (mediaLines (rewriteMedia cc md))
    ∧ ("a=fingerprint:".toList ++ cc.fingerprint)
        ∈ List.filter (fun l => !lineRemoved l) (mediaLines (rewriteMedia cc md))
    ∧ "a=setup:active".toList
        ∈ List.filter (fun l => !lineRemoved l) (mediaLines (rewriteMedia cc md)) := by
  obtain ⟨a1, ha1, hk1⟩ := h1
  obtain ⟨a2, ha2, hk2⟩ := h2
  obtain ⟨a3, ha3, hk3⟩ := h3
  obtain ⟨a4, ha4, hk4⟩ := h4
  refine ⟨?_, ?_, ?_, ?_⟩
  · exact attr_to_filtered_line hu
      (rm_attr_mem ha1 (rewriteMediaAttr_ufrag hk1 hu))
      (cred_attr_not_removed (by decide) (by decide) (by decide) (by decide))
  · exact attr_to_filtered_line hp
      (rm_attr_mem ha2 (rewriteMediaAttr_pwd hk2 hp))
      (cred_attr_not_removed (by decide) (by decide) (by decide) (by decide))
  · exact attr_to_filtered_line hf
      (rm_attr_mem ha3 (rewriteMediaAttr_fp hk3 hf))
      (cred_attr_not_removed (by decide) (by decide) (by decide) (by decide))
  · exact attr_to_filtered_line (by decide)
      (rm_attr_mem ha4 (rewriteMediaAttr_setup hk4))
      (cred_attr_not_removed (by decide) (by decide) (by decide) (by decide))

theorem session_attr_of_a {d : SessionDesc} {l : List Char}
    (hl : l ∈ sessionLines d) (ha : l.head? = some 'a') :
    ∃ a ∈ d.attributes, l = attrLine a := by
  unfold sessionLines at hl
  rcases List.mem_append.mp hl with h3 | h3
  · rcases List.mem_append.mp h3 with h4 | h4
    · rcases List.mem_append.mp h4 with h5 | h5
      · simp only [List.mem_cons, List.not_mem_nil, or_false] at h5
        rcases h5 with rfl | rfl | rfl
        · rw [show (vLine d.version).head? = some 'v' from rfl] at ha
          exact absurd ha (by decide)
        · rw [show (oLine d.origin).head? = some 'o' from rfl] at ha
          exact absurd ha (by decide)
        · rw [show (sLine d.sessionName).head? = some 's' from rfl] at ha
          exact absurd ha (by decide)
      · cases hci : d.connInfo with
        | none =>
          rw [hci] at h5
          simp at h5
        | some ci =>
          rw [hci] at h5
          have he : l = connLine ci := by simpa using h5
          subst he
          rw [show (connLine ci).head? = some 'c' from rfl] at ha
          exact absurd ha (by decide)
    · obtain ⟨t, _, rfl⟩ := List.mem_map.mp h4
      rw [show (tLine t).head? = some 't' from rfl] at ha
      exact absurd ha (by decide)
  · obtain ⟨a, hma, rfl⟩ := List.mem_map.mp h3
    exact ⟨a, hma, rfl⟩

theorem sess_no_ufrag {w : SessionDesc} {cc : ICECredentials}
    (hsess : ∀ a2 ∈ w.attributes, ':' ∉ a2.key ∧ a2.key ≠ "ice-ufrag".toList
      ∧ a2.key ≠ "ice-pwd".toList ∧ a2.key ≠ "setup".toList
      ∧ a2.key ≠ "candidate".toList) :
    ∀ l ∈ sessionLines (answerForWowzaDesc w cc),
      hasPre l "a=ice-ufrag:".toList = false := by
  intro l hl
  rw [Bool.eq_false_iff]
  intro hK
  have ha : l.head? = some 'a' :=
    head_of_hasPre (show hasPre l ('a' :: "=ice-ufrag:".toList) = true from hK)
  obtain ⟨a, hma, rfl⟩ := session_attr_of_a hl ha
  obtain ⟨a0, ha0, rfl⟩ := ansD_attr_session hma
  obtain ⟨hc1, hc2, hc3, hc4, hc5⟩ := hsess a0 ha0
  rcases rewriteSessionAttr_cases cc a0 with heq | ⟨heq, _⟩
  · have hkey := @attr_hasPre_key (rewriteSessionAttr cc a0) "ice-ufrag".toList
      (by decide) (by rw [heq]; dsimp only; decide) hK
    rw [heq] at hkey
    exact absurd hkey (by dsimp only; decide)
  · have hkey := @attr_hasPre_key (rewriteSessionAttr cc a0) "ice-ufrag".toList
      (by decide) (by rw [heq]; exact hc1) hK
    rw [heq] at hkey
    exact hc2 hkey

/-- **C1 (amended).** For every Wowza offer (parsed as `w`) whose lines are
CRLF-free, whose session attributes use colon-free keys other than
`ice-ufrag`, `ice-pwd`, `setup`, `candidate`, and whose media sections use
colon-free keys and each carry `ice-ufrag`, `ice-pwd`, `fingerprint` and
`setup` attributes, and for every client offer providing non-empty ice-ufrag,
ice-pwd and fingerprint: every media section of `CreateAnswerForWowza`'s
output carries the client's `a=ice-ufrag`, `a=ice-pwd`, `a=fingerprint` lines
and `a=setup:active`; every `a=ice-ufrag:`-, `a=ice-pwd:`-, `a=fingerprint:`-
or `a=setup:`-prefixed line of the output carries exactly the client's value
(`active` for setup) — so none of Wowza's media credentials survive — and
every `a=candidate:` line stems from the client's extracted candidates, none
from the Wowza offer; when Wowza has a session-level fingerprint the session
part carries the client's fingerprint; and the output string is the CRLF join
of these lines. -/
theorem claim_C1_amended (w : SessionDesc) (co : String)
    (hwfw : descWfL w)
    (hu : (extractCredentials co).iceUfrag ≠ [])
    (hp : (extractCredentials co).icePwd ≠ [])
    (hf : (extractCredentials co).fingerprint ≠ [])
    (hsess : ∀ a ∈ w.attributes, ':' ∉ a.key ∧ a.key ≠ "ice-ufrag".toList
      ∧ a.key ≠ "ice-pwd".toList ∧ a.key ≠ "setup".toList
      ∧ a.key ≠ "candidate".toList)
    (hmkeys : ∀ md ∈ w.mediaDescriptions, ∀ a ∈ md.attributes, ':' ∉ a.key)
    (hpres : ∀ md ∈ w.mediaDescriptions,
      (∃ a ∈ md.attributes, a.key = "ice-ufrag".toList)
      ∧ (∃ a ∈ md.attributes, a.key = "ice-pwd".toList)
      ∧ (∃ a ∈ md.attributes, a.key = "fingerprint".toList)
      ∧ (∃ a ∈ md.attributes, a.key = "setup".toList)) :
    (∀ sec ∈ mediaSections (CreateAnswerForWowzaLines w co),
        ("a=ice-ufrag:".toList ++ (extractCredentials co).iceUfrag) ∈ sec
        ∧ ("a=ice-pwd:".toList ++ (extractCredentials co).icePwd) ∈ sec
        ∧ ("a=fingerprint:".toList ++ (extractCredentials co).fingerprint) ∈ sec
        ∧ "a=setup:active".toList ∈ sec)
    ∧ (∀ l ∈ CreateAnswerForWowzaLines w co,
        (hasPre l "a=ice-ufrag:".toList = true
          → l = "a=ice-ufrag:".toList ++ (extractCredentials co).iceUfrag)
        ∧ (hasPre l "a=ice-pwd:".toList = true
          → l = "a=ice-pwd:".toList ++ (extractCredentials co).icePwd)
        ∧ (hasPre l "a=fingerprint:".toList = true
          → l = "a=fingerprint:".toList ++ (extractCredentials co).fingerprint)
        ∧ (hasPre l "a=setup:".toList = true → l = "a=setup:active".toList)
        ∧ (hasPre l "a=candidate:".toList = true
          → ∃ c ∈ (extractCredentials co).candidates,
              l = "a=candidate:".toList ++ c))
    ∧ ((∃ a ∈ w.attributes, a.key = "fingerprint".toList) →
        ("a=fingerprint:".toList ++ (extractCredentials co).fingerprint)
          ∈ sessionSection (CreateAnswerForWowzaLines w co))
    ∧ CreateAnswerForWowza w co
        = (List.intercalate crlfSep (CreateAnswerForWowzaLines w co ++ [[]])).asString := by
  have hcands := extractCredentials_cands_pre co
  have hwfA : descWfL (answerForWowzaDesc w (extractCredentials co)) :=
    answerForWowzaDesc_wf hwfw (extractCredentials_wf co)
  have hF : filterLines (marshalLines (answerForWowzaDesc w (extractCredentials co)))
      = List.filter (fun l => !lineRemoved l)
          (sessionLines (answerForWowzaDesc w (extractCredentials co)))
        ++ (w.mediaDescriptions.map
            (fun md => List.filter (fun l => !lineRemoved l)
              (mediaLines (rewriteMedia (extractCredentials co) md)))).flatten := by
    rw [filterLines_eq_filter]
    unfold marshalLines
    rw [List.filter_append, List.filter_flatten, List.map_map]
    unfold answerForWowzaDesc
    dsimp only
    rw [List.map_map]
    rfl
  have hpreNonM : ∀ l ∈ List.filter (fun l => !lineRemoved l)
      (sessionLines (answerForWowzaDesc w (extractCredentials co))),
      isMLineB l = false :=
    fun l hl => sessionLines_nonm _ l (List.mem_of_mem_filter hl)
  have hpreNoU : ∀ l ∈ List.filter (fun l => !lineRemoved l)
      (sessionLines (answerForWowzaDesc w (extractCredentials co))),
      hasPre l "a=ice-ufrag:".toList = false :=
    fun l hl => sess_no_ufrag hsess l (List.mem_of_mem_filter hl)
  have hshF : ∀ sec ∈ w.mediaDescriptions.map
      (fun md => List.filter (fun l => !lineRemoved l)
        (mediaLines (rewriteMedia (extractCredentials co) md))), SecShape sec := by
    intro sec hs
    obtain ⟨md, _, rfl⟩ := List.mem_map.mp hs
    exact filter_keep_shape (mediaLines_shape _)
  obtain ⟨fsecs2, hins, hsh2, hsub⟩ :
      ∃ fsecs2 : List (List (List Char)),
        CreateAnswerForWowzaLines w co
          = List.filter (fun l => !lineRemoved l)
              (sessionLines (answerForWowzaDesc w (extractCredentials co)))
            ++ fsecs2.flatten
        ∧ (∀ sec ∈ fsecs2, SecShape sec)
        ∧ ∀ sec2 ∈ fsecs2, ∃ md ∈ w.mediaDescriptions,
            ∀ x ∈ List.filter (fun l => !lineRemoved l)
              (mediaLines (rewriteMedia (extractCredentials co) md)), x ∈ sec2 := by
    unfold CreateAnswerForWowzaLines addTrickleLines
    rw [hF]
    split_ifs with hg
    · refine ⟨w.mediaDescriptions.map
        (fun md => List.filter (fun l => !lineRemoved l)
          (mediaLines (rewriteMedia (extractCredentials co) md))), rfl, hshF, ?_⟩
      intro sec2 hsec2
      obtain ⟨md, hmd, rfl⟩ := List.mem_map.mp hsec2
      exact ⟨md, hmd, fun x hx => hx⟩
    · rw [ins_append_right hpreNoU]
      obtain ⟨fs2, heq, hsh2, hsub⟩ := ins_flatten _ hshF
      refine ⟨fs2, by rw [heq], hsh2, ?_⟩
      intro sec2 hsec2
      obtain ⟨sec, hsec, hsup⟩ := hsub sec2 hsec2
      obtain ⟨md, hmd, rfl⟩ := List.mem_map.mp hsec
      exact ⟨md, hmd, fun x hx => hsup x hx⟩
  have hms : mediaSections (CreateAnswerForWowzaLines w co) = fsecs2 := by
    rw [hins]
    have h2 := mediaSections_spec
      (List.filter (fun l => !lineRemoved l)
        (sessionLines (answerForWowzaDesc w (extractCredentials co))))
      fsecs2 [] hpreNonM (by simp) hsh2
    rw [List.append_nil] at h2
    rw [h2, attachLast_nil_post]
  refine ⟨?_, ?_, ?_, createAnswerForWowza_eq_lines hwfA⟩
  · intro sec hsec
    rw [hms] at hsec
    obtain ⟨md, hmd, hsup⟩ := hsub sec hsec
    obtain ⟨hk1, hk2, hk3, hk4⟩ := hpres md hmd
    obtain ⟨m1, m2, m3, m4⟩ := client_lines_in_filtered hu hp hf hk1 hk2 hk3 hk4
    exact ⟨hsup _ m1, hsup _ m2, hsup _ m3, hsup _ m4⟩
  · intro l hl
    unfold CreateAnswerForWowzaLines at hl
    rcases addTrickleLines_subset hl with rfl | hl2
    · refine ⟨?_, ?_, ?_, ?_, ?_⟩ <;> intro hx <;> exact absurd hx (by decide)
    · exact marshal_line_props hu hp hf hsess hmkeys hcands (filterLines_subset hl2)
  · intro hfa
    obtain ⟨a0, ha0, hk0⟩ := hfa
    have hrw : rewriteSessionAttr (extractCredentials co) a0
        = ⟨"fingerprint".toList, (extractCredentials co).fingerprint⟩ := by
      unfold rewriteSessionAttr
      rw [if_pos ⟨hk0, by rw [isEmpty_false_of_ne hf]; exact Bool.false_ne_true⟩]
    have hmem : ("a=fingerprint:".toList ++ (extractCredentials co).fingerprint)
        ∈ List.filter (fun l => !lineRemoved l)
          (sessionLines (answerForWowzaDesc w (extractCredentials co))) := by
      apply List.mem_filter.mpr
      constructor
      · have hmem2 : attrLine ⟨"fingerprint".toList, (extractCredentials co).fingerprint⟩
            ∈ sessionLines (answerForWowzaDesc w (extractCredentials co)) := by
          unfold sessionLines
          apply List.mem_append.mpr
          right
          rw [← hrw]
          apply List.mem_map_of_mem attrLine
          unfold answerForWowzaDesc
          dsimp only
          exact List.mem_map_of_mem _ ha0
        rw [attrLine_val_ne hf] at hmem2
        exact hmem2
      · rw [show ("a=fingerprint:".toList ++ (extractCredentials co).fingerprint)
            = attrLine ⟨"fingerprint".toList, (extractCredentials co).fingerprint⟩
          from (@attrLine_val_ne "fingerprint".toList
            (extractCredentials co).fingerprint hf).symm]
        rw [cred_attr_not_removed (by decide) (by decide) (by decide) (by decide)]
        rfl
    rw [hins]
    have h2 := sessionSection_spec
      (List.filter (fun l => !lineRemoved l)
        (sessionLines (answerForWowzaDesc w (extractCredentials co))))
      fsecs2 [] hpreNonM (by simp) hsh2
    rw [List.append_nil] at h2
    rw [h2]
    split_ifs with he
    · rw [List.append_nil]
      exact hmem
    · exact hmem

def c1w : SessionDesc :=
  { version := 0,
    origin := ⟨"-".toList, 1, 1, "IN".toList, "IP4".toList, "127.0.0.1".toList⟩,
    sessionName := "-".toList,
    connInfo := none,
    timeDescriptions := [⟨0, 0⟩],
    attributes := [],
    mediaDescriptions :=
      [{ mediaName :=
           { media := "video".toList, port := ⟨9, none⟩,
             protos := ["RTP".toList, "AVP".toList], formats := [['9', '6']] },
         connInfo := none,
         attributes :=
           [⟨"ice-ufrag".toList, "wu".toList⟩, ⟨"ice-pwd".toList, "wp".toList⟩,
            ⟨"fingerprint".toList, "wf".toList⟩,
            ⟨"setup".toList, "actpass".toList⟩] }] }

def c1co : String := "a=ice-ufrag:cu\r\na=ice-pwd:cp\r\na=fingerprint:sha-256 AA\r\n"

/-- Counterexample to C1 as stated: the session-attribute loop only replaces
`a=fingerprint`, it never adds the client's ice credentials, so for a Wowza
offer without session-level ICE attributes the answer's session part contains
no `a=ice-ufrag:cu` line even though the client's ufrag is `cu` (the line does
appear, but only inside the media section). -/
theorem claim_C1_counterexample :
    (extractCredentials c1co).iceUfrag = "cu".toList
    ∧ ("a=ice-ufrag:cu".toList
        ∉ sessionSection (splitOnSub crlfSep (CreateAnswerForWowza c1w c1co).toList))
    ∧ ("a=ice-ufrag:cu".toList
        ∈ splitOnSub crlfSep (CreateAnswerForWowza c1w c1co).toList) :=
  ⟨by decide, by decide, by decide⟩

def c1gw : SessionDesc :=
  { version := 0,
    origin := ⟨"-".toList, 1, 1, "IN".toList, "IP4".toList, "127.0.0.1".toList⟩,
    sessionName := "-".toList,
    connInfo := none,
    timeDescriptions := [⟨0, 0⟩],
    attributes := [⟨"fingerprint".toList, "wsessfp".toList⟩],
    mediaDescriptions :=
      [{ mediaName :=
           { media := "video".toList, port := ⟨9, none⟩,
             protos := ["RTP".toList, "AVP".toList], formats := [['9', '6']] },
         connInfo := none,
         attributes :=
           [⟨"ice-ufrag".toList, "wu".toList⟩, ⟨"ice-pwd".toList, "wp".toList⟩,
            ⟨"fingerprint".toList, "wf".toList⟩,
            ⟨"setup".toList, "actpass".toList⟩] }] }

def c1gco : String := "a=ice-ufrag:cu\r\na=ice-pwd:cp\r\na=fingerprint:sha-256 AA\r\n"

/-- Witness for the amended C1 at a concrete input: the single media section
carries the client's ufrag line, the session part carries the client's
fingerprint, and the string output is the CRLF join of the line pipeline. -/
theorem claim_C1_witness :
    ("a=ice-ufrag:".toList ++ (extractCredentials c1gco).iceUfrag)
        ∈ (mediaSections (CreateAnswerForWowzaLines c1gw c1gco)).headD []
    ∧ ("a=fingerprint:".toList ++ (extractCredentials c1gco).fingerprint)
        ∈ sessionSection (CreateAnswerForWowzaLines c1gw c1gco)
    ∧ CreateAnswerForWowza c1gw c1gco
        = (List.intercalate crlfSep
            (CreateAnswerForWowzaLines c1gw c1gco ++ [[]])).asString := by
  have hdesc : descWfL c1gw := by
    refine ⟨by unfold wfStr; decide, by unfold wfStr; decide, by unfold wfStr; decide,
      by unfold wfStr; decide, by unfold wfStr; decide,
      fun ci h => Option.noConfusion h, by unfold attrWfL wfStr; decide, ?_⟩
    intro md hmd
    simp only [c1gw, List.mem_cons, List.not_mem_nil, or_false] at hmd
    subst hmd
    refine ⟨by unfold wfStr; decide, by unfold wfStr; decide, by unfold wfStr; decide,
      fun ci h => Option.noConfusion h, by unfold attrWfL wfStr; decide⟩
  have h := claim_C1_amended c1gw c1gco hdesc (by decide) (by decide) (by decide)
    (by decide) (by decide) (by decide)
  exact ⟨(h.1 ((mediaSections (CreateAnswerForWowzaLines c1gw c1gco)).headD [])
      (by decide)).1,
    h.2.2.1 ⟨⟨"fingerprint".toList, "wsessfp".toList⟩, by decide, by decide⟩,
    h.2.2.2⟩
